import Mathlib

/-!
cpp-json-learn: the JSON value model, parser and serializer of `cppjson.h`.

A shallow embedding of the header `src/cppjson.h`.

* A `char` is its unsigned byte value, a `Nat` below 256; a `std::string` or
  `std::string_view` is the `List Nat` of its bytes.  `sv.remove_prefix(n)` is
  `sv.drop n`, `sv.substr(0, n)` is `sv.take n`, and `sv[0]` is `front sv`.
* A function that advances the cursor `std::string_view &sv` returns the new cursor
  next to its result.
* An exception, undefined behaviour and the exhaustion of the recursion fuel of the
  embedding are the three ways not to return (`Outcome`).
* The operations on `double` that the header takes from the C++ library are a
  parameter (`FloatOps`); everything else is computed.
-/

namespace JSON

/-- The bytes (UTF-8) of a string literal of the source. -/
def bytes (s : String) : List Nat :=
  (s.data.flatMap String.utf8EncodeChar).map UInt8.toNat

/-- `static constexpr int MAX_RECURSE_DEPTH = 1000;` -/
def MAX_RECURSE_DEPTH : Nat := 1000

/-- `static constexpr bool ENABLE_DUMPLICATED_KEY_DETECT = false;` -/
def ENABLE_DUMPLICATED_KEY_DETECT : Bool := false

/-- `static constexpr bool ENABLE_TRAILING_COMMA = false;` -/
def ENABLE_TRAILING_COMMA : Bool := false

/-- The `JSONParseException` built by `getJSONParseError`: the four arguments of its
`std::format` call.  `what` is the formatted message. -/
structure JSONParseException where
  unexpected_token : List Nat
  bkg : List Nat
  dots : List Nat
  excepted : List Nat
deriving DecidableEq, Repr

/-- The message: ``"Unexpected token {} at `{}{}` (excepted {})"``. -/
def JSONParseException.what (e : JSONParseException) : List Nat :=
  bytes "Unexpected token " ++ e.unexpected_token ++ bytes " at `" ++ e.bkg ++ e.dots
    ++ bytes "` (excepted " ++ e.excepted ++ bytes ")"

/-- How a call ends: it returns `a`, it throws a `JSONParseException`, its behaviour
is undefined (a `remove_prefix` past the end of the view), or the embedding ran out of
recursion fuel. -/
inductive Outcome (α : Type) where
  | ok (a : α)
  | error (e : JSONParseException)
  | undefined
  | fuel
deriving DecidableEq, Repr

/-- Sequencing of two calls: what the first one throws propagates. -/
def Outcome.bind {α β : Type} (x : Outcome α) (f : α → Outcome β) : Outcome β :=
  match x with
  | .ok a => f a
  | .error e => .error e
  | .undefined => .undefined
  | .fuel => .fuel

/-- `sv[0]`.  The views of the parser are suffixes of one `std::string`, so at the end
of the view this reads the terminating NUL of that string. -/
def front (sv : List Nat) : Nat := sv.headD 0

/-- `JSON::getJSONParseError`. -/
def getJSONParseError (sv : List Nat) (excepted : List Nat) : JSONParseException :=
  let bkg := sv.take 30
  let unexpected_token := if front sv = 0 then bytes "EOF" else [96, front sv, 96]
  { unexpected_token := unexpected_token
    bkg := bkg
    dots := if bkg.length < 30 then [] else bytes "..."
    excepted := excepted }

/-- The predicate of `removeWhiteSpaces`: space, `\n`, `\r`, `\t`. -/
def isWhiteSpace (c : Nat) : Bool := c = 32 || c = 10 || c = 13 || c = 9

/-- `JSON::removeWhiteSpaces`. -/
def removeWhiteSpaces (v : List Nat) : List Nat := v.dropWhile isWhiteSpace

/-- `std::string_view::starts_with`. -/
def starts_with (sv p : List Nat) : Bool := sv.take p.length = p

/-! ## The C++ library on integers -/

/-- `isspace` in the C locale. -/
def isspace (c : Nat) : Bool := c = 32 || (9 ≤ c && c ≤ 13)

/-- A decimal digit. -/
def isdigit (c : Nat) : Bool := 48 ≤ c && c ≤ 57

/-- The number a run of decimal digits denotes. -/
def digitsValue (ds : List Nat) : Nat := ds.foldl (fun a d => 10 * a + (d - 48)) 0

/-- The optional sign that `strtoll` and `strtod` accept: whether it is `-`, and the
text after it. -/
def takeSign (s : List Nat) : Bool × List Nat :=
  match s with
  | 45 :: t => (true, t)
  | 43 :: t => (false, t)
  | _ => (false, s)

/-- `std::stoll(s)` (base 10): leading white space, an optional sign, then the longest
run of digits.  `none` is a thrown `std::invalid_argument` (no digit) or
`std::out_of_range` (not an `int64_t`). -/
def stoll (s : List Nat) : Option Int :=
  let r := takeSign (s.dropWhile isspace)
  let ds := r.2.takeWhile isdigit
  if ds = [] then none
  else
    let v : Int := if r.1 then -(digitsValue ds : Int) else (digitsValue ds : Int)
    if -9223372036854775808 ≤ v ∧ v ≤ 9223372036854775807 then some v else none

/-- The decimal digits of `n`, most significant first, pushed in front of `acc`;
`fuel` bounds the number of digits. -/
def decimalDigits : Nat → Nat → List Nat → List Nat
  | 0, _, acc => acc
  | fuel + 1, n, acc =>
    if n < 10 then (48 + n) :: acc
    else decimalDigits fuel (n / 10) ((48 + n % 10) :: acc)

/-- `std::to_string(int64_t)`. -/
def to_string (x : Int) : List Nat :=
  if x < 0 then 45 :: decimalDigits (x.natAbs + 1) x.natAbs []
  else decimalDigits (x.natAbs + 1) x.natAbs []

/-! ## The C++ library on `double` -/

/-- The operations on `double` that the header uses, for a type `F` of doubles. -/
structure FloatOps (F : Type) where
  /-- The value `strtod` gives a text that has a numeric prefix; `none` when it
  reports `ERANGE`, which `std::stod` throws as `std::out_of_range`. -/
  strtod : List Nat → Option F
  /-- The conversion `int64_t` to `double`. -/
  ofInt64 : Int → F
  /-- The conversion `double` to `int64_t`. -/
  toInt64 : F → Int
  /-- `std::to_string(double)`. -/
  to_string : F → List Nat

/-- Lower case of an ASCII letter. -/
def tolower (c : Nat) : Nat := if 65 ≤ c ∧ c ≤ 90 then c + 32 else c

/-- Whether `strtod` finds a number at the start of `s`: after white space and an
optional sign, a digit, a `.` followed by a digit, `inf` or `nan` (in either case). -/
def hasFloatPrefix (s : List Nat) : Bool :=
  let t := (takeSign (s.dropWhile isspace)).2
  match t with
  | [] => false
  | c :: u =>
    isdigit c || (c = 46 && isdigit (front u))
      || (t.take 3).map tolower = bytes "inf" || (t.take 3).map tolower = bytes "nan"

/-- `std::stod(s)`: `none` is a thrown `std::invalid_argument` (no numeric prefix) or
`std::out_of_range`. -/
def stod {F : Type} (fo : FloatOps F) (s : List Nat) : Option F :=
  if hasFloatPrefix s then fo.strtod s else none

/-- A stand-in for the platform's `double`, to run the embedding on concrete inputs:
the doubles are the integers, and a text has the value of its integer part. -/
def intOps : FloatOps Int where
  strtod := fun s =>
    let r := takeSign (s.dropWhile isspace)
    let v : Int := digitsValue (r.2.takeWhile isdigit)
    some (if r.1 then -v else v)
  ofInt64 := fun i => i
  toInt64 := fun d => d
  to_string := fun d => to_string d ++ bytes ".000000"

/-! ## The value model -/

/-- `class Number`: the four data members. -/
structure Number (F : Type) where
  value_int : Int
  value_double : F
  is_double : Bool
  str_raw : List Nat

/-- A `JSON` (the node its `_uptr` owns).  The `std::vector<JSON>` of an `Array` is the
list of its elements; the `std::unordered_map<std::string, JSON>` of an `Object` is the
list of its entries in iteration order, which the container leaves unspecified. -/
inductive Value (F : Type) where
  | Null
  | Boolean (value : Bool)
  | Number (n : Number F)
  | String (value : List Nat)
  | Array (value : List (Value F))
  | Object (value : List (List Nat × Value F))

/-- `std::unordered_map::contains`. -/
def ObjectVT.contains {F : Type} (val : List (List Nat × Value F)) (key : List Nat) : Bool :=
  val.any (fun kv => kv.1 = key)

/-- `std::unordered_map::insert`: an entry whose key is present already is not
inserted.  (A new entry is put last in the iteration order.) -/
def ObjectVT.insert {F : Type} (val : List (List Nat × Value F)) (key : List Nat)
    (v : Value F) : List (List Nat × Value F) :=
  if ObjectVT.contains val key then val else val ++ [(key, v)]

/-- `Array::pushArray_`: the arguments are put at the end of the vector one after the
other, first argument first (each is a `JSON` built from the argument). -/
def Array.pushArray_ {F : Type} (arr : List (Value F)) : List (Value F) → List (Value F)
  | [] => arr
  | t :: args => Array.pushArray_ (arr ++ [t]) args

/-- `Array::makeArray`: an empty `Array` filled by `pushArray_`. -/
def Array.makeArray {F : Type} (args : List (Value F)) : Value F :=
  Value.Array (Array.pushArray_ [] args)

/-! ## Null and Boolean -/

/-- `JSON::Null::parse`. -/
def Null.parse (sv : List Nat) : Outcome (Unit × List Nat) :=
  let sv := removeWhiteSpaces sv
  if starts_with sv (bytes "null") then .ok ((), sv.drop 4)
  else .error (getJSONParseError sv (bytes "`null`"))

/-- `JSON::Boolean::parse`. -/
def Boolean.parse (sv : List Nat) : Outcome (Bool × List Nat) :=
  let sv := removeWhiteSpaces sv
  if starts_with sv (bytes "true") then .ok (true, sv.drop 4)
  else if starts_with sv (bytes "false") then .ok (false, sv.drop 5)
  else .error (getJSONParseError sv (bytes "`true` or `false`"))

/-! ## Number -/

/-- `Number(std::string str_raw, bool is_double)`; `none` is the exception of
`std::stod` or `std::stoll`. -/
def Number.ofText {F : Type} (fo : FloatOps F) (str_raw : List Nat) (is_double : Bool) :
    Option (Number F) :=
  if is_double then
    match stod fo str_raw with
    | some d =>
      some { value_int := fo.toInt64 d, value_double := d, is_double := is_double,
             str_raw := str_raw }
    | none => none
  else
    match stoll str_raw with
    | some i =>
      some { value_int := i, value_double := fo.ofInt64 i, is_double := is_double,
             str_raw := str_raw }
    | none => none

/-- `Number(double float_num)`. -/
def Number.ofDouble {F : Type} (fo : FloatOps F) (float_num : F) : Number F :=
  { value_int := fo.toInt64 float_num, value_double := float_num, is_double := true,
    str_raw := [] }

/-- The characters `Number::parse` consumes: `.`, a digit, `-`, `+`, `e`, `E`. -/
def isNumberChar (c : Nat) : Bool :=
  c = 46 || isdigit c || c = 45 || c = 43 || c = 101 || c = 69

/-- `JSON::Number::parse`.  The predicate of `find_if_not` sets `is_double` when it
meets a `.`; the retry as a double reads `sv.substr(0, n)` after the prefix has been
removed from `sv`. -/
def Number.parse {F : Type} (fo : FloatOps F) (sv : List Nat) :
    Outcome (Number F × List Nat) :=
  let sv := removeWhiteSpaces sv
  let numsv := sv.takeWhile isNumberChar
  let is_double := numsv.contains 46
  let n := numsv.length
  let sv := sv.drop (min n sv.length)
  match Number.ofText fo numsv is_double with
  | some x => .ok (x, sv)
  | none =>
    if !is_double then
      match Number.ofText fo (sv.take n) true with
      | some x => .ok (x, sv)
      | none => .error (getJSONParseError sv (bytes "but got out of range"))
    else .error (getJSONParseError sv (bytes "but got out of range"))

/-- `void Number::set(int64_t x)`. -/
def Number.set_int {F : Type} (self : Number F) (x : Int) : Number F :=
  { self with is_double := false, str_raw := [], value_int := x }

/-- `void Number::set(double d)`. -/
def Number.set_double {F : Type} (self : Number F) (d : F) : Number F :=
  { self with is_double := true, str_raw := [], value_double := d }

/-- `JSON::Number::dump`. -/
def Number.dump {F : Type} (fo : FloatOps F) (self : Number F) : List Nat :=
  if self.str_raw.isEmpty then
    (if self.is_double then fo.to_string self.value_double else to_string self.value_int)
  else self.str_raw

/-! ## String -/

/-- The test of the `\u` loop: `[0-9a-fA-F]`. -/
def isHex (c : Nat) : Bool :=
  (97 ≤ c && c ≤ 102) || (65 ≤ c && c ≤ 70) || (48 ≤ c && c ≤ 57)

/-- The value of one hexadecimal digit. -/
def hexDigitValue (c : Nat) : Nat :=
  if 48 ≤ c ∧ c ≤ 57 then c - 48 else if 97 ≤ c ∧ c ≤ 102 then c - 87 else c - 55

/-- `ss << std::hex << hexString; ss >> codepoint;` on hexadecimal digits. -/
def hexValue (hexString : List Nat) : Nat :=
  hexString.foldl (fun a c => 16 * a + hexDigitValue c) 0

/-- `static_cast<char>` of an unsigned value. -/
def toChar (x : Nat) : Nat := x % 256

/-- `JSON::String::pushHexToUtf8`, called on four hexadecimal digits. -/
def pushHexToUtf8 (utf8 : List Nat) (hexString : List Nat) : List Nat :=
  let codepoint := hexValue hexString % 4294967296
  if codepoint ≤ 0x7F then utf8 ++ [toChar codepoint]
  else if codepoint ≤ 0x7FF then
    utf8 ++ [toChar (0xC0 ||| ((codepoint >>> 6) &&& 0x1F)), toChar (0x80 ||| (codepoint &&& 0x3F))]
  else if codepoint ≤ 0xFFFF then
    utf8 ++ [toChar (0xE0 ||| ((codepoint >>> 12) &&& 0x0F)),
             toChar (0x80 ||| ((codepoint >>> 6) &&& 0x3F)),
             toChar (0x80 ||| (codepoint &&& 0x3F))]
  else if codepoint ≤ 0x10FFFF then
    utf8 ++ [toChar (0xF0 ||| ((codepoint >>> 18) &&& 0x07)),
             toChar (0x80 ||| ((codepoint >>> 12) &&& 0x3F)),
             toChar (0x80 ||| ((codepoint >>> 6) &&& 0x3F)),
             toChar (0x80 ||| (codepoint &&& 0x3F))]
  else utf8

/-- The one-character escapes of `String::parse`: the byte that the character after
the backslash stands for. -/
def escapeChar (c : Nat) : Option Nat :=
  if c = 92 then some 92 else if c = 34 then some 34 else if c = 47 then some 47
  else if c = 98 then some 8 else if c = 102 then some 12 else if c = 110 then some 10
  else if c = 114 then some 13 else if c = 116 then some 9 else none

/-- `std::ranges::find_if`, as the index `ptr - sv.begin()`. -/
def find_if (p : Nat → Bool) (sv : List Nat) : Nat := (sv.takeWhile (fun c => !p c)).length

/-- The first control character that the `for` loop of `String::parse` throws on. -/
def firstControl (run : List Nat) : Option Nat :=
  run.find? (fun c => c = 10 || c = 9 || c = 0)

/-- The `while (true)` loop of `JSON::String::parse`; `fuel` bounds its iterations. -/
def String.parseLoop : Nat → List Nat → List Nat → Outcome (List Nat × List Nat)
  | 0, _, _ => .fuel
  | fuel + 1, sv, res =>
    let n := find_if (fun c => c = 92 || c = 34) sv
    match firstControl (sv.take n) with
    | some c =>
      if c = 10 then .error (getJSONParseError sv (bytes "string end `\"`"))
      else .error (getJSONParseError sv (bytes "no control char in string"))
    | none =>
      let res := res ++ sv.take n
      let sv := sv.drop n
      if sv.isEmpty then .error (getJSONParseError sv (bytes "string end `\"`"))
      else if front sv = 34 then .ok (res, sv.drop 1)
      else
        let sv := sv.drop 1
        match escapeChar (front sv) with
        | some b => String.parseLoop fuel (sv.drop 1) (res ++ [b])
        | none =>
          if front sv = 117 then
            let sv := sv.drop 1
            let hexs := sv.take 4
            if sv.length < 4 then .undefined
            else
              let sv := sv.drop 4
              if hexs.all isHex then String.parseLoop fuel sv (pushHexToUtf8 res hexs)
              else .error (getJSONParseError sv (bytes "[0-9a-fA-F] but got bad Unicode escape"))
          else .error (getJSONParseError sv (bytes "escape character"))

/-- `JSON::String::parse`.  Every iteration of its loop but the last consumes a
backslash, so the length of the text bounds the iterations. -/
def String.parse (sv : List Nat) : Outcome (List Nat × List Nat) :=
  let sv := removeWhiteSpaces sv
  if front sv ≠ 34 then .error (getJSONParseError sv (bytes "string start `\"`"))
  else String.parseLoop (sv.length + 1) (sv.drop 1) []

/-- The text `toJSONString` appends for one character. -/
def escapeOf (c : Nat) : List Nat :=
  if c = 92 then [92, 92] else if c = 10 then [92, 110] else if c = 8 then [92, 98]
  else if c = 12 then [92, 102] else if c = 13 then [92, 114] else if c = 9 then [92, 116]
  else if c = 34 then [92, 34] else [c]

/-- `JSON::String::toJSONString`. -/
def String.toJSONString (s : List Nat) : List Nat :=
  s.foldl (fun res c => res ++ escapeOf c) [34] ++ [34]

/-! ## Array, Object and the dispatch of `Node::parse` -/

/-- `JSON::assert_depth`: the exception it throws, if any. -/
def assert_depth (sv : List Nat) (current_depth : Nat) : Option JSONParseException :=
  if current_depth > MAX_RECURSE_DEPTH then
    some (getJSONParseError sv (bytes ".., max rescurse depth exceeded"))
  else none

/-- The expectation text of the duplicate-key error; `c_str()` ends it at a NUL. -/
def dumplicatedKeyMessage (key : List Nat) : List Nat :=
  (bytes "unique key, but got dumplicated key `" ++ key ++ bytes "`").takeWhile (fun c => c ≠ 0)

mutual

/-- `JSON::Node::parse`. -/
def Node.parse {F : Type} (fo : FloatOps F) :
    Nat → List Nat → Nat → Outcome (Value F × List Nat)
  | 0, _, _ => .fuel
  | fuel + 1, sv, dep =>
    match assert_depth sv dep with
    | some e => .error e
    | none =>
      let sv := removeWhiteSpaces sv
      let c := front sv
      if c = 110 then (Null.parse sv).bind fun r => .ok (Value.Null, r.2)
      else if c = 116 ∨ c = 102 then
        (Boolean.parse sv).bind fun r => .ok (Value.Boolean r.1, r.2)
      else if c = 123 then
        (Object.parse fo fuel sv (dep + 1)).bind fun r => .ok (Value.Object r.1, r.2)
      else if c = 91 then
        (Array.parse fo fuel sv (dep + 1)).bind fun r => .ok (Value.Array r.1, r.2)
      else if c = 34 then (String.parse sv).bind fun r => .ok (Value.String r.1, r.2)
      else if c = 45 ∨ isdigit c then
        (Number.parse fo sv).bind fun r => .ok (Value.Number r.1, r.2)
      else .error (getJSONParseError sv (bytes "any JSON value"))
  termination_by structural fuel _ _ => fuel

/-- `JSON::Array::parse`, up to its `while` loop. -/
def Array.parse {F : Type} (fo : FloatOps F) :
    Nat → List Nat → Nat → Outcome (List (Value F) × List Nat)
  | 0, _, _ => .fuel
  | fuel + 1, sv, dep =>
    match assert_depth sv dep with
    | some e => .error e
    | none =>
      let sv := removeWhiteSpaces sv
      if front sv ≠ 91 then .error (getJSONParseError sv (bytes "array start `[`"))
      else Array.parseLoop fo fuel (removeWhiteSpaces (sv.drop 1)) dep [] false
  termination_by structural fuel _ _ => fuel

/-- The `while (sv[0] != ']')` loop of `JSON::Array::parse` and the code after it, from
the state `val`, `isTComma`. -/
def Array.parseLoop {F : Type} (fo : FloatOps F) :
    Nat → List Nat → Nat → List (Value F) → Bool → Outcome (List (Value F) × List Nat)
  | 0, _, _, _, _ => .fuel
  | fuel + 1, sv, dep, val, isTComma =>
    if front sv ≠ 93 then
      (Node.parse fo fuel sv (dep + 1)).bind fun r =>
        let val := val ++ [r.1]
        let sv := removeWhiteSpaces r.2
        if front sv = 93 then .ok (val, sv.drop 1)
        else if front sv = 44 then Array.parseLoop fo fuel (sv.drop 1) dep val true
        else .error (getJSONParseError sv (bytes "array spliter `,` or array end `]`"))
    else if isTComma && !ENABLE_TRAILING_COMMA then
      .error (getJSONParseError sv (bytes "next json value"))
    else .ok (val, sv.drop 1)
  termination_by structural fuel _ _ _ _ => fuel

/-- `JSON::Object::parse`, up to its `while` loop. -/
def Object.parse {F : Type} (fo : FloatOps F) :
    Nat → List Nat → Nat → Outcome (List (List Nat × Value F) × List Nat)
  | 0, _, _ => .fuel
  | fuel + 1, sv, dep =>
    match assert_depth sv dep with
    | some e => .error e
    | none =>
      let sv := removeWhiteSpaces sv
      if front sv ≠ 123 then .error (getJSONParseError sv (bytes "object start `\x7b`"))
      else Object.parseLoop fo fuel (removeWhiteSpaces (sv.drop 1)) dep [] false
  termination_by structural fuel _ _ => fuel

/-- The `while (sv[0] != '}')` loop of `JSON::Object::parse` and the code after it,
from the state `val`, `isTComma`. -/
def Object.parseLoop {F : Type} (fo : FloatOps F) :
    Nat → List Nat → Nat → List (List Nat × Value F) → Bool →
      Outcome (List (List Nat × Value F) × List Nat)
  | 0, _, _, _, _ => .fuel
  | fuel + 1, sv, dep, val, isTComma =>
    if front sv ≠ 125 then
      (String.parse sv).bind fun key =>
        if ENABLE_DUMPLICATED_KEY_DETECT && ObjectVT.contains val key.1 then
          .error (getJSONParseError key.2 (dumplicatedKeyMessage key.1))
        else
          let sv := removeWhiteSpaces key.2
          if front sv ≠ 58 then .error (getJSONParseError sv (bytes "object spliter `:`"))
          else
            (Node.parse fo fuel (sv.drop 1) (dep + 1)).bind fun r =>
              let val := ObjectVT.insert val key.1 r.1
              let sv := removeWhiteSpaces r.2
              if front sv = 125 then .ok (val, sv.drop 1)
              else if front sv = 44 then Object.parseLoop fo fuel (sv.drop 1) dep val true
              else
                .error (getJSONParseError sv (bytes "object spliter `,` or object end `\x7d`"))
    else if isTComma && !ENABLE_TRAILING_COMMA then
      .error (getJSONParseError sv (bytes "next json value"))
    else .ok (val, sv.drop 1)
  termination_by structural fuel _ _ _ _ => fuel

end

/-- The fuel `JSON::parse` starts from: a call of the mutual block on a text of `m`
bytes nests at most `3 * m + 2` calls. -/
def parseFuel (sv : List Nat) : Nat := 3 * sv.length + 3

/-- `JSON::parse`. -/
def parse {F : Type} (fo : FloatOps F) (sv : List Nat) : Outcome (Value F) :=
  (Node.parse fo (parseFuel sv) sv 0).bind fun r =>
    let sv := removeWhiteSpaces r.2
    if !sv.isEmpty then .error (getJSONParseError sv (bytes "EOF"))
    else .ok r.1

/-! ## dump -/

mutual

/-- `JSON::Node::dump`, with the `dump` of the six node classes. -/
def Value.dump {F : Type} (fo : FloatOps F) : Value F → List Nat
  | .Null => bytes "null"
  | .Boolean value => if value then bytes "true" else bytes "false"
  | .Number n => Number.dump fo n
  | .String value => String.toJSONString value
  | .Array value =>
    let s := bytes "[" ++ Value.dumpElements fo value
    (if !value.isEmpty then s.dropLast else s) ++ bytes "]"
  | .Object value =>
    let s := bytes "\x7b" ++ Value.dumpEntries fo value
    (if !value.isEmpty then s.dropLast else s) ++ bytes "\x7d"

/-- The `for` loop of `Array::dump`: each element, then a comma. -/
def Value.dumpElements {F : Type} (fo : FloatOps F) : List (Value F) → List Nat
  | [] => []
  | v :: vs => Value.dump fo v ++ bytes "," ++ Value.dumpElements fo vs

/-- The `for` loop of `Object::dump`: each key, a colon, the value, then a comma. -/
def Value.dumpEntries {F : Type} (fo : FloatOps F) : List (List Nat × Value F) → List Nat
  | [] => []
  | (key, val) :: kvs =>
    String.toJSONString key ++ bytes ":" ++ Value.dump fo val ++ bytes "," ++
      Value.dumpEntries fo kvs

end

end JSON

namespace JSON

/-! ## Definitions for the statements -/

/-- The expectation text of `assert_depth`. -/
def depthMessage : List Nat := bytes ".., max rescurse depth exceeded"

/-- The value of `k + 1` nested arrays, the innermost one empty. -/
def nestedArray (F : Type) : Nat → Value F
  | 0 => .Array []
  | k + 1 => .Array [nestedArray F k]

/-- The encoding that the specification states for the code point of a `\\u` escape:
one byte up to `0x7F`, two bytes up to `0x7FF`, three bytes otherwise. -/
def utf8BitLayout (c : Nat) : List Nat :=
  if c ≤ 0x7F then [c]
  else if c ≤ 0x7FF then [0xC0 ||| (c >>> 6), 0x80 ||| (c &&& 0x3F)]
  else [0xE0 ||| (c >>> 12), 0x80 ||| ((c >>> 6) &&& 0x3F), 0x80 ||| (c &&& 0x3F)]

/-- The content of a string literal, between the quotes, with the bytes it denotes: a
sequence of ordinary bytes (any byte but `"`, `\`, tab, NUL and newline), of
one-character escapes and of `\u` escapes with four hexadecimal digits. -/
inductive Decodes : List Nat → List Nat → Prop where
  | nil : Decodes [] []
  | char (c : Nat) (t d : List Nat) : c ≠ 34 → c ≠ 92 → c ≠ 9 → c ≠ 0 → c ≠ 10 →
      Decodes t d → Decodes (c :: t) (c :: d)
  | escape (c b : Nat) (t d : List Nat) : escapeChar c = some b →
      Decodes t d → Decodes (92 :: c :: t) (b :: d)
  | unicode (h1 h2 h3 h4 : Nat) (t d : List Nat) : isHex h1 = true → isHex h2 = true →
      isHex h3 = true → isHex h4 = true → Decodes t d →
      Decodes (92 :: 117 :: h1 :: h2 :: h3 :: h4 :: t)
        (utf8BitLayout (hexValue [h1, h2, h3, h4]) ++ d)

/-- Two outcomes agree but for the input context that an error quotes. -/
def Outcome.Sim {α : Type} (x y : Outcome α) : Prop :=
  match x, y with
  | .ok a, .ok b => a = b
  | .error e, .error e' => e.excepted = e'.excepted
  | .undefined, .undefined => True
  | .fuel, .fuel => True
  | _, _ => False

/-- `t` is a text of the value `v` at depth `dep`: in front of anything that does not
continue a number, `Node::parse` at `dep` consumes exactly `t` and returns `v`. -/
def ValueText {F : Type} (fo : FloatOps F) (dep : Nat) (t : List Nat) (v : Value F) : Prop :=
  ∀ rest, isNumberChar (front rest) = false →
    ∃ fuel, Node.parse fo fuel (t ++ rest) dep = .ok (v, rest)

/-- `t` is a text of the key `key`: in front of anything, `String::parse` consumes
exactly `t` and returns `key`. -/
def KeyText (t key : List Nat) : Prop :=
  ∀ rest, String.parse (t ++ rest) = .ok (key, rest)

/-- The texts `ts` joined by commas. -/
def joinItems : List (List Nat) → List Nat
  | [] => []
  | [a] => a
  | a :: b :: l => a ++ 44 :: joinItems (b :: l)

/-- The texts `ts`, a comma after each of them. -/
def commaEach (ts : List (List Nat)) : List Nat := ts.flatMap (fun t => t ++ [44])

/-- An element of an array text: its text, its value, the white space after it. -/
structure ArrayItem (F : Type) where
  text : List Nat
  value : Value F
  space : List Nat

/-- The element is a text of its value, followed by white space only. -/
def ArrayItem.Valid {F : Type} (fo : FloatOps F) (dep : Nat) (e : ArrayItem F) : Prop :=
  ValueText fo dep e.text e.value ∧ ∀ b ∈ e.space, isWhiteSpace b = true

/-- The bytes of an element of an array text. -/
def ArrayItem.bytes {F : Type} (e : ArrayItem F) : List Nat := e.text ++ e.space

/-- A member of an object text: the text of its key, white space, a colon, the text
of its value, white space. -/
structure ObjectItem (F : Type) where
  keyText : List Nat
  key : List Nat
  space1 : List Nat
  valueText : List Nat
  value : Value F
  space2 : List Nat

/-- The member is made of a text of its key and a text of its value. -/
def ObjectItem.Valid {F : Type} (fo : FloatOps F) (dep : Nat) (m : ObjectItem F) : Prop :=
  KeyText m.keyText m.key ∧ ValueText fo dep m.valueText m.value ∧
    (∀ b ∈ m.space1, isWhiteSpace b = true) ∧ (∀ b ∈ m.space2, isWhiteSpace b = true)

/-- The bytes of a member of an object text. -/
def ObjectItem.bytes {F : Type} (m : ObjectItem F) : List Nat :=
  m.keyText ++ (m.space1 ++ 58 :: (m.valueText ++ m.space2))

/-- The entries that `Object::parse` inserts one after the other. -/
def insertAll {F : Type} (val : List (List Nat × Value F)) (ms : List (ObjectItem F)) :
    List (List Nat × Value F) :=
  ms.foldl (fun val m => ObjectVT.insert val m.key m.value) val

/-! ### The trees of the round trip -/

/-- The numbers that `dump` writes as a text `parse` reads back: integer-backed with no
preserved text (built from an `int64_t`, or set to one), or with the preserved text
that `Number::parse` built them from. -/
def Number.Reparsable {F : Type} (fo : FloatOps F) (n : Number F) : Prop :=
  (n.str_raw = [] ∧ n.is_double = false ∧
    -9223372036854775808 ≤ n.value_int ∧ n.value_int ≤ 9223372036854775807) ∨
  (n.str_raw ≠ [] ∧ (front n.str_raw = 45 ∨ isdigit (front n.str_raw) = true) ∧
    (∀ c ∈ n.str_raw, isNumberChar c = true) ∧
    Number.ofText fo n.str_raw (n.str_raw.contains 46) = some n)

mutual

/-- How deep the containers of a tree nest: 0 for a leaf, 1 for an array or object of
leaves. -/
def Value.nesting {F : Type} : Value F → Nat
  | .Null => 0
  | .Boolean _ => 0
  | .Number _ => 0
  | .String _ => 0
  | .Array value => Value.nestingElements value + 1
  | .Object value => Value.nestingEntries value + 1

/-- The deepest nesting among the elements of an array. -/
def Value.nestingElements {F : Type} : List (Value F) → Nat
  | [] => 0
  | v :: vs => max (Value.nesting v) (Value.nestingElements vs)

/-- The deepest nesting among the values of an object. -/
def Value.nestingEntries {F : Type} : List (List Nat × Value F) → Nat
  | [] => 0
  | (_, v) :: kvs => max (Value.nesting v) (Value.nestingEntries kvs)

end

mutual

/-- The trees of the round trip: no object has a key twice, no string and no key holds
a NUL byte, and every number is `Reparsable`. -/
def Value.Reparsable {F : Type} (fo : FloatOps F) : Value F → Prop
  | .Null => True
  | .Boolean _ => True
  | .Number n => Number.Reparsable fo n
  | .String value => ∀ c ∈ value, c ≠ 0
  | .Array value => Value.ReparsableElements fo value
  | .Object value => (value.map Prod.fst).Nodup ∧ Value.ReparsableEntries fo value

/-- Every element of an array is `Reparsable`. -/
def Value.ReparsableElements {F : Type} (fo : FloatOps F) : List (Value F) → Prop
  | [] => True
  | v :: vs => Value.Reparsable fo v ∧ Value.ReparsableElements fo vs

/-- Every key of an object is free of NUL and every value is `Reparsable`. -/
def Value.ReparsableEntries {F : Type} (fo : FloatOps F) : List (List Nat × Value F) → Prop
  | [] => True
  | (key, v) :: kvs =>
    (∀ c ∈ key, c ≠ 0) ∧ Value.Reparsable fo v ∧ Value.ReparsableEntries fo kvs

end

/-- Two numbers are equal: both integer-backed with the same integer form, or both
double-backed with the same floating-point form. -/
def Number.Equal {F : Type} (a b : Number F) : Prop :=
  a.is_double = b.is_double ∧
    (if a.is_double then a.value_double = b.value_double else a.value_int = b.value_int)

/-- Equality of trees: the elements of an Array are compared in order, the entries of
an Object in any order. -/
inductive Value.Equal {F : Type} : Value F → Value F → Prop where
  | null : Value.Equal .Null .Null
  | boolean (b : Bool) : Value.Equal (.Boolean b) (.Boolean b)
  | number (a b : JSON.Number F) : JSON.Number.Equal a b →
      Value.Equal (.Number a) (.Number b)
  | string (s : List Nat) : Value.Equal (.String s) (.String s)
  | array (xs ys : List (Value F)) : List.Forall₂ Value.Equal xs ys →
      Value.Equal (.Array xs) (.Array ys)
  | object (xs ys zs : List (List Nat × Value F)) : List.Perm ys zs →
      xs.map Prod.fst = ys.map Prod.fst →
      List.Forall₂ Value.Equal (xs.map Prod.snd) (ys.map Prod.snd) →
      Value.Equal (.Object xs) (.Object zs)

/-- The bytes that end a value inside a document: the NUL that stands for the end of
the text, a `,`, a `]` and a `}`. -/
def isDelim (c : Nat) : Bool := c = 0 || c = 44 || c = 93 || c = 125

/-- What can follow a value in a document that is parsed: after white space, the end
of the text, a `,`, a `]` or a `}`. -/
def Delimited (r : List Nat) : Prop := isDelim (front (removeWhiteSpaces r)) = true

/-- The text `p` is not empty and its last byte is not white space. -/
def NonSpaceEnd (p : List Nat) : Prop := ∃ q c, p = q ++ [c] ∧ isWhiteSpace c = false

/-- The text `t` neither starts nor ends with white space. -/
def NoSurroundingSpace (t : List Nat) : Prop :=
  isWhiteSpace (t.headD 0) = false ∧ isWhiteSpace (t.getLastD 0) = false

/-- A call of `Node::parse` with `fuel` that returns in front of what can follow a value
has consumed a text of the value that does not end with white space. -/
def NodeReadsText {F : Type} (fo : FloatOps F) (fuel : Nat) : Prop :=
  ∀ (sv : List Nat) (dep : Nat) (v : Value F) (r : List Nat),
    Node.parse fo fuel sv dep = .ok (v, r) → Delimited r →
      ∃ p, sv = p ++ r ∧ NonSpaceEnd p ∧ ValueText fo dep p v

/-- A call of `Array::parse` with `fuel` that returns has consumed a text on which it
returns the same in front of anything. -/
def ArrayReadsText {F : Type} (fo : FloatOps F) (fuel : Nat) : Prop :=
  ∀ (sv : List Nat) (dep : Nat) (xs : List (Value F)) (r : List Nat),
    Array.parse fo fuel sv dep = .ok (xs, r) →
      ∃ p, sv = p ++ r ∧ NonSpaceEnd p ∧
        ∀ r2, ∃ f, Array.parse fo f (p ++ r2) dep = .ok (xs, r2)

/-- The same for the loop of `Array::parse`. -/
def ArrayLoopReadsText {F : Type} (fo : FloatOps F) (fuel : Nat) : Prop :=
  ∀ (sv : List Nat) (dep : Nat) (val : List (Value F)) (t : Bool) (xs : List (Value F))
    (r : List Nat), Array.parseLoop fo fuel sv dep val t = .ok (xs, r) →
      ∃ p, sv = p ++ r ∧ NonSpaceEnd p ∧
        ∀ r2, ∃ f, Array.parseLoop fo f (p ++ r2) dep val t = .ok (xs, r2)

/-- The same for `Object::parse`. -/
def ObjectReadsText {F : Type} (fo : FloatOps F) (fuel : Nat) : Prop :=
  ∀ (sv : List Nat) (dep : Nat) (xs : List (List Nat × Value F)) (r : List Nat),
    Object.parse fo fuel sv dep = .ok (xs, r) →
      ∃ p, sv = p ++ r ∧ NonSpaceEnd p ∧
        ∀ r2, ∃ f, Object.parse fo f (p ++ r2) dep = .ok (xs, r2)

/-- The same for the loop of `Object::parse`. -/
def ObjectLoopReadsText {F : Type} (fo : FloatOps F) (fuel : Nat) : Prop :=
  ∀ (sv : List Nat) (dep : Nat) (val : List (List Nat × Value F)) (t : Bool)
    (xs : List (List Nat × Value F)) (r : List Nat),
    Object.parseLoop fo fuel sv dep val t = .ok (xs, r) →
      ∃ p, sv = p ++ r ∧ NonSpaceEnd p ∧
        ∀ r2, ∃ f, Object.parseLoop fo f (p ++ r2) dep val t = .ok (xs, r2)

end JSON

/-! ## Sequencing -/

namespace JSON

@[simp] theorem Outcome.bind_ok {α β : Type} (a : α) (f : α → Outcome β) :
    (Outcome.ok a).bind f = f a := rfl

@[simp] theorem Outcome.bind_error {α β : Type} (e : JSONParseException) (f : α → Outcome β) :
    (Outcome.error e : Outcome α).bind f = .error e := rfl

@[simp] theorem Outcome.bind_undefined {α β : Type} (f : α → Outcome β) :
    (Outcome.undefined : Outcome α).bind f = .undefined := rfl

@[simp] theorem Outcome.bind_fuel {α β : Type} (f : α → Outcome β) :
    (Outcome.fuel : Outcome α).bind f = .fuel := rfl

theorem Outcome.bind_eq_ok {α β : Type} {x : Outcome α} {f : α → Outcome β} {b : β}
    (h : x.bind f = .ok b) : ∃ a, x = .ok a ∧ f a = .ok b := by
  cases x with
  | ok a => exact ⟨a, rfl, h⟩
  | error e => simp at h
  | undefined => simp at h
  | fuel => simp at h

theorem Outcome.bind_ne_fuel {α β : Type} {x : Outcome α} {f : α → Outcome β}
    (h : x.bind f ≠ .fuel) : x ≠ .fuel := by
  intro hx
  rw [hx] at h
  exact h rfl

/-! ## The cursor -/

theorem removeWhiteSpaces_length_le (sv : List Nat) :
    (removeWhiteSpaces sv).length ≤ sv.length := by
  unfold removeWhiteSpaces
  exact (List.dropWhile_sublist _).length_le

@[simp] theorem front_nil : front [] = 0 := rfl

@[simp] theorem front_cons (c : Nat) (sv : List Nat) : front (c :: sv) = c := rfl

theorem front_ne_zero_length {sv : List Nat} (h : front sv ≠ 0) : 0 < sv.length := by
  cases sv with
  | nil => simp at h
  | cons c t => simp

theorem removeWhiteSpaces_cons_of_not {c : Nat} {sv : List Nat} (h : isWhiteSpace c = false) :
    removeWhiteSpaces (c :: sv) = c :: sv := by
  simp [removeWhiteSpaces, List.dropWhile, h]

theorem removeWhiteSpaces_idem (sv : List Nat) :
    removeWhiteSpaces (removeWhiteSpaces sv) = removeWhiteSpaces sv := by
  induction sv with
  | nil => rfl
  | cons c t ih =>
    by_cases hc : isWhiteSpace c = true
    · simpa [removeWhiteSpaces, List.dropWhile, hc] using ih
    · have hc' : isWhiteSpace c = false := by simpa using hc
      rw [removeWhiteSpaces_cons_of_not hc', removeWhiteSpaces_cons_of_not hc']

end JSON

namespace JSON

/-! ## String::parse: consumption and fuel -/

theorem string_parseLoop_shrink : ∀ (fuel : Nat) (sv res : List Nat) (x : List Nat × List Nat),
    String.parseLoop fuel sv res = .ok x → x.2.length < sv.length := by
  intro fuel
  induction fuel with
  | zero => intro sv res x h; simp [String.parseLoop] at h
  | succ fuel ih =>
    intro sv res x h
    rw [String.parseLoop] at h
    split at h
    · split at h <;> simp at h
    · simp only at h
      split at h
      · simp at h
      · rename_i hne
        have hlen : 0 < (List.drop (find_if (fun c => decide (c = 92) || decide (c = 34)) sv) sv).length := by
          cases hd : List.drop (find_if (fun c => decide (c = 92) || decide (c = 34)) sv) sv with
          | nil => simp [hd] at hne
          | cons a t => simp
        have hlen2 : (List.drop (find_if (fun c => decide (c = 92) || decide (c = 34)) sv) sv).length
            ≤ sv.length := by simp
        split at h
        · simp only [Outcome.ok.injEq] at h
          subst h
          simp only [List.length_drop] at hlen hlen2 ⊢
          omega
        · split at h
          · have := ih _ _ _ h
            simp only [List.length_drop] at this hlen hlen2 ⊢
            omega
          · split at h
            · split at h
              · simp at h
              · split at h
                · have := ih _ _ _ h
                  simp only [List.length_drop] at this hlen hlen2 ⊢
                  omega
                · simp at h
            · simp at h

theorem string_parseLoop_ne_fuel : ∀ (fuel : Nat) (sv res : List Nat),
    sv.length < fuel → String.parseLoop fuel sv res ≠ .fuel := by
  intro fuel
  induction fuel with
  | zero => intro sv res h; omega
  | succ fuel ih =>
    intro sv res hlt
    rw [String.parseLoop]
    split
    · split <;> simp
    · simp only
      split
      · simp
      · rename_i hne
        have hlen : 0 < (List.drop (find_if (fun c => decide (c = 92) || decide (c = 34)) sv) sv).length := by
          cases hd : List.drop (find_if (fun c => decide (c = 92) || decide (c = 34)) sv) sv with
          | nil => simp [hd] at hne
          | cons a t => simp
        split
        · simp
        · split
          · apply ih
            simp only [List.length_drop] at hlen ⊢
            omega
          · split
            · split
              · simp
              · split
                · apply ih
                  simp only [List.length_drop] at hlen ⊢
                  omega
                · simp
            · simp

theorem string_parseLoop_fuel_irrel : ∀ (fuel fuel' : Nat) (sv res : List Nat),
    sv.length < fuel → sv.length < fuel' →
      String.parseLoop fuel sv res = String.parseLoop fuel' sv res := by
  intro fuel
  induction fuel with
  | zero => intro fuel' sv res h; omega
  | succ fuel ih =>
    intro fuel' sv res hlt hlt'
    cases fuel' with
    | zero => omega
    | succ fuel' =>
      rw [String.parseLoop, String.parseLoop]
      split
      · rfl
      · simp only
        split
        · rfl
        · rename_i hne
          have hlen : 0 < (List.drop (find_if (fun c => decide (c = 92) || decide (c = 34)) sv) sv).length := by
            cases hd : List.drop (find_if (fun c => decide (c = 92) || decide (c = 34)) sv) sv with
            | nil => simp [hd] at hne
            | cons a t => simp
          split
          · rfl
          · split
            · apply ih <;> (simp only [List.length_drop] at hlen ⊢; omega)
            · split
              · split
                · rfl
                · split
                  · apply ih <;> (simp only [List.length_drop] at hlen ⊢; omega)
                  · rfl
              · rfl

theorem string_parse_shrink {sv : List Nat} {x : List Nat × List Nat}
    (h : String.parse sv = .ok x) : x.2.length < sv.length := by
  unfold String.parse at h
  simp only at h
  split at h
  · simp at h
  · have := string_parseLoop_shrink _ _ _ _ h
    have h2 := removeWhiteSpaces_length_le sv
    simp only [List.length_drop] at this
    omega

theorem string_parse_ne_fuel (sv : List Nat) : String.parse sv ≠ .fuel := by
  unfold String.parse
  simp only
  split
  · simp
  · apply string_parseLoop_ne_fuel
    simp only [List.length_drop]
    omega

end JSON

namespace JSON

/-! ## The leaf parsers: consumption -/

theorem starts_with_length {sv p : List Nat} (h : starts_with sv p = true) :
    p.length ≤ sv.length := by
  unfold starts_with at h
  have h' : List.take p.length sv = p := by simpa using h
  have := congrArg List.length h'
  simp only [List.length_take] at this
  omega

theorem null_parse_shrink {sv : List Nat} {x : Unit × List Nat}
    (h : Null.parse sv = .ok x) : x.2.length < sv.length := by
  unfold Null.parse at h
  simp only at h
  split at h
  · rename_i hs
    have h1 := starts_with_length hs
    have h2 := removeWhiteSpaces_length_le sv
    simp only [Outcome.ok.injEq] at h
    subst h
    have h3 : (bytes "null").length = 4 := by decide
    simp only [List.length_drop]
    omega
  · simp at h

theorem boolean_parse_shrink {sv : List Nat} {x : Bool × List Nat}
    (h : Boolean.parse sv = .ok x) : x.2.length < sv.length := by
  unfold Boolean.parse at h
  simp only at h
  have h2 := removeWhiteSpaces_length_le sv
  split at h
  · rename_i hs
    have h1 := starts_with_length hs
    simp only [Outcome.ok.injEq] at h
    subst h
    have h3 : (bytes "true").length = 4 := by decide
    simp only [List.length_drop]
    omega
  · split at h
    · rename_i hs
      have h1 := starts_with_length hs
      simp only [Outcome.ok.injEq] at h
      subst h
      have h3 : (bytes "false").length = 5 := by decide
      simp only [List.length_drop]
      omega
    · simp at h

theorem number_parse_rest {F : Type} (fo : FloatOps F) {sv : List Nat}
    {x : Number F × List Nat} (h : Number.parse fo sv = .ok x) :
    x.2 = (removeWhiteSpaces sv).drop ((removeWhiteSpaces sv).takeWhile isNumberChar).length := by
  unfold Number.parse at h
  simp only at h
  have hmin : min ((removeWhiteSpaces sv).takeWhile isNumberChar).length (removeWhiteSpaces sv).length
      = ((removeWhiteSpaces sv).takeWhile isNumberChar).length :=
    Nat.min_eq_left (List.takeWhile_sublist _).length_le
  rw [hmin] at h
  split at h
  · simp only [Outcome.ok.injEq] at h
    subst h
    rfl
  · split at h
    · split at h
      · simp only [Outcome.ok.injEq] at h
        subst h
        rfl
      · simp at h
    · simp at h

theorem number_parse_ne_fuel {F : Type} (fo : FloatOps F) (sv : List Nat) :
    Number.parse fo sv ≠ .fuel := by
  unfold Number.parse
  simp only
  split
  · simp
  · split
    · split <;> simp
    · simp

theorem null_parse_ne_fuel (sv : List Nat) : Null.parse sv ≠ .fuel := by
  unfold Null.parse
  simp only
  split <;> simp

theorem boolean_parse_ne_fuel (sv : List Nat) : Boolean.parse sv ≠ .fuel := by
  unfold Boolean.parse
  simp only
  split
  · simp
  · split <;> simp

theorem number_parse_shrink {F : Type} (fo : FloatOps F) {sv : List Nat}
    {x : Number F × List Nat} (h : Number.parse fo sv = .ok x)
    (hc : isNumberChar (front (removeWhiteSpaces sv)) = true) : x.2.length < sv.length := by
  rw [number_parse_rest fo h]
  have h2 := removeWhiteSpaces_length_le sv
  cases hsv : removeWhiteSpaces sv with
  | nil => rw [hsv] at hc; simp [isNumberChar, isdigit] at hc
  | cons c t =>
    rw [hsv] at hc h2
    simp only [front_cons] at hc
    simp only [List.takeWhile_cons, hc, if_true, List.length_cons, List.drop_succ_cons,
      List.length_drop] at h2 ⊢
    omega

end JSON

namespace JSON

/-! ## The recursive parsers: every successful call consumes input -/

theorem parse_shrink_aux {F : Type} (fo : FloatOps F) : ∀ fuel : Nat,
    (∀ sv dep x, Node.parse fo fuel sv dep = .ok x → x.2.length < sv.length) ∧
    (∀ sv dep x, Array.parse fo fuel sv dep = .ok x → x.2.length < sv.length) ∧
    (∀ sv dep val t x, Array.parseLoop fo fuel sv dep val t = .ok x → x.2.length < sv.length) ∧
    (∀ sv dep x, Object.parse fo fuel sv dep = .ok x → x.2.length < sv.length) ∧
    (∀ sv dep val t x, Object.parseLoop fo fuel sv dep val t = .ok x →
      x.2.length < sv.length) := by
  intro fuel
  induction fuel with
  | zero =>
    refine ⟨?_, ?_, ?_, ?_, ?_⟩ <;> intros <;> rename_i h <;>
      simp [Node.parse, Array.parse, Array.parseLoop, Object.parse, Object.parseLoop] at h
  | succ fuel ih =>
    obtain ⟨ihN, ihA, ihAL, ihO, ihOL⟩ := ih
    refine ⟨?_, ?_, ?_, ?_, ?_⟩
    · intro sv dep x h
      rw [Node.parse] at h
      have hws := removeWhiteSpaces_length_le sv
      split at h
      · simp at h
      · simp only at h
        split at h
        · obtain ⟨a, ha, hx⟩ := Outcome.bind_eq_ok h
          simp only [Outcome.ok.injEq] at hx
          subst hx
          have := null_parse_shrink ha
          simp only
          omega
        · split at h
          · obtain ⟨a, ha, hx⟩ := Outcome.bind_eq_ok h
            simp only [Outcome.ok.injEq] at hx
            subst hx
            have := boolean_parse_shrink ha
            simp only
            omega
          · split at h
            · obtain ⟨a, ha, hx⟩ := Outcome.bind_eq_ok h
              simp only [Outcome.ok.injEq] at hx
              subst hx
              have := ihO _ _ _ ha
              simp only
              omega
            · split at h
              · obtain ⟨a, ha, hx⟩ := Outcome.bind_eq_ok h
                simp only [Outcome.ok.injEq] at hx
                subst hx
                have := ihA _ _ _ ha
                simp only
                omega
              · split at h
                · obtain ⟨a, ha, hx⟩ := Outcome.bind_eq_ok h
                  simp only [Outcome.ok.injEq] at hx
                  subst hx
                  have := string_parse_shrink ha
                  simp only
                  omega
                · split at h
                  · rename_i hc
                    obtain ⟨a, ha, hx⟩ := Outcome.bind_eq_ok h
                    simp only [Outcome.ok.injEq] at hx
                    subst hx
                    have hnc : isNumberChar (front (removeWhiteSpaces (removeWhiteSpaces sv)))
                        = true := by
                      rw [removeWhiteSpaces_idem]
                      rcases hc with hc | hc
                      · simp [isNumberChar, hc]
                      · simp [isNumberChar, hc]
                    have := number_parse_shrink fo ha hnc
                    simp only
                    omega
                  · simp at h
    · intro sv dep x h
      rw [Array.parse] at h
      have hws := removeWhiteSpaces_length_le sv
      split at h
      · simp at h
      · simp only at h
        split at h
        · simp at h
        · have := ihAL _ _ _ _ _ h
          have h2 := removeWhiteSpaces_length_le (List.drop 1 (removeWhiteSpaces sv))
          simp only [List.length_drop] at h2
          omega
    · intro sv dep val t x h
      rw [Array.parseLoop] at h
      split at h
      · obtain ⟨a, ha, hx⟩ := Outcome.bind_eq_ok h
        have h1 := ihN _ _ _ ha
        have h2 := removeWhiteSpaces_length_le a.2
        simp only at hx
        split at hx
        · simp only [Outcome.ok.injEq] at hx
          subst hx
          simp only [List.length_drop]
          omega
        · split at hx
          · have := ihAL _ _ _ _ _ hx
            simp only [List.length_drop] at this
            omega
          · simp at hx
      · rename_i hf
        split at h
        · simp at h
        · simp only [Outcome.ok.injEq] at h
          subst h
          have hf' : front sv = 93 := by simpa using hf
          have : 0 < sv.length := front_ne_zero_length (by rw [hf']; decide)
          simp only [List.length_drop]
          omega
    · intro sv dep x h
      rw [Object.parse] at h
      have hws := removeWhiteSpaces_length_le sv
      split at h
      · simp at h
      · simp only at h
        split at h
        · simp at h
        · have := ihOL _ _ _ _ _ h
          have h2 := removeWhiteSpaces_length_le (List.drop 1 (removeWhiteSpaces sv))
          simp only [List.length_drop] at h2
          omega
    · intro sv dep val t x h
      rw [Object.parseLoop] at h
      split at h
      · obtain ⟨key, hk, hx⟩ := Outcome.bind_eq_ok h
        have h0 := string_parse_shrink hk
        have h0' := removeWhiteSpaces_length_le key.2
        split at hx
        · simp at hx
        · simp only at hx
          split at hx
          · simp at hx
          · obtain ⟨a, ha, hy⟩ := Outcome.bind_eq_ok hx
            have h1 := ihN _ _ _ ha
            have h2 := removeWhiteSpaces_length_le a.2
            simp only [List.length_drop] at h1
            split at hy
            · simp only [Outcome.ok.injEq] at hy
              subst hy
              simp only [List.length_drop]
              omega
            · split at hy
              · have := ihOL _ _ _ _ _ hy
                simp only [List.length_drop] at this
                omega
              · simp at hy
      · rename_i hf
        split at h
        · simp at h
        · simp only [Outcome.ok.injEq] at h
          subst h
          have hf' : front sv = 125 := by simpa using hf
          have : 0 < sv.length := front_ne_zero_length (by rw [hf']; decide)
          simp only [List.length_drop]
          omega

theorem node_parse_shrink {F : Type} (fo : FloatOps F) {fuel : Nat} {sv : List Nat} {dep : Nat}
    {x : Value F × List Nat} (h : Node.parse fo fuel sv dep = .ok x) :
    x.2.length < sv.length :=
  (parse_shrink_aux fo fuel).1 sv dep x h

end JSON

namespace JSON

/-! ## The recursive parsers: the fuel of `JSON::parse` is never exhausted -/

theorem Outcome.bind_ne_fuel_of {α β : Type} {x : Outcome α} {f : α → Outcome β}
    (hx : x ≠ .fuel) (hf : ∀ a, x = .ok a → f a ≠ .fuel) : x.bind f ≠ .fuel := by
  cases x with
  | ok a => exact hf a rfl
  | error e => simp
  | undefined => simp
  | fuel => exact absurd rfl hx

theorem front_length {sv : List Nat} {c : Nat} (h : front sv = c) (hc : c ≠ 0) :
    0 < sv.length :=
  front_ne_zero_length (by rw [h]; exact hc)

theorem parse_ne_fuel_aux {F : Type} (fo : FloatOps F) : ∀ fuel : Nat,
    (∀ sv dep, 3 * sv.length + 1 ≤ fuel → Node.parse fo fuel sv dep ≠ .fuel) ∧
    (∀ sv dep, 1 ≤ fuel → 3 * sv.length ≤ fuel → Array.parse fo fuel sv dep ≠ .fuel) ∧
    (∀ sv dep val t, 3 * sv.length + 2 ≤ fuel →
      Array.parseLoop fo fuel sv dep val t ≠ .fuel) ∧
    (∀ sv dep, 1 ≤ fuel → 3 * sv.length ≤ fuel → Object.parse fo fuel sv dep ≠ .fuel) ∧
    (∀ sv dep val t, 3 * sv.length + 2 ≤ fuel →
      Object.parseLoop fo fuel sv dep val t ≠ .fuel) := by
  intro fuel
  induction fuel with
  | zero =>
    refine ⟨?_, ?_, ?_, ?_, ?_⟩ <;> intros <;> omega
  | succ fuel ih =>
    obtain ⟨ihN, ihA, ihAL, ihO, ihOL⟩ := ih
    refine ⟨?_, ?_, ?_, ?_, ?_⟩
    · intro sv dep hf
      rw [Node.parse]
      have hws := removeWhiteSpaces_length_le sv
      split
      · simp
      · simp only
        split
        · exact Outcome.bind_ne_fuel_of (null_parse_ne_fuel _) (by intros; simp)
        · split
          · exact Outcome.bind_ne_fuel_of (boolean_parse_ne_fuel _) (by intros; simp)
          · split
            · rename_i hc
              have := front_length hc (by decide)
              exact Outcome.bind_ne_fuel_of (ihO _ _ (by omega) (by omega)) (by intros; simp)
            · split
              · rename_i hc
                have := front_length hc (by decide)
                exact Outcome.bind_ne_fuel_of (ihA _ _ (by omega) (by omega)) (by intros; simp)
              · split
                · exact Outcome.bind_ne_fuel_of (string_parse_ne_fuel _) (by intros; simp)
                · split
                  · exact Outcome.bind_ne_fuel_of (number_parse_ne_fuel fo _) (by intros; simp)
                  · simp
    · intro sv dep h1 hf
      rw [Array.parse]
      have hws := removeWhiteSpaces_length_le sv
      split
      · simp
      · simp only
        split
        · simp
        · rename_i hc
          have hc' : front (removeWhiteSpaces sv) = 91 := by simpa using hc
          have := front_length hc' (by decide)
          have h2 := removeWhiteSpaces_length_le (List.drop 1 (removeWhiteSpaces sv))
          simp only [List.length_drop] at h2
          exact ihAL _ _ _ _ (by omega)
    · intro sv dep val t hf
      rw [Array.parseLoop]
      split
      · refine Outcome.bind_ne_fuel_of (ihN _ _ (by omega)) ?_
        intro a ha
        have h1 := node_parse_shrink fo ha
        have h2 := removeWhiteSpaces_length_le a.2
        simp only
        split
        · simp
        · split
          · rename_i hc
            have := front_length hc (by decide)
            apply ihAL
            simp only [List.length_drop]
            omega
          · simp
      · split <;> simp
    · intro sv dep h1 hf
      rw [Object.parse]
      have hws := removeWhiteSpaces_length_le sv
      split
      · simp
      · simp only
        split
        · simp
        · rename_i hc
          have hc' : front (removeWhiteSpaces sv) = 123 := by simpa using hc
          have := front_length hc' (by decide)
          have h2 := removeWhiteSpaces_length_le (List.drop 1 (removeWhiteSpaces sv))
          simp only [List.length_drop] at h2
          exact ihOL _ _ _ _ (by omega)
    · intro sv dep val t hf
      rw [Object.parseLoop]
      split
      · refine Outcome.bind_ne_fuel_of (string_parse_ne_fuel _) ?_
        intro key hk
        have h0 := string_parse_shrink hk
        have h0' := removeWhiteSpaces_length_le key.2
        split
        · simp
        · simp only
          split
          · simp
          · refine Outcome.bind_ne_fuel_of (ihN _ _ ?_) ?_
            · simp only [List.length_drop]
              omega
            · intro a ha
              have h1 := node_parse_shrink fo ha
              have h2 := removeWhiteSpaces_length_le a.2
              simp only [List.length_drop] at h1
              split
              · simp
              · split
                · rename_i hc
                  have := front_length hc (by decide)
                  apply ihOL
                  simp only [List.length_drop]
                  omega
                · simp
      · split <;> simp

theorem node_parse_ne_fuel {F : Type} (fo : FloatOps F) {fuel : Nat} {sv : List Nat} (dep : Nat)
    (h : 3 * sv.length + 1 ≤ fuel) : Node.parse fo fuel sv dep ≠ .fuel :=
  (parse_ne_fuel_aux fo fuel).1 sv dep h

end JSON

namespace JSON

/-! ## The recursive parsers: more fuel does not change a result -/

theorem Outcome.bind_mono {α β : Type} {x x' : Outcome α} {g g' : α → Outcome β}
    (hne : x.bind g ≠ .fuel) (hx : x ≠ .fuel → x' = x)
    (hg : ∀ a, x = .ok a → g a ≠ .fuel → g' a = g a) : x'.bind g' = x.bind g := by
  rw [hx (Outcome.bind_ne_fuel hne)]
  cases x with
  | ok a => exact hg a rfl hne
  | error e => rfl
  | undefined => rfl
  | fuel => rfl

theorem parse_mono_aux {F : Type} (fo : FloatOps F) : ∀ fuel : Nat,
    (∀ fuel' sv dep, fuel ≤ fuel' → Node.parse fo fuel sv dep ≠ .fuel →
      Node.parse fo fuel' sv dep = Node.parse fo fuel sv dep) ∧
    (∀ fuel' sv dep, fuel ≤ fuel' → Array.parse fo fuel sv dep ≠ .fuel →
      Array.parse fo fuel' sv dep = Array.parse fo fuel sv dep) ∧
    (∀ fuel' sv dep val t, fuel ≤ fuel' → Array.parseLoop fo fuel sv dep val t ≠ .fuel →
      Array.parseLoop fo fuel' sv dep val t = Array.parseLoop fo fuel sv dep val t) ∧
    (∀ fuel' sv dep, fuel ≤ fuel' → Object.parse fo fuel sv dep ≠ .fuel →
      Object.parse fo fuel' sv dep = Object.parse fo fuel sv dep) ∧
    (∀ fuel' sv dep val t, fuel ≤ fuel' → Object.parseLoop fo fuel sv dep val t ≠ .fuel →
      Object.parseLoop fo fuel' sv dep val t = Object.parseLoop fo fuel sv dep val t) := by
  intro fuel
  induction fuel with
  | zero =>
    refine ⟨?_, ?_, ?_, ?_, ?_⟩ <;> intros <;> rename_i h <;>
      simp [Node.parse, Array.parse, Array.parseLoop, Object.parse, Object.parseLoop] at h
  | succ fuel ih =>
    obtain ⟨ihN, ihA, ihAL, ihO, ihOL⟩ := ih
    refine ⟨?_, ?_, ?_, ?_, ?_⟩
    · intro fuel' sv dep hle hne
      obtain ⟨k, rfl⟩ : ∃ k, fuel' = k + 1 := ⟨fuel' - 1, by omega⟩
      have hk : fuel ≤ k := by omega
      simp only [Node.parse] at hne ⊢
      cases hd : assert_depth sv dep with
      | some e => rfl
      | none =>
        simp only [hd] at hne ⊢
        split_ifs at hne ⊢
        · rfl
        · rfl
        · exact Outcome.bind_mono hne (ihO _ _ _ hk) (fun _ _ _ => rfl)
        · exact Outcome.bind_mono hne (ihA _ _ _ hk) (fun _ _ _ => rfl)
        · rfl
        · rfl
        · rfl
    · intro fuel' sv dep hle hne
      obtain ⟨k, rfl⟩ : ∃ k, fuel' = k + 1 := ⟨fuel' - 1, by omega⟩
      have hk : fuel ≤ k := by omega
      simp only [Array.parse] at hne ⊢
      cases hd : assert_depth sv dep with
      | some e => rfl
      | none =>
        simp only [hd] at hne ⊢
        split_ifs at hne ⊢
        · rfl
        · exact ihAL _ _ _ _ _ hk hne
    · intro fuel' sv dep val t hle hne
      obtain ⟨k, rfl⟩ : ∃ k, fuel' = k + 1 := ⟨fuel' - 1, by omega⟩
      have hk : fuel ≤ k := by omega
      simp only [Array.parseLoop] at hne ⊢
      split_ifs at hne ⊢
      · refine Outcome.bind_mono hne (ihN _ _ _ hk) ?_
        intro a _ hga
        simp only at hga ⊢
        split_ifs at hga ⊢
        · rfl
        · exact ihAL _ _ _ _ _ hk hga
        · rfl
      · rfl
      · rfl
    · intro fuel' sv dep hle hne
      obtain ⟨k, rfl⟩ : ∃ k, fuel' = k + 1 := ⟨fuel' - 1, by omega⟩
      have hk : fuel ≤ k := by omega
      simp only [Object.parse] at hne ⊢
      cases hd : assert_depth sv dep with
      | some e => rfl
      | none =>
        simp only [hd] at hne ⊢
        split_ifs at hne ⊢
        · rfl
        · exact ihOL _ _ _ _ _ hk hne
    · intro fuel' sv dep val t hle hne
      obtain ⟨k, rfl⟩ : ∃ k, fuel' = k + 1 := ⟨fuel' - 1, by omega⟩
      have hk : fuel ≤ k := by omega
      simp only [Object.parseLoop] at hne ⊢
      split_ifs at hne ⊢
      · refine Outcome.bind_mono hne (fun _ => rfl) ?_
        intro key _ hga
        simp only at hga ⊢
        split_ifs at hga ⊢
        · rfl
        · rfl
        · refine Outcome.bind_mono hga (ihN _ _ _ hk) ?_
          intro a _ hgb
          simp only at hgb ⊢
          split_ifs at hgb ⊢
          · rfl
          · exact ihOL _ _ _ _ _ hk hgb
          · rfl
      · rfl
      · rfl

theorem node_parse_mono {F : Type} (fo : FloatOps F) {fuel fuel' : Nat} {sv : List Nat}
    {dep : Nat} {x : Value F × List Nat} (h : Node.parse fo fuel sv dep = .ok x)
    (hle : fuel ≤ fuel') : Node.parse fo fuel' sv dep = .ok x := by
  rw [(parse_mono_aux fo fuel).1 fuel' sv dep hle (by rw [h]; simp), h]

/-- Any two amounts of fuel that both suffice give the same result. -/
theorem node_parse_fuel_irrel {F : Type} (fo : FloatOps F) {fuel fuel' : Nat} {sv : List Nat}
    (dep : Nat) (h : Node.parse fo fuel sv dep ≠ .fuel) (h' : Node.parse fo fuel' sv dep ≠ .fuel) :
    Node.parse fo fuel' sv dep = Node.parse fo fuel sv dep := by
  rcases Nat.le_total fuel fuel' with hle | hle
  · exact (parse_mono_aux fo fuel).1 fuel' sv dep hle h
  · exact ((parse_mono_aux fo fuel').1 fuel sv dep hle h').symm

/-- What `Node::parse` returns at some fuel it returns at the fuel of `JSON::parse`. -/
theorem node_parse_parseFuel {F : Type} (fo : FloatOps F) {fuel : Nat} {sv : List Nat}
    {dep : Nat} {x : Value F × List Nat} (h : Node.parse fo fuel sv dep = .ok x) :
    Node.parse fo (parseFuel sv) sv dep = .ok x := by
  rw [node_parse_fuel_irrel fo dep (by rw [h]; simp)
    (node_parse_ne_fuel fo dep (by unfold parseFuel; omega)), h]

end JSON

namespace JSON

/-! ## Nested arrays -/

theorem assert_depth_le {sv : List Nat} {dep : Nat} (h : dep ≤ 1000) :
    assert_depth sv dep = none := by
  unfold assert_depth MAX_RECURSE_DEPTH
  rw [if_neg (by omega)]

theorem assert_depth_gt {sv : List Nat} {dep : Nat} (h : 1000 < dep) :
    assert_depth sv dep = some (getJSONParseError sv depthMessage) := by
  unfold assert_depth MAX_RECURSE_DEPTH depthMessage
  rw [if_pos (by omega)]

theorem node_parse_open_bracket {F : Type} (fo : FloatOps F) (fuel : Nat) (sv : List Nat)
    (dep : Nat) (h : dep ≤ 1000) :
    Node.parse fo (fuel + 1) (91 :: sv) dep =
      (Array.parse fo fuel (91 :: sv) (dep + 1)).bind fun r => .ok (Value.Array r.1, r.2) := by
  rw [Node.parse, assert_depth_le h]
  simp [removeWhiteSpaces_cons_of_not (c := 91) (by decide)]

theorem array_parse_open_bracket {F : Type} (fo : FloatOps F) (fuel : Nat) (sv : List Nat)
    (dep : Nat) (h : dep ≤ 1000) :
    Array.parse fo (fuel + 1) (91 :: sv) dep =
      Array.parseLoop fo fuel (removeWhiteSpaces sv) dep [] false := by
  rw [Array.parse, assert_depth_le h]
  simp [removeWhiteSpaces_cons_of_not (c := 91) (by decide)]

theorem array_parseLoop_close {F : Type} (fo : FloatOps F) (fuel : Nat) (sv : List Nat)
    (dep : Nat) (val : List (Value F)) :
    Array.parseLoop fo (fuel + 1) (93 :: sv) dep val false = .ok (val, sv) := by
  rw [Array.parseLoop]
  simp

theorem nested_parse_ok {F : Type} (fo : FloatOps F) : ∀ (k dep fuel : Nat) (rest : List Nat),
    dep + 2 * k + 1 ≤ 1000 → 3 * k + 3 ≤ fuel →
      Node.parse fo fuel (List.replicate (k + 1) 91 ++ (List.replicate (k + 1) 93 ++ rest)) dep
        = .ok (nestedArray F k, rest) := by
  intro k
  induction k with
  | zero =>
    intro dep fuel rest hd hf
    obtain ⟨f, rfl⟩ : ∃ f, fuel = f + 3 := ⟨fuel - 3, by omega⟩
    simp only [Nat.zero_add, List.replicate_one, List.singleton_append]
    rw [node_parse_open_bracket fo _ _ _ (by omega), array_parse_open_bracket fo _ _ _ (by omega),
      removeWhiteSpaces_cons_of_not (c := 93) (by decide), array_parseLoop_close]
    rfl
  | succ k ih =>
    intro dep fuel rest hd hf
    obtain ⟨f, rfl⟩ : ∃ f, fuel = f + 3 := ⟨fuel - 3, by omega⟩
    rw [List.replicate_succ (n := k + 1), List.cons_append,
      node_parse_open_bracket fo _ _ _ (by omega), array_parse_open_bracket fo _ _ _ (by omega)]
    rw [List.replicate_succ (n := k), List.cons_append,
      removeWhiteSpaces_cons_of_not (c := 91) (by decide), Array.parseLoop]
    rw [if_pos (by simp)]
    rw [← List.cons_append, ← List.replicate_succ, List.replicate_succ' (n := k + 1),
      List.append_assoc, ih (dep + 1 + 1) f _ (by omega) (by omega)]
    simp [removeWhiteSpaces_cons_of_not (c := 93) (by decide)]
    rfl

theorem nested_parse_error {F : Type} (fo : FloatOps F) : ∀ (j dep fuel m : Nat)
    (rest : List Nat), dep + 2 * j = 1000 → 3 * j + 2 ≤ fuel →
      Node.parse fo fuel (List.replicate (j + 1 + m) 91 ++ rest) dep
        = .error (getJSONParseError (List.replicate (m + 1) 91 ++ rest) depthMessage) := by
  intro j
  induction j with
  | zero =>
    intro dep fuel m rest hd hf
    obtain ⟨f, rfl⟩ : ∃ f, fuel = f + 2 := ⟨fuel - 2, by omega⟩
    rw [show 0 + 1 + m = m + 1 by omega, List.replicate_succ, List.cons_append,
      node_parse_open_bracket fo _ _ _ (by omega), Array.parse,
      assert_depth_gt (by omega)]
    rfl
  | succ j ih =>
    intro dep fuel m rest hd hf
    obtain ⟨f, rfl⟩ : ∃ f, fuel = f + 3 := ⟨fuel - 3, by omega⟩
    rw [show j + 1 + 1 + m = (j + 1 + m) + 1 by omega, List.replicate_succ, List.cons_append,
      node_parse_open_bracket fo _ _ _ (by omega), array_parse_open_bracket fo _ _ _ (by omega)]
    rw [show j + 1 + m = (j + m) + 1 by omega, List.replicate_succ (n := j + m),
      List.cons_append, removeWhiteSpaces_cons_of_not (c := 91) (by decide), Array.parseLoop]
    rw [if_pos (by simp)]
    rw [← List.cons_append, ← List.replicate_succ, show (j + m) + 1 = j + 1 + m by omega,
      ih (dep + 1 + 1) f m rest (by omega) (by omega)]
    rfl

end JSON

namespace JSON

/-! ## The bytes of a `\\u` escape -/

theorem hexDigitValue_lt {c : Nat} (h : isHex c = true) : hexDigitValue c < 16 := by
  unfold isHex at h
  unfold hexDigitValue
  simp only [Bool.or_eq_true, Bool.and_eq_true, decide_eq_true_eq] at h
  split_ifs <;> omega

theorem hexValue_four_lt {a b c d : Nat} (ha : isHex a = true) (hb : isHex b = true)
    (hc : isHex c = true) (hd : isHex d = true) : hexValue [a, b, c, d] < 65536 := by
  have h1 := hexDigitValue_lt ha
  have h2 := hexDigitValue_lt hb
  have h3 := hexDigitValue_lt hc
  have h4 := hexDigitValue_lt hd
  simp only [hexValue, List.foldl_cons, List.foldl_nil]
  omega

theorem and_mask_31 : ∀ x : Nat, x < 32 → x &&& 0x1F = x := by decide

theorem and_mask_15 : ∀ x : Nat, x < 16 → x &&& 0x0F = x := by decide

theorem or_c0_lt : ∀ x : Nat, x < 32 → (0xC0 ||| x) % 256 = 0xC0 ||| x := by decide

theorem or_e0_lt : ∀ x : Nat, x < 16 → (0xE0 ||| x) % 256 = 0xE0 ||| x := by decide

theorem or_80_lt : ∀ x : Nat, x < 64 → (0x80 ||| x) % 256 = 0x80 ||| x := by decide

theorem and_63_lt (x : Nat) : x &&& 0x3F < 64 :=
  Nat.lt_of_le_of_lt Nat.and_le_right (by decide)

theorem pushHexToUtf8_eq {hs : List Nat} (res : List Nat) (h : hexValue hs < 65536) :
    pushHexToUtf8 res hs = res ++ utf8BitLayout (hexValue hs) := by
  unfold pushHexToUtf8 utf8BitLayout toChar
  have hm : hexValue hs % 4294967296 = hexValue hs := Nat.mod_eq_of_lt (by omega)
  simp only [hm]
  have h6 : hexValue hs >>> 6 = hexValue hs / 64 := by
    rw [Nat.shiftRight_eq_div_pow]
  have h12 : hexValue hs >>> 12 = hexValue hs / 4096 := by
    rw [Nat.shiftRight_eq_div_pow]
  by_cases c1 : hexValue hs ≤ 0x7F
  · rw [if_pos c1, if_pos c1, Nat.mod_eq_of_lt (by omega)]
  · rw [if_neg c1, if_neg c1]
    by_cases c2 : hexValue hs ≤ 0x7FF
    · rw [if_pos c2, if_pos c2]
      have hlt : hexValue hs >>> 6 < 32 := by rw [h6]; omega
      rw [and_mask_31 _ hlt, or_c0_lt _ hlt, or_80_lt _ (and_63_lt _)]
    · rw [if_neg c2, if_neg c2, if_pos (by omega)]
      have hlt : hexValue hs >>> 12 < 16 := by rw [h12]; omega
      rw [and_mask_15 _ hlt, or_e0_lt _ hlt, or_80_lt _ (and_63_lt _),
        or_80_lt _ (and_63_lt _)]

end JSON

namespace JSON

/-! ## String::parse on the content of a literal -/

theorem Outcome.sim_refl {α : Type} (x : Outcome α) : Outcome.Sim x x := by
  cases x <;> simp [Outcome.Sim]

theorem Outcome.sim_of_eq {α : Type} {x y : Outcome α} (h : x = y) : Outcome.Sim x y := by
  rw [h]; exact Outcome.sim_refl y

theorem Outcome.sim_trans {α : Type} {x y z : Outcome α} (h1 : Outcome.Sim x y)
    (h2 : Outcome.Sim y z) : Outcome.Sim x z := by
  cases x <;> cases y <;> cases z <;> simp_all [Outcome.Sim]

theorem Outcome.sim_eq_ok {α : Type} {x : Outcome α} {a : α} (h : Outcome.Sim x (.ok a)) :
    x = .ok a := by
  cases x <;> simp_all [Outcome.Sim]

theorem Outcome.sim_error_right {α : Type} {x : Outcome α} {e : JSONParseException}
    (h : Outcome.Sim x (.error e)) : ∃ e', x = .error e' ∧ e'.excepted = e.excepted := by
  cases x <;> simp_all [Outcome.Sim]

theorem string_parseLoop_quote (fuel : Nat) (rest res : List Nat) :
    String.parseLoop (fuel + 1) (34 :: rest) res = .ok (res, rest) := by
  simp [String.parseLoop, find_if, firstControl, front]

theorem string_parseLoop_char (fuel : Nat) (c : Nat) (sv res : List Nat)
    (h1 : c ≠ 34) (h2 : c ≠ 92) (h3 : c ≠ 9) (h4 : c ≠ 0) (h5 : c ≠ 10) :
    Outcome.Sim (String.parseLoop fuel (c :: sv) res) (String.parseLoop fuel sv (res ++ [c])) := by
  cases fuel with
  | zero => simp [String.parseLoop, Outcome.Sim]
  | succ fuel =>
    rw [String.parseLoop, String.parseLoop]
    have hn : find_if (fun c => decide (c = 92) || decide (c = 34)) (c :: sv)
        = find_if (fun c => decide (c = 92) || decide (c = 34)) sv + 1 := by
      simp [find_if, List.takeWhile_cons, h1, h2]
    have hfc : ∀ run, firstControl (c :: run) = firstControl run := by
      intro run
      simp [firstControl, List.find?_cons, h3, h4, h5]
    rw [hn, List.take_succ_cons, hfc, List.drop_succ_cons]
    cases hctl : firstControl
        (List.take (find_if (fun c => decide (c = 92) || decide (c = 34)) sv) sv) with
    | some b =>
      simp only
      split_ifs <;> simp [Outcome.Sim, getJSONParseError]
    | none =>
      simp only [List.append_assoc, List.singleton_append]
      exact Outcome.sim_refl _

theorem string_parseLoop_escape (fuel : Nat) (c b : Nat) (sv res : List Nat)
    (h : escapeChar c = some b) :
    String.parseLoop (fuel + 1) (92 :: c :: sv) res = String.parseLoop fuel sv (res ++ [b]) := by
  rw [String.parseLoop]
  simp [find_if, firstControl, front, h]

theorem escapeChar_117 : escapeChar 117 = none := by decide

theorem pushHexToUtf8_append (res hs : List Nat) :
    pushHexToUtf8 res hs = res ++ pushHexToUtf8 [] hs := by
  unfold pushHexToUtf8
  simp only
  split_ifs <;> simp

theorem string_parseLoop_unicode (fuel : Nat) (h1 h2 h3 h4 : Nat) (sv res : List Nat)
    (x1 : isHex h1 = true) (x2 : isHex h2 = true) (x3 : isHex h3 = true)
    (x4 : isHex h4 = true) :
    String.parseLoop (fuel + 1) (92 :: 117 :: h1 :: h2 :: h3 :: h4 :: sv) res =
      String.parseLoop fuel sv (res ++ utf8BitLayout (hexValue [h1, h2, h3, h4])) := by
  rw [String.parseLoop]
  simp [find_if, firstControl, front, escapeChar_117, x1, x2, x3, x4,
    pushHexToUtf8_eq res (hexValue_four_lt x1 x2 x3 x4)]

theorem string_parseLoop_control (fuel : Nat) (c : Nat) (sv res : List Nat)
    (hc : c = 9 ∨ c = 0 ∨ c = 10) :
    String.parseLoop (fuel + 1) (c :: sv) res =
      .error (getJSONParseError (c :: sv)
        (if c = 10 then bytes "string end `\"`" else bytes "no control char in string")) := by
  rw [String.parseLoop]
  have hn : find_if (fun c => decide (c = 92) || decide (c = 34)) (c :: sv)
      = find_if (fun c => decide (c = 92) || decide (c = 34)) sv + 1 := by
    rcases hc with h | h | h <;> subst h <;> simp [find_if, List.takeWhile_cons]
  have hfc : firstControl (List.take
      (find_if (fun c => decide (c = 92) || decide (c = 34)) (c :: sv)) (c :: sv)) = some c := by
    rw [hn, List.take_succ_cons]
    rcases hc with h | h | h <;> subst h <;> simp [firstControl]
  rw [hfc]
  simp only
  split_ifs <;> rfl

theorem string_parseLoop_decodes {t d : List Nat} (h : Decodes t d) :
    ∀ (tail res : List Nat) (fuel : Nat), (t ++ tail).length < fuel →
      Outcome.Sim (String.parseLoop fuel (t ++ tail) res)
        (String.parseLoop fuel tail (res ++ d)) := by
  induction h with
  | nil => intro tail res fuel _; simp only [List.nil_append, List.append_nil]
           exact Outcome.sim_refl _
  | char c t d h1 h2 h3 h4 h5 _ ih =>
    intro tail res fuel hf
    rw [List.cons_append]
    refine Outcome.sim_trans (string_parseLoop_char fuel c _ res h1 h2 h3 h4 h5) ?_
    have := ih tail (res ++ [c]) fuel (by simp only [List.cons_append, List.length_cons] at hf; omega)
    simpa using this
  | escape c b t d hb _ ih =>
    intro tail res fuel hf
    simp only [List.cons_append, List.length_cons] at hf
    obtain ⟨f, rfl⟩ : ∃ f, fuel = f + 1 := ⟨fuel - 1, by omega⟩
    rw [List.cons_append, List.cons_append, string_parseLoop_escape f c b _ res hb]
    have := ih tail (res ++ [b]) f (by omega)
    rw [string_parseLoop_fuel_irrel f (f + 1) tail _ (by simp only [List.length_append] at hf; omega)
      (by simp only [List.length_append] at hf; omega)] at this
    simpa using this
  | unicode h1 h2 h3 h4 t d x1 x2 x3 x4 _ ih =>
    intro tail res fuel hf
    simp only [List.cons_append, List.length_cons] at hf
    obtain ⟨f, rfl⟩ : ∃ f, fuel = f + 1 := ⟨fuel - 1, by omega⟩
    simp only [List.cons_append]
    rw [string_parseLoop_unicode f h1 h2 h3 h4 _ res x1 x2 x3 x4]
    have := ih tail (res ++ utf8BitLayout (hexValue [h1, h2, h3, h4])) f (by omega)
    rw [string_parseLoop_fuel_irrel f (f + 1) tail _ (by simp only [List.length_append] at hf; omega)
      (by simp only [List.length_append] at hf; omega)] at this
    simpa using this

/-- A literal: the quote, content, the closing quote. -/
theorem string_parse_literal {t d : List Nat} (h : Decodes t d) (rest : List Nat) :
    String.parse (34 :: (t ++ 34 :: rest)) = .ok (d, rest) := by
  unfold String.parse
  rw [removeWhiteSpaces_cons_of_not (c := 34) (by decide)]
  simp only [front_cons, ne_eq, not_true_eq_false, if_false, List.drop_succ_cons, List.drop_zero]
  have hs := string_parseLoop_decodes h (34 :: rest) []
    ((34 :: (t ++ 34 :: rest)).length + 1) (by simp; omega)
  rw [string_parseLoop_quote] at hs
  simpa using Outcome.sim_eq_ok hs

end JSON

namespace JSON

theorem removeWhiteSpaces_append_of_not {ws : List Nat} (hws : ∀ b ∈ ws, isWhiteSpace b = true)
    {c : Nat} (hc : isWhiteSpace c = false) (sv : List Nat) :
    removeWhiteSpaces (ws ++ c :: sv) = c :: sv := by
  induction ws with
  | nil => exact removeWhiteSpaces_cons_of_not hc
  | cons b t ih =>
    have hb := hws b (List.mem_cons_self _ _)
    have ht := ih (fun x hx => hws x (List.mem_cons_of_mem _ hx))
    simpa [removeWhiteSpaces, List.dropWhile, hb] using ht

theorem node_parse_string {F : Type} (fo : FloatOps F) (fuel : Nat) {sv t : List Nat}
    {dep : Nat} (hd : dep ≤ 1000) (hsv : removeWhiteSpaces sv = 34 :: t) :
    Node.parse fo (fuel + 1) sv dep =
      (String.parse (34 :: t)).bind fun r => .ok (Value.String r.1, r.2) := by
  rw [Node.parse, assert_depth_le hd]
  simp [hsv]

end JSON

namespace JSON

/-! ## Facts about a successful `Node::parse` -/

/-- The characters on which `Node::parse` dispatches. -/
theorem node_parse_ok_start {F : Type} (fo : FloatOps F) {fuel : Nat} {sv : List Nat} {dep : Nat}
    {x : Value F × List Nat} (h : Node.parse fo fuel sv dep = .ok x) :
    dep ≤ 1000 ∧ ∃ c t, removeWhiteSpaces sv = c :: t ∧
      (c = 110 ∨ c = 116 ∨ c = 102 ∨ c = 123 ∨ c = 91 ∨ c = 34 ∨ c = 45 ∨ isdigit c = true) := by
  cases fuel with
  | zero => simp [Node.parse] at h
  | succ fuel =>
    rw [Node.parse] at h
    by_cases hd : dep ≤ 1000
    · refine ⟨hd, ?_⟩
      rw [assert_depth_le hd] at h
      simp only at h
      cases hsv : removeWhiteSpaces sv with
      | nil =>
        rw [hsv] at h
        simp [front, isdigit] at h
      | cons c t =>
        refine ⟨c, t, rfl, ?_⟩
        rw [hsv] at h
        simp only [front_cons] at h
        by_contra hc
        simp only [not_or] at hc
        obtain ⟨c1, c2, c3, c4, c5, c6, c7, c8⟩ := hc
        simp [c1, c2, c3, c4, c5, c6, c7, c8] at h
    · rw [assert_depth_gt (by omega)] at h
      simp at h

theorem isWhiteSpace_of_start {c : Nat}
    (h : c = 110 ∨ c = 116 ∨ c = 102 ∨ c = 123 ∨ c = 91 ∨ c = 34 ∨ c = 45 ∨ isdigit c = true) :
    isWhiteSpace c = false ∧ c ≠ 93 ∧ c ≠ 125 ∧ c ≠ 44 ∧ c ≠ 58 := by
  unfold isdigit at h
  unfold isWhiteSpace
  simp only [Bool.and_eq_true, decide_eq_true_eq] at h
  simp only [Bool.or_eq_false_iff, decide_eq_false_iff_not]
  omega

theorem removeWhiteSpaces_eq_self_of_front {sv : List Nat} {c : Nat} (h : front sv = c)
    (hc : isWhiteSpace c = false) : removeWhiteSpaces sv = sv := by
  cases sv with
  | nil => rfl
  | cons a t =>
    simp only [front_cons] at h
    subst h
    exact removeWhiteSpaces_cons_of_not hc

theorem front_removeWhiteSpaces_of_not {sv : List Nat} (h : isWhiteSpace (front sv) = false) :
    removeWhiteSpaces sv = sv :=
  removeWhiteSpaces_eq_self_of_front rfl h

theorem removeWhiteSpaces_append {t : List Nat} {c : Nat} {u : List Nat}
    (h : removeWhiteSpaces t = c :: u) (rest : List Nat) :
    removeWhiteSpaces (t ++ rest) = c :: (u ++ rest) := by
  induction t with
  | nil => simp [removeWhiteSpaces] at h
  | cons a t ih =>
    by_cases ha : isWhiteSpace a = true
    · have h' : removeWhiteSpaces t = c :: u := by
        simpa [removeWhiteSpaces, List.dropWhile, ha] using h
      have := ih h'
      simpa [removeWhiteSpaces, List.dropWhile, ha] using this
    · have ha' : isWhiteSpace a = false := by simpa using ha
      rw [removeWhiteSpaces_cons_of_not ha'] at h
      rw [List.cons_append, removeWhiteSpaces_cons_of_not ha']
      simp only [List.cons.injEq] at h
      obtain ⟨h1, h2⟩ := h
      subst h1 h2
      rfl

theorem removeWhiteSpaces_front_not (sv : List Nat) :
    isWhiteSpace (front (removeWhiteSpaces sv)) = false := by
  induction sv with
  | nil => decide
  | cons a t ih =>
    by_cases ha : isWhiteSpace a = true
    · simpa [removeWhiteSpaces, List.dropWhile, ha] using ih
    · have ha' : isWhiteSpace a = false := by simpa using ha
      rw [removeWhiteSpaces_cons_of_not ha']
      exact ha'

/-- `Node::parse` returns the same from a text and from the text without its leading
white space. -/
theorem node_parse_strip {F : Type} (fo : FloatOps F) (fuel : Nat) (sv : List Nat) (dep : Nat)
    (x : Value F × List Nat) :
    Node.parse fo fuel (removeWhiteSpaces sv) dep = .ok x ↔ Node.parse fo fuel sv dep = .ok x := by
  cases fuel with
  | zero => simp [Node.parse]
  | succ fuel =>
    rw [Node.parse, Node.parse]
    by_cases hd : dep ≤ 1000
    · rw [assert_depth_le hd, assert_depth_le hd]
      simp only [removeWhiteSpaces_idem]
    · rw [assert_depth_gt (by omega), assert_depth_gt (by omega)]
      simp

theorem node_parse_parseFuel_of {F : Type} (fo : FloatOps F) {fuel : Nat} {sv : List Nat}
    {dep : Nat} {r : Outcome (Value F × List Nat)} (h : Node.parse fo fuel sv dep = r)
    (hr : r ≠ .fuel) : Node.parse fo (parseFuel sv) sv dep = r := by
  rw [node_parse_fuel_irrel fo dep (by rw [h]; exact hr)
    (node_parse_ne_fuel fo dep (by unfold parseFuel; omega)), h]

theorem array_parseLoop_mono {F : Type} (fo : FloatOps F) {fuel fuel' : Nat} {sv : List Nat}
    {dep : Nat} {val : List (Value F)} {t : Bool} {r : Outcome (List (Value F) × List Nat)}
    (h : Array.parseLoop fo fuel sv dep val t = r) (hr : r ≠ .fuel) (hle : fuel ≤ fuel') :
    Array.parseLoop fo fuel' sv dep val t = r := by
  rw [(parse_mono_aux fo fuel).2.2.1 fuel' sv dep val t hle (by rw [h]; exact hr), h]

theorem object_parseLoop_mono {F : Type} (fo : FloatOps F) {fuel fuel' : Nat} {sv : List Nat}
    {dep : Nat} {val : List (List Nat × Value F)} {t : Bool}
    {r : Outcome (List (List Nat × Value F) × List Nat)}
    (h : Object.parseLoop fo fuel sv dep val t = r) (hr : r ≠ .fuel) (hle : fuel ≤ fuel') :
    Object.parseLoop fo fuel' sv dep val t = r := by
  rw [(parse_mono_aux fo fuel).2.2.2.2 fuel' sv dep val t hle (by rw [h]; exact hr), h]

end JSON

namespace JSON

/-! ## The loops of `Array::parse` and `Object::parse` on element texts -/

theorem array_parseLoop_step {F : Type} (fo : FloatOps F) {sv rest1 more : List Nat}
    {dep f1 f2 : Nat} {val : List (Value F)} {t : Bool} {v : Value F}
    {r : Outcome (List (Value F) × List Nat)} (hf : front sv ≠ 93)
    (hN : Node.parse fo f1 sv (dep + 1) = .ok (v, rest1))
    (hc : removeWhiteSpaces rest1 = 44 :: more)
    (hL : Array.parseLoop fo f2 more dep (val ++ [v]) true = r) (hr : r ≠ .fuel) :
    ∃ f, Array.parseLoop fo f sv dep val t = r := by
  refine ⟨max f1 f2 + 1, ?_⟩
  rw [Array.parseLoop, if_pos hf, node_parse_mono fo hN (Nat.le_max_left _ _)]
  simp only [Outcome.bind_ok, hc, front_cons, if_true, List.drop_succ_cons, List.drop_zero]
  exact array_parseLoop_mono fo hL hr (Nat.le_max_right _ _)

theorem array_parseLoop_last {F : Type} (fo : FloatOps F) {sv rest1 rest : List Nat}
    {dep f1 : Nat} {val : List (Value F)} {t : Bool} {v : Value F} (hf : front sv ≠ 93)
    (hN : Node.parse fo f1 sv (dep + 1) = .ok (v, rest1))
    (hc : removeWhiteSpaces rest1 = 93 :: rest) :
    Array.parseLoop fo (f1 + 1) sv dep val t = .ok (val ++ [v], rest) := by
  rw [Array.parseLoop, if_pos hf, hN]
  simp only [Outcome.bind_ok, hc, front_cons, if_true, List.drop_succ_cons, List.drop_zero]

theorem object_parseLoop_step {F : Type} (fo : FloatOps F) {sv rest1 rest2 rest3 more : List Nat}
    {dep f1 f2 : Nat} {val : List (List Nat × Value F)} {t : Bool} {key : List Nat}
    {v : Value F} {r : Outcome (List (List Nat × Value F) × List Nat)} (hf : front sv ≠ 125)
    (hK : String.parse sv = .ok (key, rest1))
    (hcolon : removeWhiteSpaces rest1 = 58 :: rest2)
    (hN : Node.parse fo f1 rest2 (dep + 1) = .ok (v, rest3))
    (hc : removeWhiteSpaces rest3 = 44 :: more)
    (hL : Object.parseLoop fo f2 more dep (ObjectVT.insert val key v) true = r)
    (hr : r ≠ .fuel) :
    ∃ f, Object.parseLoop fo f sv dep val t = r := by
  refine ⟨max f1 f2 + 1, ?_⟩
  rw [Object.parseLoop, if_pos hf, hK]
  simp only [Outcome.bind_ok, hcolon, front_cons, ENABLE_DUMPLICATED_KEY_DETECT,
    Bool.false_and, Bool.false_eq_true, if_false, ne_eq, not_true_eq_false,
    List.drop_succ_cons, List.drop_zero]
  rw [node_parse_mono fo hN (Nat.le_max_left _ _)]
  simp only [Outcome.bind_ok, hc, front_cons, if_true, List.drop_succ_cons, List.drop_zero]
  exact object_parseLoop_mono fo hL hr (Nat.le_max_right _ _)

theorem object_parseLoop_last {F : Type} (fo : FloatOps F) {sv rest1 rest2 rest3 rest : List Nat}
    {dep f1 : Nat} {val : List (List Nat × Value F)} {t : Bool} {key : List Nat}
    {v : Value F} (hf : front sv ≠ 125)
    (hK : String.parse sv = .ok (key, rest1))
    (hcolon : removeWhiteSpaces rest1 = 58 :: rest2)
    (hN : Node.parse fo f1 rest2 (dep + 1) = .ok (v, rest3))
    (hc : removeWhiteSpaces rest3 = 125 :: rest) :
    Object.parseLoop fo (f1 + 1) sv dep val t = .ok (ObjectVT.insert val key v, rest) := by
  rw [Object.parseLoop, if_pos hf, hK]
  simp only [Outcome.bind_ok, hcolon, front_cons, ENABLE_DUMPLICATED_KEY_DETECT,
    Bool.false_and, Bool.false_eq_true, if_false, ne_eq, not_true_eq_false,
    List.drop_succ_cons, List.drop_zero]
  rw [hN]
  simp only [Outcome.bind_ok, hc, front_cons, if_true, List.drop_succ_cons, List.drop_zero]

end JSON

namespace JSON

theorem node_parse_ok_front_ne {F : Type} (fo : FloatOps F) {fuel : Nat} {sv : List Nat}
    {dep : Nat} {x : Value F × List Nat} (h : Node.parse fo fuel sv dep = .ok x) :
    front sv ≠ 93 ∧ front sv ≠ 125 := by
  obtain ⟨_, c, t, hsv, hc⟩ := node_parse_ok_start fo h
  obtain ⟨_, h93, h125, _, _⟩ := isWhiteSpace_of_start hc
  constructor
  · intro hf
    rw [removeWhiteSpaces_eq_self_of_front hf (by decide)] at hsv
    rw [hsv] at hf
    exact h93 hf
  · intro hf
    rw [removeWhiteSpaces_eq_self_of_front hf (by decide)] at hsv
    rw [hsv] at hf
    exact h125 hf

theorem string_parse_ok_front_ne {sv : List Nat} {x : List Nat × List Nat}
    (h : String.parse sv = .ok x) : front sv ≠ 125 := by
  intro hf
  unfold String.parse at h
  rw [removeWhiteSpaces_eq_self_of_front hf (by decide)] at h
  simp [hf] at h

theorem string_parse_strip (sv : List Nat) :
    String.parse (removeWhiteSpaces sv) = String.parse sv := by
  unfold String.parse
  rw [removeWhiteSpaces_idem]

theorem space_front_not_number {ws : List Nat} (hws : ∀ b ∈ ws, isWhiteSpace b = true) {c : Nat}
    (hc : isNumberChar c = false) (sv : List Nat) :
    isNumberChar (front (ws ++ c :: sv)) = false := by
  cases ws with
  | nil => exact hc
  | cons b t =>
    have hb := hws b (List.mem_cons_self _ _)
    simp only [List.cons_append, front_cons]
    unfold isWhiteSpace at hb
    unfold isNumberChar isdigit
    simp only [Bool.or_eq_true, decide_eq_true_eq] at hb
    simp only [Bool.or_eq_false_iff, Bool.and_eq_false_imp, decide_eq_false_iff_not,
      decide_eq_true_eq]
    omega

/-- The text of a value without its leading white space is a text of the value. -/
theorem valueText_strip {F : Type} {fo : FloatOps F} {dep : Nat} {t : List Nat} {v : Value F}
    (h : ValueText fo dep t v) :
    ∃ c u, removeWhiteSpaces t = c :: u ∧ ValueText fo dep (c :: u) v := by
  obtain ⟨f, hf⟩ := h [] (by decide)
  obtain ⟨_, c, u, hsv, _⟩ := node_parse_ok_start fo hf
  rw [List.append_nil] at hsv
  refine ⟨c, u, hsv, ?_⟩
  intro rest hrest
  obtain ⟨f', hf'⟩ := h rest hrest
  refine ⟨f', ?_⟩
  rw [← node_parse_strip, removeWhiteSpaces_append hsv] at hf'
  exact hf'

theorem keyText_strip {t key : List Nat} (h : KeyText t key) :
    ∃ c u, removeWhiteSpaces t = c :: u ∧ KeyText (c :: u) key := by
  have h0 := h []
  rw [List.append_nil] at h0
  cases hsv : removeWhiteSpaces t with
  | nil =>
    unfold String.parse at h0
    rw [hsv] at h0
    simp at h0
  | cons c u =>
    refine ⟨c, u, rfl, ?_⟩
    intro rest
    have := h rest
    rw [← string_parse_strip, removeWhiteSpaces_append hsv] at this
    exact this

theorem array_parseLoop_through {F : Type} (fo : FloatOps F) (dep : Nat) :
    ∀ (es : List (ArrayItem F)), (∀ e ∈ es, e.Valid fo (dep + 1)) →
      ∀ (val : List (Value F)) (t : Bool) (more : List Nat)
        (r : Outcome (List (Value F) × List Nat)), r ≠ .fuel →
        (∃ f, Array.parseLoop fo f more dep (val ++ es.map (fun e => e.value))
          (t || !es.isEmpty) = r) →
        ∃ f, Array.parseLoop fo f (commaEach (es.map ArrayItem.bytes) ++ more) dep val t = r := by
  intro es
  induction es with
  | nil =>
    intro _ val t more r _ h
    simpa [commaEach] using h
  | cons e es ih =>
    intro hv val t more r hr h
    obtain ⟨hvt, hsp⟩ := hv e (List.mem_cons_self _ _)
    have htext : commaEach ((e :: es).map ArrayItem.bytes) ++ more
        = e.text ++ (e.space ++ 44 :: (commaEach (es.map ArrayItem.bytes) ++ more)) := by
      simp [commaEach, ArrayItem.bytes]
    rw [htext]
    obtain ⟨f1, hN⟩ := hvt _ (space_front_not_number hsp (c := 44) (by decide) _)
    obtain ⟨f2, hL⟩ := ih (fun x hx => hv x (List.mem_cons_of_mem _ hx)) (val ++ [e.value]) true
      more r hr (by
        obtain ⟨f, hf⟩ := h
        refine ⟨f, ?_⟩
        simpa using hf)
    exact array_parseLoop_step fo (node_parse_ok_front_ne fo hN).1 hN
      (removeWhiteSpaces_append_of_not hsp (c := 44) (by decide) _) hL hr

theorem object_parseLoop_through {F : Type} (fo : FloatOps F) (dep : Nat) :
    ∀ (ms : List (ObjectItem F)), (∀ m ∈ ms, m.Valid fo (dep + 1)) →
      ∀ (val : List (List Nat × Value F)) (t : Bool) (more : List Nat)
        (r : Outcome (List (List Nat × Value F) × List Nat)), r ≠ .fuel →
        (∃ f, Object.parseLoop fo f more dep (insertAll val ms) (t || !ms.isEmpty) = r) →
        ∃ f, Object.parseLoop fo f (commaEach (ms.map ObjectItem.bytes) ++ more) dep val t
          = r := by
  intro ms
  induction ms with
  | nil =>
    intro _ val t more r _ h
    simpa [commaEach, insertAll] using h
  | cons m ms ih =>
    intro hv val t more r hr h
    obtain ⟨hk, hvt, hs1, hs2⟩ := hv m (List.mem_cons_self _ _)
    have htext : commaEach ((m :: ms).map ObjectItem.bytes) ++ more
        = m.keyText ++ (m.space1 ++ 58 :: (m.valueText ++
            (m.space2 ++ 44 :: (commaEach (ms.map ObjectItem.bytes) ++ more)))) := by
      simp [commaEach, ObjectItem.bytes]
    rw [htext]
    have hK := hk (m.space1 ++ 58 :: (m.valueText ++
            (m.space2 ++ 44 :: (commaEach (ms.map ObjectItem.bytes) ++ more))))
    obtain ⟨f1, hN⟩ := hvt _ (space_front_not_number hs2 (c := 44) (by decide) _)
    obtain ⟨f2, hL⟩ := ih (fun x hx => hv x (List.mem_cons_of_mem _ hx))
      (ObjectVT.insert val m.key m.value) true more r hr (by
        obtain ⟨f, hf⟩ := h
        refine ⟨f, ?_⟩
        simpa [insertAll] using hf)
    exact object_parseLoop_step fo (string_parse_ok_front_ne hK) hK
      (removeWhiteSpaces_append_of_not hs1 (c := 58) (by decide) _) hN
      (removeWhiteSpaces_append_of_not hs2 (c := 44) (by decide) _) hL hr

end JSON

namespace JSON

theorem node_parse_open_brace {F : Type} (fo : FloatOps F) (fuel : Nat) (sv : List Nat)
    (dep : Nat) (h : dep ≤ 1000) :
    Node.parse fo (fuel + 1) (123 :: sv) dep =
      (Object.parse fo fuel (123 :: sv) (dep + 1)).bind fun r => .ok (Value.Object r.1, r.2) := by
  rw [Node.parse, assert_depth_le h]
  simp [removeWhiteSpaces_cons_of_not (c := 123) (by decide)]

theorem object_parse_open_brace {F : Type} (fo : FloatOps F) (fuel : Nat) (sv : List Nat)
    (dep : Nat) (h : dep ≤ 1000) :
    Object.parse fo (fuel + 1) (123 :: sv) dep =
      Object.parseLoop fo fuel (removeWhiteSpaces sv) dep [] false := by
  rw [Object.parse, assert_depth_le h]
  simp [removeWhiteSpaces_cons_of_not (c := 123) (by decide)]

theorem array_parseLoop_joined {F : Type} (fo : FloatOps F) (dep : Nat) :
    ∀ (es : List (ArrayItem F)), es ≠ [] → (∀ e ∈ es, e.Valid fo (dep + 1)) →
      ∀ (val : List (Value F)) (t : Bool) (rest : List Nat),
        ∃ f, Array.parseLoop fo f (joinItems (es.map ArrayItem.bytes) ++ 93 :: rest) dep val t
          = .ok (val ++ es.map (fun e => e.value), rest) := by
  intro es
  induction es with
  | nil => intro h; exact absurd rfl h
  | cons e es ih =>
    intro _ hv val t rest
    obtain ⟨hvt, hsp⟩ := hv e (List.mem_cons_self _ _)
    cases es with
    | nil =>
      have htext : joinItems ([e].map ArrayItem.bytes) ++ 93 :: rest
          = e.text ++ (e.space ++ 93 :: rest) := by
        simp [joinItems, ArrayItem.bytes]
      rw [htext]
      obtain ⟨f1, hN⟩ := hvt _ (space_front_not_number hsp (c := 93) (by decide) _)
      exact ⟨f1 + 1, array_parseLoop_last fo (node_parse_ok_front_ne fo hN).1 hN
        (removeWhiteSpaces_append_of_not hsp (c := 93) (by decide) _)⟩
    | cons e' l =>
      have htext : joinItems ((e :: e' :: l).map ArrayItem.bytes) ++ 93 :: rest
          = e.text ++ (e.space ++ 44 :: (joinItems ((e' :: l).map ArrayItem.bytes)
              ++ 93 :: rest)) := by
        simp [joinItems, ArrayItem.bytes]
      rw [htext]
      obtain ⟨f1, hN⟩ := hvt _ (space_front_not_number hsp (c := 44) (by decide) _)
      obtain ⟨f2, hL⟩ := ih (by simp) (fun x hx => hv x (List.mem_cons_of_mem _ hx))
        (val ++ [e.value]) true rest
      have hL' : Array.parseLoop fo f2 (joinItems ((e' :: l).map ArrayItem.bytes) ++ 93 :: rest)
          dep (val ++ [e.value]) true
          = .ok (val ++ (e :: e' :: l).map (fun e => e.value), rest) := by
        rw [hL]; simp
      exact array_parseLoop_step fo (node_parse_ok_front_ne fo hN).1 hN
        (removeWhiteSpaces_append_of_not hsp (c := 44) (by decide) _) hL' (by simp)

theorem object_parseLoop_joined {F : Type} (fo : FloatOps F) (dep : Nat) :
    ∀ (ms : List (ObjectItem F)), ms ≠ [] → (∀ m ∈ ms, m.Valid fo (dep + 1)) →
      ∀ (val : List (List Nat × Value F)) (t : Bool) (rest : List Nat),
        ∃ f, Object.parseLoop fo f (joinItems (ms.map ObjectItem.bytes) ++ 125 :: rest) dep val t
          = .ok (insertAll val ms, rest) := by
  intro ms
  induction ms with
  | nil => intro h; exact absurd rfl h
  | cons m ms ih =>
    intro _ hv val t rest
    obtain ⟨hk, hvt, hs1, hs2⟩ := hv m (List.mem_cons_self _ _)
    cases ms with
    | nil =>
      have htext : joinItems ([m].map ObjectItem.bytes) ++ 125 :: rest
          = m.keyText ++ (m.space1 ++ 58 :: (m.valueText ++ (m.space2 ++ 125 :: rest))) := by
        simp [joinItems, ObjectItem.bytes]
      rw [htext]
      have hK := hk (m.space1 ++ 58 :: (m.valueText ++ (m.space2 ++ 125 :: rest)))
      obtain ⟨f1, hN⟩ := hvt _ (space_front_not_number hs2 (c := 125) (by decide) _)
      exact ⟨f1 + 1, object_parseLoop_last fo (string_parse_ok_front_ne hK) hK
        (removeWhiteSpaces_append_of_not hs1 (c := 58) (by decide) _) hN
        (removeWhiteSpaces_append_of_not hs2 (c := 125) (by decide) _)⟩
    | cons m' l =>
      have htext : joinItems ((m :: m' :: l).map ObjectItem.bytes) ++ 125 :: rest
          = m.keyText ++ (m.space1 ++ 58 :: (m.valueText ++ (m.space2 ++
              44 :: (joinItems ((m' :: l).map ObjectItem.bytes) ++ 125 :: rest)))) := by
        simp [joinItems, ObjectItem.bytes]
      rw [htext]
      have hK := hk (m.space1 ++ 58 :: (m.valueText ++ (m.space2 ++
              44 :: (joinItems ((m' :: l).map ObjectItem.bytes) ++ 125 :: rest))))
      obtain ⟨f1, hN⟩ := hvt _ (space_front_not_number hs2 (c := 44) (by decide) _)
      obtain ⟨f2, hL⟩ := ih (by simp) (fun x hx => hv x (List.mem_cons_of_mem _ hx))
        (ObjectVT.insert val m.key m.value) true rest
      exact object_parseLoop_step fo (string_parse_ok_front_ne hK) hK
        (removeWhiteSpaces_append_of_not hs1 (c := 58) (by decide) _) hN
        (removeWhiteSpaces_append_of_not hs2 (c := 44) (by decide) _) hL (by simp)

/-- After a comma, white space and `]`: the loop of `Array::parse` throws. -/
theorem array_parseLoop_trailing {F : Type} (fo : FloatOps F) (dep : Nat) (hd : dep + 1 ≤ 1000)
    (ws tail : List Nat) (hws : ∀ b ∈ ws, isWhiteSpace b = true) (val : List (Value F)) :
    ∃ f e, Array.parseLoop fo f (ws ++ 93 :: tail) dep val true = .error e ∧
      (e.excepted = bytes "next json value" ∨ e.excepted = bytes "any JSON value") := by
  cases ws with
  | nil =>
    refine ⟨1, getJSONParseError (93 :: tail) (bytes "next json value"), ?_, Or.inl rfl⟩
    rw [Array.parseLoop]
    simp [ENABLE_TRAILING_COMMA]
  | cons b ws =>
    have hb := hws b (List.mem_cons_self _ _)
    refine ⟨2, getJSONParseError (93 :: tail) (bytes "any JSON value"), ?_, Or.inr rfl⟩
    have hne : front ((b :: ws) ++ 93 :: tail) ≠ 93 := by
      intro h
      simp only [List.cons_append, front_cons] at h
      subst h
      simp [isWhiteSpace] at hb
    rw [Array.parseLoop, if_pos hne, Node.parse, assert_depth_le hd,
      removeWhiteSpaces_append_of_not hws (c := 93) (by decide)]
    simp [isdigit]

/-- After a comma, white space and `}`: the loop of `Object::parse` throws. -/
theorem object_parseLoop_trailing {F : Type} (fo : FloatOps F) (dep : Nat)
    (ws tail : List Nat) (hws : ∀ b ∈ ws, isWhiteSpace b = true)
    (val : List (List Nat × Value F)) :
    ∃ f e, Object.parseLoop fo f (ws ++ 125 :: tail) dep val true = .error e ∧
      (e.excepted = bytes "next json value" ∨ e.excepted = bytes "string start `\"`") := by
  cases ws with
  | nil =>
    refine ⟨1, getJSONParseError (125 :: tail) (bytes "next json value"), ?_, Or.inl rfl⟩
    rw [Object.parseLoop]
    simp [ENABLE_TRAILING_COMMA]
  | cons b ws =>
    have hb := hws b (List.mem_cons_self _ _)
    refine ⟨1, getJSONParseError (125 :: tail) (bytes "string start `\"`"), ?_, Or.inr rfl⟩
    have hne : front ((b :: ws) ++ 125 :: tail) ≠ 125 := by
      intro h
      simp only [List.cons_append, front_cons] at h
      subst h
      simp [isWhiteSpace] at hb
    rw [Object.parseLoop, if_pos hne, String.parse,
      removeWhiteSpaces_append_of_not hws (c := 125) (by decide)]
    simp

end JSON

namespace JSON

/-! ## Numbers: `std::to_string`, `std::stoll` and `Number::parse` -/

theorem digitsValue_foldl (ds : List Nat) (a : Nat) :
    ds.foldl (fun a d => 10 * a + (d - 48)) a = a * 10 ^ ds.length + digitsValue ds := by
  unfold digitsValue
  induction ds generalizing a with
  | nil => simp
  | cons d t ih =>
    simp only [List.foldl_cons, List.length_cons]
    rw [ih (10 * a + (d - 48)), ih (10 * 0 + (d - 48))]
    ring

theorem digitsValue_append (ds es : List Nat) :
    digitsValue (ds ++ es) = digitsValue ds * 10 ^ es.length + digitsValue es := by
  unfold digitsValue
  rw [List.foldl_append, digitsValue_foldl]
  rfl

/-- What `decimalDigits` pushes: digits only, at least one, denoting `n`. -/
theorem decimalDigits_spec : ∀ (fuel n : Nat) (acc : List Nat), n < fuel →
    ∃ ds, decimalDigits fuel n acc = ds ++ acc ∧ ds ≠ [] ∧ (∀ d ∈ ds, isdigit d = true) ∧
      digitsValue ds = n := by
  intro fuel
  induction fuel with
  | zero => intro n acc h; omega
  | succ fuel ih =>
    intro n acc h
    rw [decimalDigits]
    by_cases hn : n < 10
    · rw [if_pos hn]
      refine ⟨[48 + n], rfl, by simp, ?_, ?_⟩
      · intro d hd
        simp only [List.mem_singleton] at hd
        subst hd
        simp only [isdigit, Bool.and_eq_true, decide_eq_true_eq]
        omega
      · simp [digitsValue]
    · rw [if_neg hn]
      obtain ⟨ds, h1, h2, h3, h4⟩ := ih (n / 10) ((48 + n % 10) :: acc) (by omega)
      refine ⟨ds ++ [48 + n % 10], by rw [h1]; simp, by simp, ?_, ?_⟩
      · intro d hd
        rcases List.mem_append.mp hd with hd | hd
        · exact h3 d hd
        · simp only [List.mem_singleton] at hd
          subst hd
          simp only [isdigit, Bool.and_eq_true, decide_eq_true_eq]
          omega
      · rw [digitsValue_append, h4]
        simp only [List.length_singleton, pow_one, digitsValue, List.foldl_cons, List.foldl_nil]
        omega

theorem takeWhile_append_all {p : Nat → Bool} {s : List Nat} (hs : ∀ c ∈ s, p c = true)
    (rest : List Nat) (hrest : p (front rest) = false) :
    (s ++ rest).takeWhile p = s := by
  induction s with
  | nil =>
    cases rest with
    | nil => rfl
    | cons c t =>
      simp only [front_cons] at hrest
      simp [List.takeWhile_cons, hrest]
  | cons a t ih =>
    have ha := hs a (List.mem_cons_self _ _)
    simp only [List.cons_append, List.takeWhile_cons, ha, if_true]
    rw [ih (fun c hc => hs c (List.mem_cons_of_mem _ hc))]

theorem takeWhile_all {p : Nat → Bool} {s : List Nat} (hs : ∀ c ∈ s, p c = true) :
    s.takeWhile p = s :=
  List.takeWhile_eq_self_iff.mpr hs

end JSON

namespace JSON

theorem takeSign_other {d : Nat} (t : List Nat) (h1 : d ≠ 45) (h2 : d ≠ 43) :
    takeSign (d :: t) = (false, d :: t) := by
  unfold takeSign
  split
  · rename_i h; simp only [List.cons.injEq] at h; exact absurd h.1 h1
  · rename_i h; simp only [List.cons.injEq] at h; exact absurd h.1 h2
  · rfl

theorem isdigit_facts {d : Nat} (h : isdigit d = true) :
    d ≠ 45 ∧ d ≠ 43 ∧ isspace d = false ∧ isWhiteSpace d = false ∧ isNumberChar d = true ∧
      d ≠ 46 := by
  unfold isdigit at h
  simp only [Bool.and_eq_true, decide_eq_true_eq] at h
  refine ⟨by omega, by omega, ?_, ?_, ?_, by omega⟩
  · simp only [isspace, Bool.or_eq_false_iff, Bool.and_eq_false_imp, decide_eq_false_iff_not,
      decide_eq_true_eq]
    omega
  · simp only [isWhiteSpace, Bool.or_eq_false_iff, decide_eq_false_iff_not]
    omega
  · simp [isNumberChar, isdigit, h]

theorem stoll_digits {ds : List Nat} (hne : ds ≠ []) (hd : ∀ d ∈ ds, isdigit d = true)
    (neg : Bool) (hr : -9223372036854775808 ≤ (if neg then -(digitsValue ds : Int)
      else (digitsValue ds : Int)) ∧ (if neg then -(digitsValue ds : Int)
      else (digitsValue ds : Int)) ≤ 9223372036854775807) :
    stoll (if neg then 45 :: ds else ds)
      = some (if neg then -(digitsValue ds : Int) else (digitsValue ds : Int)) := by
  obtain ⟨d, t, rfl⟩ := List.exists_cons_of_ne_nil hne
  have hd0 := isdigit_facts (hd d (List.mem_cons_self _ _))
  unfold stoll
  cases neg with
  | true =>
    have h1 : List.dropWhile isspace (45 :: d :: t) = 45 :: d :: t := by
      simp [List.dropWhile, isspace]
    have h2 : takeSign (45 :: d :: t) = (true, d :: t) := rfl
    simp only [if_true, h1, h2, takeWhile_all hd] at hr ⊢
    rw [if_neg (by simp), if_pos hr]
  | false =>
    have h1 : List.dropWhile isspace (d :: t) = d :: t := by
      simp [List.dropWhile, hd0.2.2.1]
    simp only [Bool.false_eq_true, if_false, h1, takeSign_other t hd0.1 hd0.2.1,
      takeWhile_all hd] at hr ⊢
    rw [if_neg (by simp), if_pos hr]

/-- The text `std::to_string` gives an `int64_t`: an optional `-` and digits, which
`std::stoll` reads back. -/
theorem to_string_spec (x : Int) (hx : -9223372036854775808 ≤ x ∧ x ≤ 9223372036854775807) :
    stoll (to_string x) = some x ∧ to_string x ≠ [] ∧
      (∀ c ∈ to_string x, isNumberChar c = true ∧ c ≠ 46) ∧
      (front (to_string x) = 45 ∨ isdigit (front (to_string x)) = true) := by
  obtain ⟨ds, h1, h2, h3, h4⟩ := decimalDigits_spec (x.natAbs + 1) x.natAbs [] (by omega)
  rw [List.append_nil] at h1
  have hts : to_string x = if decide (x < 0) then 45 :: ds else ds := by
    unfold to_string
    rw [h1]
    by_cases hneg : x < 0 <;> simp [hneg]
  have hval : (if decide (x < 0) then -(digitsValue ds : Int) else (digitsValue ds : Int)) = x := by
    rw [h4]
    by_cases hneg : x < 0
    · simp only [hneg, decide_True, if_true]; omega
    · simp only [hneg, decide_False, Bool.false_eq_true, if_false]; omega
  have hst := stoll_digits h2 h3 (decide (x < 0)) (by rw [hval]; exact hx)
  rw [hval, ← hts] at hst
  obtain ⟨d, t, rfl⟩ := List.exists_cons_of_ne_nil h2
  have hd0 := isdigit_facts (h3 d (List.mem_cons_self _ _))
  refine ⟨hst, ?_, ?_, ?_⟩
  · rw [hts]; split <;> simp
  · intro c hc
    rw [hts] at hc
    have hmem : c = 45 ∨ c ∈ d :: t := by
      split at hc
      · simpa using hc
      · exact Or.inr hc
    rcases hmem with h | h
    · subst h; exact ⟨by decide, by decide⟩
    · have := isdigit_facts (h3 c h)
      exact ⟨this.2.2.2.2.1, this.2.2.2.2.2⟩
  · rw [hts]
    split
    · exact Or.inl rfl
    · exact Or.inr (h3 d (List.mem_cons_self _ _))

/-- `Number::parse` on a run of number characters that its constructor accepts. -/
theorem number_parse_text {F : Type} (fo : FloatOps F) {s : List Nat} {n : Number F}
    (hfront : front s = 45 ∨ isdigit (front s) = true)
    (hs : ∀ c ∈ s, isNumberChar c = true)
    (hn : Number.ofText fo s (s.contains 46) = some n)
    (rest : List Nat) (hrest : isNumberChar (front rest) = false) :
    Number.parse fo (s ++ rest) = .ok (n, rest) := by
  have hne : s ≠ [] := by
    intro h
    subst h
    simp [isdigit] at hfront
  obtain ⟨c, t, rfl⟩ := List.exists_cons_of_ne_nil hne
  have hcws : isWhiteSpace c = false := by
    simp only [front_cons] at hfront
    rcases hfront with h | h
    · subst h; decide
    · exact (isdigit_facts h).2.2.2.1
  unfold Number.parse
  rw [List.cons_append, removeWhiteSpaces_cons_of_not hcws, ← List.cons_append]
  simp only [takeWhile_append_all hs rest hrest, List.length_append,
    Nat.min_eq_left (Nat.le_add_right _ _), List.drop_left, hn]

end JSON

namespace JSON

/-! ## `Node::parse` on the text of a leaf -/

theorem node_parse_number_text {F : Type} (fo : FloatOps F) (fuel : Nat) {dep : Nat}
    (hd : dep ≤ 1000) {s : List Nat} {n : Number F}
    (hfront : front s = 45 ∨ isdigit (front s) = true)
    (hs : ∀ c ∈ s, isNumberChar c = true)
    (hn : Number.ofText fo s (s.contains 46) = some n)
    (rest : List Nat) (hrest : isNumberChar (front rest) = false) :
    Node.parse fo (fuel + 1) (s ++ rest) dep = .ok (.Number n, rest) := by
  have hne : s ≠ [] := by
    intro h
    subst h
    simp [isdigit] at hfront
  obtain ⟨c, t, rfl⟩ := List.exists_cons_of_ne_nil hne
  simp only [front_cons] at hfront
  have hc : isdigit c = true ∨ c = 45 := hfront.symm
  have hcws : isWhiteSpace c = false := by
    rcases hc with h | h
    · exact (isdigit_facts h).2.2.2.1
    · subst h; decide
  have hsv : removeWhiteSpaces (c :: t ++ rest) = c :: t ++ rest := by
    rw [List.cons_append, removeWhiteSpaces_cons_of_not hcws]
  have hnum := number_parse_text fo (s := c :: t) (by simpa using hfront) hs hn rest hrest
  rw [Node.parse, assert_depth_le hd]
  simp only [hsv]
  have hfc : front (c :: t ++ rest) = c := rfl
  rw [hfc]
  have hcases : c ≠ 110 ∧ c ≠ 116 ∧ c ≠ 102 ∧ c ≠ 123 ∧ c ≠ 91 ∧ c ≠ 34 := by
    rcases hc with h | h
    · unfold isdigit at h
      simp only [Bool.and_eq_true, decide_eq_true_eq] at h
      omega
    · omega
  obtain ⟨c1, c2, c3, c4, c5, c6⟩ := hcases
  rw [if_neg c1, if_neg (by simp [c2, c3]), if_neg c4, if_neg c5, if_neg c6,
    if_pos (by rcases hc with h | h; exact Or.inr h; exact Or.inl h), hnum]
  rfl

theorem node_parse_null_text {F : Type} (fo : FloatOps F) (fuel : Nat) {dep : Nat}
    (hd : dep ≤ 1000) (rest : List Nat) :
    Node.parse fo (fuel + 1) (bytes "null" ++ rest) dep = .ok (.Null, rest) := by
  rw [Node.parse, assert_depth_le hd]
  have hb : bytes "null" = [110, 117, 108, 108] := by decide
  simp [hb, removeWhiteSpaces, isWhiteSpace, Null.parse, starts_with]

theorem node_parse_true_text {F : Type} (fo : FloatOps F) (fuel : Nat) {dep : Nat}
    (hd : dep ≤ 1000) (rest : List Nat) :
    Node.parse fo (fuel + 1) (bytes "true" ++ rest) dep = .ok (.Boolean true, rest) := by
  rw [Node.parse, assert_depth_le hd]
  have hb : bytes "true" = [116, 114, 117, 101] := by decide
  simp [hb, removeWhiteSpaces, isWhiteSpace, Boolean.parse, starts_with]

theorem node_parse_false_text {F : Type} (fo : FloatOps F) (fuel : Nat) {dep : Nat}
    (hd : dep ≤ 1000) (rest : List Nat) :
    Node.parse fo (fuel + 1) (bytes "false" ++ rest) dep = .ok (.Boolean false, rest) := by
  rw [Node.parse, assert_depth_le hd]
  have hb : bytes "false" = [102, 97, 108, 115, 101] := by decide
  have hb' : bytes "true" = [116, 114, 117, 101] := by decide
  simp [hb, hb', removeWhiteSpaces, isWhiteSpace, Boolean.parse, starts_with]

theorem node_parse_literal {F : Type} (fo : FloatOps F) (fuel : Nat) {dep : Nat}
    (hd : dep ≤ 1000) {t d : List Nat} (h : Decodes t d) (rest : List Nat) :
    Node.parse fo (fuel + 1) (34 :: (t ++ 34 :: rest)) dep = .ok (.String d, rest) := by
  rw [node_parse_string fo fuel hd (removeWhiteSpaces_cons_of_not (c := 34) (by decide)),
    string_parse_literal h]
  rfl

/-! ## `toJSONString` gives a literal -/

theorem toJSONString_eq (s : List Nat) :
    String.toJSONString s = 34 :: (s.flatMap escapeOf ++ [34]) := by
  unfold String.toJSONString
  have : ∀ (acc : List Nat), s.foldl (fun res c => res ++ escapeOf c) acc
      = acc ++ s.flatMap escapeOf := by
    induction s with
    | nil => intro acc; simp
    | cons c t ih => intro acc; simp [List.foldl_cons, ih, List.flatMap_cons]
  rw [this]
  rfl

theorem decodes_escapeOf : ∀ (s : List Nat), (∀ c ∈ s, c ≠ 0) →
    Decodes (s.flatMap escapeOf) s := by
  intro s
  induction s with
  | nil => intro _; exact Decodes.nil
  | cons c t ih =>
    intro h
    have hc := h c (List.mem_cons_self _ _)
    have ht := ih (fun x hx => h x (List.mem_cons_of_mem _ hx))
    rw [List.flatMap_cons]
    unfold escapeOf
    split_ifs with h1 h2 h3 h4 h5 h6 h7
    · subst h1; exact Decodes.escape 92 92 _ _ (by decide) ht
    · subst h2; exact Decodes.escape 110 10 _ _ (by decide) ht
    · subst h3; exact Decodes.escape 98 8 _ _ (by decide) ht
    · subst h4; exact Decodes.escape 102 12 _ _ (by decide) ht
    · subst h5; exact Decodes.escape 114 13 _ _ (by decide) ht
    · subst h6; exact Decodes.escape 116 9 _ _ (by decide) ht
    · subst h7; exact Decodes.escape 34 34 _ _ (by decide) ht
    · exact Decodes.char c _ _ h7 h1 h6 hc h2 ht

theorem keyText_toJSONString {s : List Nat} (h : ∀ c ∈ s, c ≠ 0) :
    KeyText (String.toJSONString s) s := by
  intro rest
  rw [toJSONString_eq]
  have := string_parse_literal (decodes_escapeOf s h) rest
  simpa using this

end JSON

namespace JSON

/-! ## `Node::parse` on the text of a container -/

theorem node_parse_array_of_loop {F : Type} (fo : FloatOps F) {dep f : Nat} (hd : dep + 1 ≤ 1000)
    {sv : List Nat} {r : Outcome (List (Value F) × List Nat)}
    (h : Array.parseLoop fo f (removeWhiteSpaces sv) (dep + 1) [] false = r) :
    Node.parse fo (f + 2) (91 :: sv) dep = r.bind fun r => .ok (Value.Array r.1, r.2) := by
  rw [node_parse_open_bracket fo _ _ _ (by omega), array_parse_open_bracket fo _ _ _ hd, h]

theorem node_parse_object_of_loop {F : Type} (fo : FloatOps F) {dep f : Nat}
    (hd : dep + 1 ≤ 1000) {sv : List Nat}
    {r : Outcome (List (List Nat × Value F) × List Nat)}
    (h : Object.parseLoop fo f (removeWhiteSpaces sv) (dep + 1) [] false = r) :
    Node.parse fo (f + 2) (123 :: sv) dep = r.bind fun r => .ok (Value.Object r.1, r.2) := by
  rw [node_parse_open_brace fo _ _ _ (by omega), object_parse_open_brace fo _ _ _ hd, h]

theorem arrayItem_strip {F : Type} {fo : FloatOps F} {dep : Nat} {e : ArrayItem F}
    (h : e.Valid fo dep) :
    ∃ e' : ArrayItem F, e'.Valid fo dep ∧ e'.value = e.value ∧
      ∀ more, removeWhiteSpaces (e.bytes ++ more) = e'.bytes ++ more := by
  obtain ⟨c, u, hsv, hvt⟩ := valueText_strip h.1
  refine ⟨⟨c :: u, e.value, e.space⟩, ⟨hvt, h.2⟩, rfl, ?_⟩
  intro more
  unfold ArrayItem.bytes
  rw [List.append_assoc, removeWhiteSpaces_append hsv]
  simp

theorem objectItem_strip {F : Type} {fo : FloatOps F} {dep : Nat} {m : ObjectItem F}
    (h : m.Valid fo dep) :
    ∃ m' : ObjectItem F, m'.Valid fo dep ∧ m'.key = m.key ∧ m'.value = m.value ∧
      ∀ more, removeWhiteSpaces (m.bytes ++ more) = m'.bytes ++ more := by
  obtain ⟨c, u, hsv, hkt⟩ := keyText_strip h.1
  refine ⟨⟨c :: u, m.key, m.space1, m.valueText, m.value, m.space2⟩,
    ⟨hkt, h.2.1, h.2.2.1, h.2.2.2⟩, rfl, rfl, ?_⟩
  intro more
  unfold ObjectItem.bytes
  rw [List.append_assoc, removeWhiteSpaces_append hsv]
  simp

theorem commaEach_cons (a : List Nat) (ts : List (List Nat)) (more : List Nat) :
    commaEach (a :: ts) ++ more = a ++ (44 :: (commaEach ts ++ more)) := by
  simp [commaEach]

theorem joinItems_cons (a : List Nat) (ts : List (List Nat)) (close : Nat) (rest : List Nat) :
    ∃ y, joinItems (a :: ts) ++ close :: rest = a ++ y ∧
      ∀ a', joinItems (a' :: ts) ++ close :: rest = a' ++ y := by
  cases ts with
  | nil => exact ⟨close :: rest, by simp [joinItems], by intro a'; simp [joinItems]⟩
  | cons b l =>
    exact ⟨44 :: (joinItems (b :: l) ++ close :: rest), by simp [joinItems],
      by intro a'; simp [joinItems]⟩

/-- A non-empty array text whose elements are each followed by a comma, then white
space and `]`. -/
theorem node_parse_array_trailing {F : Type} (fo : FloatOps F) (dep : Nat) (hd : dep + 2 ≤ 1000)
    (es : List (ArrayItem F)) (hne : es ≠ []) (hv : ∀ e ∈ es, e.Valid fo (dep + 2))
    (ws tail : List Nat) (hws : ∀ b ∈ ws, isWhiteSpace b = true) :
    ∃ f e, Node.parse fo f (91 :: (commaEach (es.map ArrayItem.bytes) ++ (ws ++ 93 :: tail))) dep
        = .error e ∧
      (e.excepted = bytes "next json value" ∨ e.excepted = bytes "any JSON value") := by
  obtain ⟨e1, es', rfl⟩ := List.exists_cons_of_ne_nil hne
  obtain ⟨e1', hv1, hval, hstrip⟩ := arrayItem_strip (hv e1 (List.mem_cons_self _ _))
  obtain ⟨f0, err, hT, hex⟩ := array_parseLoop_trailing fo (dep + 1) (by omega) ws tail hws
    ([] ++ (e1' :: es').map (fun e => e.value))
  have hv' : ∀ e ∈ e1' :: es', e.Valid fo (dep + 1 + 1) := by
    intro e he
    rcases List.mem_cons.mp he with h | h
    · subst h; exact hv1
    · exact hv e (List.mem_cons_of_mem _ h)
  obtain ⟨f, hf⟩ := array_parseLoop_through fo (dep + 1) (e1' :: es') hv' [] false
    (ws ++ 93 :: tail) (.error err) (by simp) ⟨f0, by simpa using hT⟩
  refine ⟨f + 2, err, ?_, hex⟩
  have hsv : removeWhiteSpaces (commaEach ((e1 :: es').map ArrayItem.bytes) ++ (ws ++ 93 :: tail))
      = commaEach ((e1' :: es').map ArrayItem.bytes) ++ (ws ++ 93 :: tail) := by
    rw [List.map_cons, List.map_cons, commaEach_cons, commaEach_cons, hstrip]
  rw [← hsv] at hf
  rw [node_parse_array_of_loop fo (by omega) hf]
  rfl

/-- A non-empty object text whose members are each followed by a comma, then white
space and `}`. -/
theorem node_parse_object_trailing {F : Type} (fo : FloatOps F) (dep : Nat)
    (hd : dep + 1 ≤ 1000) (ms : List (ObjectItem F)) (hne : ms ≠ [])
    (hv : ∀ m ∈ ms, m.Valid fo (dep + 2)) (ws tail : List Nat)
    (hws : ∀ b ∈ ws, isWhiteSpace b = true) :
    ∃ f e, Node.parse fo f (123 :: (commaEach (ms.map ObjectItem.bytes) ++ (ws ++ 125 :: tail)))
        dep = .error e ∧
      (e.excepted = bytes "next json value" ∨ e.excepted = bytes "string start `\"`") := by
  obtain ⟨m1, ms', rfl⟩ := List.exists_cons_of_ne_nil hne
  obtain ⟨m1', hv1, _, _, hstrip⟩ := objectItem_strip (hv m1 (List.mem_cons_self _ _))
  obtain ⟨f0, err, hT, hex⟩ := object_parseLoop_trailing fo (dep + 1) ws tail hws
    (insertAll [] (m1' :: ms'))
  have hv' : ∀ m ∈ m1' :: ms', m.Valid fo (dep + 1 + 1) := by
    intro m hm
    rcases List.mem_cons.mp hm with h | h
    · subst h; exact hv1
    · exact hv m (List.mem_cons_of_mem _ h)
  obtain ⟨f, hf⟩ := object_parseLoop_through fo (dep + 1) (m1' :: ms') hv' [] false
    (ws ++ 125 :: tail) (.error err) (by simp) ⟨f0, by simpa using hT⟩
  refine ⟨f + 2, err, ?_, hex⟩
  have hsv : removeWhiteSpaces
      (commaEach ((m1 :: ms').map ObjectItem.bytes) ++ (ws ++ 125 :: tail))
      = commaEach ((m1' :: ms').map ObjectItem.bytes) ++ (ws ++ 125 :: tail) := by
    rw [List.map_cons, List.map_cons, commaEach_cons, commaEach_cons, hstrip]
  rw [← hsv] at hf
  rw [node_parse_object_of_loop fo hd hf]
  rfl

/-- What `JSON::parse` returns when `Node::parse` throws. -/
theorem parse_of_node_error {F : Type} (fo : FloatOps F) {f : Nat} {sv : List Nat}
    {e : JSONParseException} (h : Node.parse fo f sv 0 = .error e) :
    parse fo sv = .error e := by
  unfold parse
  rw [node_parse_parseFuel_of fo h (by simp)]
  rfl

/-- What `JSON::parse` returns when `Node::parse` consumes the text. -/
theorem parse_of_node_ok {F : Type} (fo : FloatOps F) {f : Nat} {sv : List Nat} {v : Value F}
    {rest : List Nat} (h : Node.parse fo f sv 0 = .ok (v, rest))
    (hrest : removeWhiteSpaces rest = []) : parse fo sv = .ok v := by
  unfold parse
  rw [node_parse_parseFuel_of fo h (by simp)]
  simp [hrest]

end JSON

namespace JSON

/-- `JSON::parse` never runs out of the fuel it starts from. -/
theorem parse_ne_fuel {F : Type} (fo : FloatOps F) (sv : List Nat) : parse fo sv ≠ .fuel := by
  unfold parse
  refine Outcome.bind_ne_fuel_of (node_parse_ne_fuel fo 0 (by unfold parseFuel; omega)) ?_
  intro a _
  simp only
  split <;> simp

end JSON

namespace JSON

/-! ## Texts of values -/

theorem valueText_int {F : Type} (fo : FloatOps F) (x : Int)
    (hx : -9223372036854775808 ≤ x ∧ x ≤ 9223372036854775807) {dep : Nat} (hd : dep ≤ 1000) :
    ValueText fo dep (to_string x) (.Number ⟨x, fo.ofInt64 x, false, to_string x⟩) := by
  obtain ⟨h1, _, h3, h4⟩ := to_string_spec x hx
  intro rest hrest
  refine ⟨1, node_parse_number_text fo 0 hd h4 (fun c hc => (h3 c hc).1) ?_ rest hrest⟩
  have hdot : (to_string x).contains 46 = false := by
    rw [List.contains_eq_any_beq, List.any_eq_false]
    intro c hc
    have := (h3 c hc).2
    simpa using fun h : 46 = c => this h.symm
  rw [hdot]
  simp [Number.ofText, h1]

theorem valueText_literal {F : Type} (fo : FloatOps F) {dep : Nat} (hd : dep ≤ 1000)
    {t d : List Nat} (h : Decodes t d) :
    ValueText fo dep (34 :: (t ++ [34])) (.String d) := by
  intro rest _
  refine ⟨1, ?_⟩
  have := node_parse_literal fo 0 hd h rest
  simpa using this

end JSON

namespace JSON

/-! ## `Node::parse` on array and object texts -/

theorem object_parseLoop_close {F : Type} (fo : FloatOps F) (fuel : Nat) (sv : List Nat)
    (dep : Nat) (val : List (List Nat × Value F)) :
    Object.parseLoop fo (fuel + 1) (125 :: sv) dep val false = .ok (val, sv) := by
  rw [Object.parseLoop]
  simp

theorem node_parse_array_text {F : Type} (fo : FloatOps F) (dep : Nat) (hd : dep + 1 ≤ 1000)
    (es : List (ArrayItem F)) (hv : ∀ e ∈ es, e.Valid fo (dep + 2)) (rest : List Nat) :
    ∃ f, Node.parse fo f (91 :: (joinItems (es.map ArrayItem.bytes) ++ 93 :: rest)) dep
      = .ok (.Array (es.map fun e => e.value), rest) := by
  cases es with
  | nil =>
    refine ⟨3, ?_⟩
    have h : Array.parseLoop fo 1 (removeWhiteSpaces (joinItems (([] : List (ArrayItem F)).map
        ArrayItem.bytes) ++ 93 :: rest)) (dep + 1) [] false = .ok ([], rest) := by
      simp only [List.map_nil, joinItems, List.nil_append]
      rw [removeWhiteSpaces_cons_of_not (c := 93) (by decide), array_parseLoop_close]
    rw [node_parse_array_of_loop fo hd h]
    rfl
  | cons e1 es' =>
    obtain ⟨e1', hv1, hval, hstrip⟩ := arrayItem_strip (hv e1 (List.mem_cons_self _ _))
    have hv' : ∀ e ∈ e1' :: es', e.Valid fo (dep + 1 + 1) := by
      intro e he
      rcases List.mem_cons.mp he with h | h
      · subst h; exact hv1
      · exact hv e (List.mem_cons_of_mem _ h)
    obtain ⟨f, hf⟩ := array_parseLoop_joined fo (dep + 1) (e1' :: es') (by simp) hv' [] false rest
    obtain ⟨y, hy1, hy2⟩ := joinItems_cons e1.bytes (es'.map ArrayItem.bytes) 93 rest
    have hsv : removeWhiteSpaces (joinItems ((e1 :: es').map ArrayItem.bytes) ++ 93 :: rest)
        = joinItems ((e1' :: es').map ArrayItem.bytes) ++ 93 :: rest := by
      rw [List.map_cons, List.map_cons, hy1, hy2, hstrip]
    rw [← hsv] at hf
    refine ⟨f + 2, ?_⟩
    rw [node_parse_array_of_loop fo hd hf]
    simp [hval]

theorem node_parse_object_text {F : Type} (fo : FloatOps F) (dep : Nat) (hd : dep + 1 ≤ 1000)
    (ms : List (ObjectItem F)) (hv : ∀ m ∈ ms, m.Valid fo (dep + 2)) (rest : List Nat) :
    ∃ f, Node.parse fo f (123 :: (joinItems (ms.map ObjectItem.bytes) ++ 125 :: rest)) dep
      = .ok (.Object (insertAll [] ms), rest) := by
  cases ms with
  | nil =>
    refine ⟨3, ?_⟩
    have h : Object.parseLoop fo 1 (removeWhiteSpaces (joinItems (([] : List (ObjectItem F)).map
        ObjectItem.bytes) ++ 125 :: rest)) (dep + 1) [] false = .ok ([], rest) := by
      simp only [List.map_nil, joinItems, List.nil_append]
      rw [removeWhiteSpaces_cons_of_not (c := 125) (by decide), object_parseLoop_close]
    rw [node_parse_object_of_loop fo hd h]
    rfl
  | cons m1 ms' =>
    obtain ⟨m1', hv1, hkey, hval, hstrip⟩ := objectItem_strip (hv m1 (List.mem_cons_self _ _))
    have hv' : ∀ m ∈ m1' :: ms', m.Valid fo (dep + 1 + 1) := by
      intro m hm
      rcases List.mem_cons.mp hm with h | h
      · subst h; exact hv1
      · exact hv m (List.mem_cons_of_mem _ h)
    obtain ⟨f, hf⟩ := object_parseLoop_joined fo (dep + 1) (m1' :: ms') (by simp) hv' [] false
      rest
    obtain ⟨y, hy1, hy2⟩ := joinItems_cons m1.bytes (ms'.map ObjectItem.bytes) 125 rest
    have hsv : removeWhiteSpaces (joinItems ((m1 :: ms').map ObjectItem.bytes) ++ 125 :: rest)
        = joinItems ((m1' :: ms').map ObjectItem.bytes) ++ 125 :: rest := by
      rw [List.map_cons, List.map_cons, hy1, hy2, hstrip]
    rw [← hsv] at hf
    refine ⟨f + 2, ?_⟩
    rw [node_parse_object_of_loop fo hd hf]
    simp [insertAll, hkey, hval]

/-! ## Keep-first insertion -/

theorem contains_eq_false_iff {F : Type} (val : List (List Nat × Value F)) (key : List Nat) :
    ObjectVT.contains val key = false ↔ key ∉ val.map Prod.fst := by
  unfold ObjectVT.contains
  simp only [List.any_eq_false, decide_eq_true_eq, List.mem_map, not_exists, not_and]

theorem insert_nodup {F : Type} (val : List (List Nat × Value F)) (key : List Nat) (v : Value F)
    (h : (val.map Prod.fst).Nodup) : ((ObjectVT.insert val key v).map Prod.fst).Nodup := by
  unfold ObjectVT.insert
  cases hc : ObjectVT.contains val key with
  | true => simpa using h
  | false =>
    have hk := (contains_eq_false_iff val key).mp hc
    simp only [Bool.false_eq_true, if_false, List.map_append, List.map_cons, List.map_nil]
    rw [List.nodup_append]
    refine ⟨h, by simp, ?_⟩
    intro a ha hb
    simp only [List.mem_singleton] at hb
    subst hb
    exact hk ha

theorem insertAll_nodup {F : Type} (ms : List (ObjectItem F)) :
    ∀ (val : List (List Nat × Value F)), (val.map Prod.fst).Nodup →
      ((insertAll val ms).map Prod.fst).Nodup := by
  induction ms with
  | nil => intro val h; exact h
  | cons m ms ih =>
    intro val h
    exact ih _ (insert_nodup val m.key m.value h)

theorem insert_lookup {F : Type} (val : List (List Nat × Value F)) (k : List Nat) (v : Value F)
    (key : List Nat) :
    (ObjectVT.insert val k v).lookup key
      = (val.lookup key).or (if key == k then some v else none) := by
  unfold ObjectVT.insert
  cases hc : ObjectVT.contains val k with
  | true =>
    simp only [if_true]
    by_cases hk : key = k
    · subst hk
      have : (val.lookup key).isSome = true := by
        rw [List.lookup_isSome_iff]
        unfold ObjectVT.contains at hc
        simp only [List.any_eq_true, decide_eq_true_eq] at hc
        obtain ⟨kv, hkv, heq⟩ := hc
        exact ⟨kv, hkv, by simp [heq]⟩
      cases hl : val.lookup key with
      | none => rw [hl] at this; simp at this
      | some x => simp
    · simp [hk]
  | false =>
    simp only [Bool.false_eq_true, if_false]
    rw [List.lookup_append]
    congr 1
    by_cases hk : key = k
    · subst hk; simp
    · have hb : (key == k) = false := by simpa using hk
      simp [List.lookup_cons, hb]

theorem insertAll_lookup {F : Type} (ms : List (ObjectItem F)) :
    ∀ (val : List (List Nat × Value F)) (key : List Nat),
      (insertAll val ms).lookup key
        = (val.lookup key).or ((ms.map fun m => (m.key, m.value)).lookup key) := by
  induction ms with
  | nil => intro val key; simp [insertAll]
  | cons m ms ih =>
    intro val key
    have h := ih (ObjectVT.insert val m.key m.value) key
    have hins : insertAll val (m :: ms) = insertAll (ObjectVT.insert val m.key m.value) ms := rfl
    rw [hins, h, insert_lookup, List.map_cons, List.lookup_cons]
    by_cases hk : key = m.key
    · subst hk
      cases val.lookup m.key <;> simp
    · have hb : (key == m.key) = false := by simpa using hk
      simp only [hb, Bool.false_eq_true, if_false]
      cases val.lookup key <;> simp

end JSON

namespace JSON

/-! ## The text `dump` writes -/

theorem commaEach_eq_joinItems : ∀ (ts : List (List Nat)), ts ≠ [] →
    commaEach ts = joinItems ts ++ [44] := by
  intro ts
  induction ts with
  | nil => intro h; exact absurd rfl h
  | cons a l ih =>
    intro _
    cases l with
    | nil => simp [commaEach, joinItems]
    | cons b l' =>
      have := ih (by simp)
      simp only [commaEach, List.flatMap_cons] at this ⊢
      rw [this]
      simp [joinItems]

theorem dumpElements_eq {F : Type} (fo : FloatOps F) (xs : List (Value F)) :
    Value.dumpElements fo xs = commaEach (xs.map (Value.dump fo)) := by
  induction xs with
  | nil => simp [Value.dumpElements, commaEach]
  | cons x xs ih =>
    rw [Value.dumpElements, ih]
    have hb : bytes "," = [44] := by decide
    simp [commaEach, hb]

theorem dumpEntries_eq {F : Type} (fo : FloatOps F) (kvs : List (List Nat × Value F)) :
    Value.dumpEntries fo kvs
      = commaEach (kvs.map fun kv => String.toJSONString kv.1 ++ 58 :: Value.dump fo kv.2) := by
  induction kvs with
  | nil => simp [Value.dumpEntries, commaEach]
  | cons kv kvs ih =>
    obtain ⟨k, v⟩ := kv
    rw [Value.dumpEntries, ih]
    have hb : bytes "," = [44] := by decide
    have hc : bytes ":" = [58] := by decide
    simp [commaEach, hb, hc]

theorem dropLast_bracket (open_ : Nat) (ts : List (List Nat)) (h : ts ≠ []) :
    ([open_] ++ commaEach ts).dropLast = open_ :: joinItems ts := by
  rw [commaEach_eq_joinItems ts h, ← List.append_assoc, List.dropLast_concat]
  rfl

theorem dump_array {F : Type} (fo : FloatOps F) (xs : List (Value F)) :
    Value.dump fo (.Array xs) = 91 :: (joinItems (xs.map (Value.dump fo)) ++ [93]) := by
  rw [Value.dump, dumpElements_eq]
  have hb : bytes "[" = [91] := by decide
  have hc : bytes "]" = [93] := by decide
  simp only [hb, hc]
  cases xs with
  | nil => simp [commaEach, joinItems]
  | cons x l =>
    simp only [List.isEmpty_cons, Bool.not_false, if_true]
    rw [dropLast_bracket 91 _ (by simp)]
    rfl

theorem dump_object {F : Type} (fo : FloatOps F) (kvs : List (List Nat × Value F)) :
    Value.dump fo (.Object kvs)
      = 123 :: (joinItems (kvs.map fun kv => String.toJSONString kv.1 ++ 58 :: Value.dump fo kv.2)
          ++ [125]) := by
  rw [Value.dump, dumpEntries_eq]
  have hb : bytes "\x7b" = [123] := by decide
  have hc : bytes "\x7d" = [125] := by decide
  simp only [hb, hc]
  cases kvs with
  | nil => simp [commaEach, joinItems]
  | cons x l =>
    simp only [List.isEmpty_cons, Bool.not_false, if_true]
    rw [dropLast_bracket 123 _ (by simp)]
    rfl

theorem insertAll_of_nodup {F : Type} (ms : List (ObjectItem F)) :
    ∀ (val : List (List Nat × Value F)),
      (val.map Prod.fst ++ ms.map (fun m => m.key)).Nodup →
      insertAll val ms = val ++ ms.map fun m => (m.key, m.value) := by
  induction ms with
  | nil => intro val _; simp [insertAll]
  | cons m ms ih =>
    intro val h
    have hins : insertAll val (m :: ms) = insertAll (ObjectVT.insert val m.key m.value) ms := rfl
    have hnot : m.key ∉ val.map Prod.fst := by
      intro hmem
      rw [List.nodup_append] at h
      exact h.2.2 hmem (by simp)
    have hc := (contains_eq_false_iff val m.key).mpr hnot
    have hi : ObjectVT.insert val m.key m.value = val ++ [(m.key, m.value)] := by
      unfold ObjectVT.insert
      rw [hc]
      rfl
    rw [hins, hi, ih]
    · simp
    · have : (val ++ [(m.key, m.value)]).map Prod.fst ++ ms.map (fun m => m.key)
          = val.map Prod.fst ++ (m :: ms).map (fun m => m.key) := by simp
      rw [this]
      exact h

end JSON

namespace JSON

/-! ## The round trip of a tree -/

theorem number_dump_valueText {F : Type} (fo : FloatOps F) (n : Number F)
    (h : Number.Reparsable fo n) (dep : Nat) (hd : dep ≤ 1000) :
    ∃ n', ValueText fo dep (Number.dump fo n) (.Number n') ∧ Number.Equal n n' := by
  rcases h with ⟨h1, h2, h3⟩ | ⟨h1, h2, h3, h4⟩
  · refine ⟨⟨n.value_int, fo.ofInt64 n.value_int, false, to_string n.value_int⟩, ?_, ?_⟩
    · have hdump : Number.dump fo n = to_string n.value_int := by
        unfold Number.dump
        simp [h1, h2]
      rw [hdump]
      exact valueText_int fo n.value_int h3 hd
    · unfold Number.Equal
      simp [h2]
  · refine ⟨n, ?_, ?_⟩
    · have hdump : Number.dump fo n = n.str_raw := by
        unfold Number.dump
        cases hs : n.str_raw with
        | nil => exact absurd hs h1
        | cons c t => simp
      rw [hdump]
      intro rest hrest
      exact ⟨1, node_parse_number_text fo 0 hd h2 h3 h4 rest hrest⟩
    · unfold Number.Equal
      simp

mutual

theorem dump_valueText {F : Type} (fo : FloatOps F) : ∀ (v : Value F), Value.Reparsable fo v →
    ∀ dep, dep + 2 * v.nesting ≤ 1000 →
      ∃ v', ValueText fo dep (Value.dump fo v) v' ∧ Value.Equal v v'
  | .Null, _, dep, hd => by
    refine ⟨.Null, ?_, .null⟩
    intro rest _
    rw [Value.dump]
    exact ⟨1, node_parse_null_text fo 0 (by omega) rest⟩
  | .Boolean b, _, dep, hd => by
    refine ⟨.Boolean b, ?_, .boolean b⟩
    intro rest _
    rw [Value.dump]
    cases b with
    | true => exact ⟨1, node_parse_true_text fo 0 (by omega) rest⟩
    | false => exact ⟨1, node_parse_false_text fo 0 (by omega) rest⟩
  | .Number n, h, dep, hd => by
    rw [Value.Reparsable] at h
    obtain ⟨n', h1, h2⟩ := number_dump_valueText fo n h dep (by omega)
    refine ⟨.Number n', ?_, .number n n' h2⟩
    rw [Value.dump]
    exact h1
  | .String s, h, dep, hd => by
    rw [Value.Reparsable] at h
    refine ⟨.String s, ?_, .string s⟩
    rw [Value.dump, toJSONString_eq]
    exact valueText_literal fo (by omega) (decodes_escapeOf s h)
  | .Array xs, h, dep, hd => by
    rw [Value.Reparsable] at h
    rw [Value.nesting] at hd
    obtain ⟨es, h1, h2, h3⟩ := dump_elements fo xs h (dep + 2) (by omega)
    refine ⟨.Array (es.map fun e => e.value), ?_, .array _ _ h3⟩
    intro rest _
    obtain ⟨f, hf⟩ := node_parse_array_text fo dep (by omega) es h2 rest
    refine ⟨f, ?_⟩
    rw [dump_array, ← h1]
    simpa using hf
  | .Object kvs, h, dep, hd => by
    rw [Value.Reparsable] at h
    rw [Value.nesting] at hd
    obtain ⟨hnd, hent⟩ := h
    obtain ⟨ms, h1, h2, h3, h4⟩ := dump_entries fo kvs hent (dep + 2) (by omega)
    have hins : insertAll [] ms = ms.map fun m => (m.key, m.value) := by
      have := insertAll_of_nodup ms [] (by simpa [h3] using hnd)
      simpa using this
    refine ⟨.Object (ms.map fun m => (m.key, m.value)), ?_,
      .object kvs _ _ (List.Perm.refl _) (by simp [← h3, Function.comp_def])
        (by simpa [Function.comp_def] using h4)⟩
    intro rest _
    obtain ⟨f, hf⟩ := node_parse_object_text fo dep (by omega) ms h2 rest
    refine ⟨f, ?_⟩
    rw [dump_object, ← h1, ← hins]
    simpa using hf

theorem dump_elements {F : Type} (fo : FloatOps F) : ∀ (xs : List (Value F)),
    Value.ReparsableElements fo xs → ∀ d, d + 2 * Value.nestingElements xs ≤ 1000 →
      ∃ es : List (ArrayItem F), es.map ArrayItem.bytes = xs.map (Value.dump fo) ∧
        (∀ e ∈ es, e.Valid fo d) ∧ List.Forall₂ Value.Equal xs (es.map fun e => e.value)
  | [], _, _, _ => ⟨[], rfl, by simp, .nil⟩
  | x :: xs, h, d, hd => by
    rw [Value.ReparsableElements] at h
    rw [Value.nestingElements] at hd
    obtain ⟨v', hvt, heq⟩ := dump_valueText fo x h.1 d (by omega)
    obtain ⟨es, h1, h2, h3⟩ := dump_elements fo xs h.2 d (by omega)
    refine ⟨⟨Value.dump fo x, v', []⟩ :: es, ?_, ?_, ?_⟩
    · simp [ArrayItem.bytes, h1]
    · intro e he
      rcases List.mem_cons.mp he with he | he
      · subst he
        exact ⟨hvt, by simp⟩
      · exact h2 e he
    · exact .cons heq h3

theorem dump_entries {F : Type} (fo : FloatOps F) : ∀ (kvs : List (List Nat × Value F)),
    Value.ReparsableEntries fo kvs → ∀ d, d + 2 * Value.nestingEntries kvs ≤ 1000 →
      ∃ ms : List (ObjectItem F),
        ms.map ObjectItem.bytes
          = kvs.map (fun kv => String.toJSONString kv.1 ++ 58 :: Value.dump fo kv.2) ∧
        (∀ m ∈ ms, m.Valid fo d) ∧ ms.map (fun m => m.key) = kvs.map Prod.fst ∧
        List.Forall₂ Value.Equal (kvs.map Prod.snd) (ms.map fun m => m.value)
  | [], _, _, _ => ⟨[], rfl, by simp, rfl, .nil⟩
  | (k, x) :: kvs, h, d, hd => by
    rw [Value.ReparsableEntries] at h
    rw [Value.nestingEntries] at hd
    obtain ⟨hk, hx, hkvs⟩ := h
    obtain ⟨v', hvt, heq⟩ := dump_valueText fo x hx d (by omega)
    obtain ⟨ms, h1, h2, h3, h4⟩ := dump_entries fo kvs hkvs d (by omega)
    refine ⟨⟨String.toJSONString k, k, [], Value.dump fo x, v', []⟩ :: ms, ?_, ?_, ?_, ?_⟩
    · simp [ObjectItem.bytes, h1]
    · intro m hm
      rcases List.mem_cons.mp hm with hm | hm
      · subst hm
        exact ⟨keyText_toJSONString hk, hvt, by simp, by simp⟩
      · exact h2 m hm
    · simp [h3]
    · exact .cons heq h4

end

end JSON

namespace JSON

end JSON

namespace JSON

/-! ## Lemmas for the serialization of arrays -/

theorem joinItems_eq_intercalate (ts : List (List Nat)) :
    joinItems ts = List.intercalate [44] ts := by
  induction ts with
  | nil => rfl
  | cons a l ih =>
    cases l with
    | nil => simp [joinItems, List.intercalate]
    | cons b l =>
      rw [joinItems, ih]
      simp [List.intercalate, List.intersperse]

theorem pushArray_eq {F : Type} (args : List (Value F)) :
    ∀ arr : List (Value F), Array.pushArray_ arr args = arr ++ args := by
  induction args with
  | nil => intro arr; simp [Array.pushArray_]
  | cons t args ih => intro arr; simp [Array.pushArray_, ih]

end JSON

namespace JSON

/-! ## What follows a value, and the retry of `Number::parse` -/

theorem drop_takeWhile_length (p : Nat → Bool) (l : List Nat) :
    l.drop (l.takeWhile p).length = l.dropWhile p := by
  induction l with
  | nil => rfl
  | cons a t ih =>
    by_cases ha : p a = true
    · simp [List.takeWhile_cons, List.dropWhile_cons, ha, ih]
    · simp [List.takeWhile_cons, List.dropWhile_cons, ha]

theorem hasFloatPrefix_cons_space {c : Nat} (h : isspace c = true) (x : List Nat) :
    hasFloatPrefix (c :: x) = hasFloatPrefix x := by
  unfold hasFloatPrefix
  simp [List.dropWhile, h]

theorem isWhiteSpace_isspace {c : Nat} (h : isWhiteSpace c = true) : isspace c = true := by
  unfold isWhiteSpace at h
  unfold isspace
  simp only [Bool.or_eq_true, decide_eq_true_eq, Bool.and_eq_true] at h ⊢
  omega

theorem hasFloatPrefix_cons_delim {c : Nat} (h : isDelim c = true) (x : List Nat) :
    hasFloatPrefix (c :: x) = false := by
  unfold isDelim at h
  simp only [Bool.or_eq_true, decide_eq_true_eq] at h
  have hi : bytes "inf" = [105, 110, 102] := by decide
  have hn : bytes "nan" = [110, 97, 110] := by decide
  rcases h with ((h | h) | h) | h <;> subst h <;>
    simp [hasFloatPrefix, List.dropWhile, isspace, takeSign, isdigit, tolower, hi, hn]

theorem removeWhiteSpaces_cons_of_space {c : Nat} (h : isWhiteSpace c = true) (x : List Nat) :
    removeWhiteSpaces (c :: x) = removeWhiteSpaces x := by
  simp [removeWhiteSpaces, List.dropWhile, h]

/-- The text that the retry of `Number::parse` reads is no number when the number is
followed as in a document that is parsed. -/
theorem hasFloatPrefix_delimited : ∀ (r : List Nat) (n : Nat), Delimited r →
    hasFloatPrefix (r.take n) = false := by
  intro r
  induction r with
  | nil => intro n _; simp [hasFloatPrefix, takeSign]
  | cons c r ih =>
    intro n hd
    cases n with
    | zero => simp [hasFloatPrefix, takeSign]
    | succ k =>
      rw [List.take_succ_cons]
      by_cases hc : isWhiteSpace c = true
      · rw [hasFloatPrefix_cons_space (isWhiteSpace_isspace hc)]
        apply ih
        unfold Delimited at hd ⊢
        rwa [removeWhiteSpaces_cons_of_space hc] at hd
      · have hc' : isWhiteSpace c = false := by simpa using hc
        unfold Delimited at hd
        rw [removeWhiteSpaces_cons_of_not hc', front_cons] at hd
        exact hasFloatPrefix_cons_delim hd _

theorem delimited_front_not_number {r : List Nat} (h : Delimited r) :
    isNumberChar (front r) = false := by
  cases r with
  | nil => decide
  | cons c r =>
    rw [front_cons]
    by_cases hc : isWhiteSpace c = true
    · unfold isWhiteSpace at hc
      unfold isNumberChar isdigit
      simp only [Bool.or_eq_true, decide_eq_true_eq] at hc
      simp only [Bool.or_eq_false_iff, decide_eq_false_iff_not, Bool.and_eq_false_iff,
        decide_eq_false_iff_not]
      omega
    · have hc' : isWhiteSpace c = false := by simpa using hc
      unfold Delimited at h
      rw [removeWhiteSpaces_cons_of_not hc', front_cons] at h
      unfold isDelim at h
      unfold isNumberChar isdigit
      simp only [Bool.or_eq_true, decide_eq_true_eq] at h
      simp only [Bool.or_eq_false_iff, decide_eq_false_iff_not, Bool.and_eq_false_iff,
        decide_eq_false_iff_not]
      omega

theorem delimited_of_spaces {r : List Nat} (h : removeWhiteSpaces r = []) : Delimited r := by
  unfold Delimited
  rw [h]
  decide

theorem ofText_fields {F : Type} (fo : FloatOps F) {s : List Nat} {b : Bool} {n : Number F}
    (h : Number.ofText fo s b = some n) : n.str_raw = s ∧ n.is_double = b := by
  unfold Number.ofText at h
  split at h
  · split at h
    · simp only [Option.some.injEq] at h
      subst h
      exact ⟨rfl, rfl⟩
    · simp at h
  · split at h
    · simp only [Option.some.injEq] at h
      subst h
      exact ⟨rfl, rfl⟩
    · simp at h

theorem ofText_double_prefix {F : Type} (fo : FloatOps F) {s : List Nat} {n : Number F}
    (h : Number.ofText fo s true = some n) : hasFloatPrefix s = true := by
  unfold Number.ofText stod at h
  by_contra hp
  simp [hp] at h

theorem ofText_ne_nil {F : Type} (fo : FloatOps F) {s : List Nat} {b : Bool} {n : Number F}
    (h : Number.ofText fo s b = some n) : s ≠ [] := by
  intro hs
  subst hs
  cases b <;> simp [Number.ofText, stod, stoll, hasFloatPrefix, takeSign] at h

/-- A call of `Number::parse` that returns, in front of what can follow a value: the
view without leading white space is the run of number characters, from which the
Number is made, then the rest. -/
theorem number_parse_inv {F : Type} (fo : FloatOps F) {sv : List Nat} {n : Number F}
    {r : List Nat} (h : Number.parse fo sv = .ok (n, r)) (hd : Delimited r) :
    ∃ s, removeWhiteSpaces sv = s ++ r ∧ (∀ c ∈ s, isNumberChar c = true) ∧
      Number.ofText fo s (s.contains 46) = some n := by
  have hr := number_parse_rest fo h
  simp only at hr
  have hsplit := List.takeWhile_append_dropWhile isNumberChar (removeWhiteSpaces sv)
  have hdrop : (removeWhiteSpaces sv).drop ((removeWhiteSpaces sv).takeWhile isNumberChar).length
      = (removeWhiteSpaces sv).dropWhile isNumberChar := by
    exact drop_takeWhile_length isNumberChar _
  rw [hdrop] at hr
  refine ⟨(removeWhiteSpaces sv).takeWhile isNumberChar, ?_, ?_, ?_⟩
  · rw [hr, hsplit]
  · intro c hc
    exact (List.mem_takeWhile_imp hc)
  · unfold Number.parse at h
    simp only at h
    have hmin : min ((removeWhiteSpaces sv).takeWhile isNumberChar).length
        (removeWhiteSpaces sv).length
        = ((removeWhiteSpaces sv).takeWhile isNumberChar).length :=
      Nat.min_eq_left (List.takeWhile_sublist _).length_le
    rw [hmin, hdrop, ← hr] at h
    split at h
    · rename_i x hx
      simp only [Outcome.ok.injEq, Prod.mk.injEq] at h
      rw [hx, h.1]
    · split at h
      · split at h
        · rename_i x hx
          have := ofText_double_prefix fo hx
          rw [hasFloatPrefix_delimited r _ hd] at this
          simp at this
        · simp at h
      · simp at h

end JSON

namespace JSON

/-! ## A call of `String::parse` that returns has read a literal -/

theorem take_takeWhile_length (p : Nat → Bool) (l : List Nat) :
    l.take (l.takeWhile p).length = l.takeWhile p := by
  induction l with
  | nil => rfl
  | cons a t ih =>
    by_cases ha : p a = true
    · simp [List.takeWhile_cons, ha, ih]
    · simp [List.takeWhile_cons, ha]

theorem dropWhile_cons_not {p : Nat → Bool} {l : List Nat} {c : Nat} {t : List Nat}
    (h : l.dropWhile p = c :: t) : p c = false := by
  induction l with
  | nil => simp at h
  | cons a l ih =>
    by_cases ha : p a = true
    · rw [List.dropWhile_cons, if_pos ha] at h
      exact ih h
    · rw [List.dropWhile_cons, if_neg ha] at h
      simp only [List.cons.injEq] at h
      rw [← h.1]
      simpa using ha

theorem decodes_run : ∀ (run : List Nat), (∀ c ∈ run, c ≠ 92 ∧ c ≠ 34) →
    firstControl run = none → ∀ {t d : List Nat}, Decodes t d →
      Decodes (run ++ t) (run ++ d) := by
  intro run
  induction run with
  | nil => intro _ _ t d h; exact h
  | cons c run ih =>
    intro h1 h2 t d h
    have hc := h1 c (List.mem_cons_self _ _)
    unfold firstControl at h2
    rw [List.find?_cons] at h2
    split at h2
    · simp at h2
    · rename_i hcc
      simp only [Bool.or_eq_false_iff, decide_eq_false_iff_not] at hcc
      exact Decodes.char c _ _ hc.2 hc.1 hcc.1.2 hcc.2 hcc.1.1
        (ih (fun x hx => h1 x (List.mem_cons_of_mem _ hx)) h2 h)

theorem string_parseLoop_inv : ∀ (fuel : Nat) (sv res s r : List Nat),
    String.parseLoop fuel sv res = .ok (s, r) →
      ∃ t d, sv = t ++ 34 :: r ∧ Decodes t d ∧ s = res ++ d := by
  intro fuel
  induction fuel with
  | zero => intro sv res s r h; simp [String.parseLoop] at h
  | succ fuel ih =>
    intro sv res s r h
    rw [String.parseLoop] at h
    simp only [find_if, take_takeWhile_length, drop_takeWhile_length] at h
    have hsplit := List.takeWhile_append_dropWhile
      (fun c => !(decide (c = 92) || decide (c = 34))) sv
    have hrun : ∀ c ∈ sv.takeWhile (fun c => !(decide (c = 92) || decide (c = 34))),
        c ≠ 92 ∧ c ≠ 34 := by
      intro c hc
      have := List.mem_takeWhile_imp hc
      simpa using this
    have hhead : ∀ c t, sv.dropWhile (fun c => !(decide (c = 92) || decide (c = 34))) = c :: t →
        c = 92 ∨ c = 34 := by
      intro c t hct
      have := dropWhile_cons_not hct
      simp only [Bool.not_eq_false_eq_eq_true, Bool.or_eq_true, decide_eq_true_eq,
        Bool.not_eq_eq_eq_not, Bool.not_false] at this
      exact this
    generalize sv.takeWhile (fun c => !(decide (c = 92) || decide (c = 34))) = run at h hsplit hrun
    generalize sv.dropWhile (fun c => !(decide (c = 92) || decide (c = 34))) = rest
      at h hsplit hhead
    cases hfc : firstControl run with
    | some c =>
      rw [hfc] at h
      simp only at h
      split at h <;> simp at h
    | none =>
      rw [hfc] at h
      simp only at h
      cases rest with
      | nil => simp at h
      | cons c0 rest1 =>
        simp only [List.isEmpty_cons, Bool.false_eq_true, if_false, front_cons,
          List.drop_succ_cons, List.drop_zero] at h
        by_cases h34 : c0 = 34
        · subst h34
          simp only [if_true, Outcome.ok.injEq, Prod.mk.injEq] at h
          refine ⟨run, run, ?_, ?_, h.1.symm⟩
          · rw [← hsplit, h.2]
          · have := decodes_run run hrun hfc Decodes.nil
            simpa using this
        · have h92 : c0 = 92 := by
            rcases hhead c0 rest1 rfl with h' | h'
            · exact h'
            · exact absurd h' h34
          subst h92
          rw [if_neg h34] at h
          cases rest1 with
          | nil => simp [front, escapeChar] at h
          | cons c rest2 =>
            simp only [front_cons, List.drop_succ_cons, List.drop_zero] at h
            cases hesc : escapeChar c with
            | some b =>
              rw [hesc] at h
              simp only at h
              obtain ⟨t, d, ht, hd, hs⟩ := ih _ _ _ _ h
              refine ⟨run ++ 92 :: c :: t, run ++ b :: d, ?_, ?_, ?_⟩
              · rw [← hsplit, ht]
                simp
              · exact decodes_run run hrun hfc (Decodes.escape c b t d hesc hd)
              · rw [hs]
                simp
            | none =>
              rw [hesc] at h
              simp only at h
              by_cases h117 : c = 117
              · subst h117
                simp only [if_true] at h
                by_cases hlen : rest2.length < 4
                · simp [hlen] at h
                · rw [if_neg hlen] at h
                  obtain ⟨h1, h2, h3, h4, rest3, rfl⟩ :
                      ∃ h1 h2 h3 h4 rest3, rest2 = h1 :: h2 :: h3 :: h4 :: rest3 := by
                    match rest2, hlen with
                    | h1 :: h2 :: h3 :: h4 :: rest3, _ => exact ⟨h1, h2, h3, h4, rest3, rfl⟩
                    | [], hl => simp at hl
                    | [_], hl => simp at hl
                    | [_, _], hl => simp at hl
                    | [_, _, _], hl => simp at hl
                  simp only [List.take_succ_cons, List.take_zero, List.drop_succ_cons,
                    List.drop_zero] at h
                  by_cases hx : ([h1, h2, h3, h4].all isHex) = true
                  · rw [if_pos hx] at h
                    simp only [List.all_cons, List.all_nil, Bool.and_true,
                      Bool.and_eq_true] at hx
                    obtain ⟨x1, x2, x3, x4⟩ := hx
                    rw [pushHexToUtf8_eq _ (hexValue_four_lt x1 x2 x3 x4)] at h
                    obtain ⟨t, d, ht, hd, hs⟩ := ih _ _ _ _ h
                    refine ⟨run ++ 92 :: 117 :: h1 :: h2 :: h3 :: h4 :: t,
                      run ++ (utf8BitLayout (hexValue [h1, h2, h3, h4]) ++ d), ?_, ?_, ?_⟩
                    · rw [← hsplit, ht]
                      simp
                    · exact decodes_run run hrun hfc
                        (Decodes.unicode h1 h2 h3 h4 t d x1 x2 x3 x4 hd)
                    · rw [hs]
                      simp
                  · rw [if_neg hx] at h
                    simp at h
              · rw [if_neg h117] at h
                simp at h

/-- The view of a call of `String::parse` that returns is, after its leading white
space, a literal: a quote, content that decodes to the result, the closing quote. -/
theorem string_parse_inv {sv s r : List Nat} (h : String.parse sv = .ok (s, r)) :
    ∃ t, removeWhiteSpaces sv = 34 :: (t ++ 34 :: r) ∧ Decodes t s := by
  unfold String.parse at h
  simp only at h
  split at h
  · simp at h
  · rename_i hf
    simp only [ne_eq, not_not] at hf
    cases hsv : removeWhiteSpaces sv with
    | nil => rw [hsv] at hf; simp [front] at hf
    | cons c sv1 =>
      rw [hsv] at hf h
      simp only [front_cons] at hf
      subst hf
      simp only [List.drop_succ_cons, List.drop_zero] at h
      obtain ⟨t, d, ht, hd, hs⟩ := string_parseLoop_inv _ _ _ _ _ h
      simp only [List.nil_append] at hs
      subst hs
      exact ⟨t, by rw [ht], hd⟩

end JSON

namespace JSON

/-! ## A call of `Node::parse` that returns has read a text of its value -/

theorem removeWhiteSpaces_decomp (sv : List Nat) :
    ∃ w, (∀ c ∈ w, isWhiteSpace c = true) ∧ sv = w ++ removeWhiteSpaces sv :=
  ⟨sv.takeWhile isWhiteSpace, fun _ hc => List.mem_takeWhile_imp hc,
    (List.takeWhile_append_dropWhile isWhiteSpace sv).symm⟩

theorem removeWhiteSpaces_spaces_append {w : List Nat}
    (hw : ∀ c ∈ w, isWhiteSpace c = true) (x : List Nat) :
    removeWhiteSpaces (w ++ x) = removeWhiteSpaces x := by
  induction w with
  | nil => rfl
  | cons b t ih =>
    rw [List.cons_append, removeWhiteSpaces_cons_of_space (hw b (List.mem_cons_self _ _))]
    exact ih (fun c hc => hw c (List.mem_cons_of_mem _ hc))

theorem nonSpaceEnd_ne_nil {p : List Nat} (h : NonSpaceEnd p) : p ≠ [] := by
  obtain ⟨q, c, rfl, _⟩ := h
  simp

theorem nonSpaceEnd_append (w : List Nat) {p : List Nat} (h : NonSpaceEnd p) :
    NonSpaceEnd (w ++ p) := by
  obtain ⟨q, c, rfl, hc⟩ := h
  exact ⟨w ++ q, c, by simp, hc⟩

theorem front_append_of_ne_nil {p : List Nat} (h : p ≠ []) (x : List Nat) :
    front (p ++ x) = front p := by
  cases p with
  | nil => exact absurd rfl h
  | cons a t => rfl

theorem removeWhiteSpaces_prefix_keep {x p r : List Nat} (h : removeWhiteSpaces x = p ++ r)
    (hp : p ≠ []) (r2 : List Nat) : removeWhiteSpaces (p ++ r2) = p ++ r2 := by
  apply front_removeWhiteSpaces_of_not
  rw [front_append_of_ne_nil hp, ← front_append_of_ne_nil hp r, ← h]
  exact removeWhiteSpaces_front_not x

theorem valueText_spaces {F : Type} {fo : FloatOps F} {dep : Nat} {w p : List Nat}
    {v : Value F} (hw : ∀ c ∈ w, isWhiteSpace c = true) (h : ValueText fo dep p v) :
    ValueText fo dep (w ++ p) v := by
  intro rest hrest
  obtain ⟨f, hf⟩ := h rest hrest
  refine ⟨f, ?_⟩
  rw [← node_parse_strip, List.append_assoc, removeWhiteSpaces_spaces_append hw,
    node_parse_strip]
  exact hf

theorem numberChar_not_space {c : Nat} (h : isNumberChar c = true) :
    isWhiteSpace c = false := by
  unfold isNumberChar isdigit at h
  unfold isWhiteSpace
  simp only [Bool.or_eq_true, decide_eq_true_eq, Bool.and_eq_true] at h
  simp only [Bool.or_eq_false_iff, decide_eq_false_iff_not]
  omega

theorem null_parse_inv {sv r : List Nat} {u : Unit} (h : Null.parse sv = .ok (u, r)) :
    removeWhiteSpaces sv = bytes "null" ++ r := by
  unfold Null.parse at h
  simp only at h
  split at h
  · rename_i hs
    simp only [Outcome.ok.injEq, Prod.mk.injEq] at h
    unfold starts_with at hs
    simp only [decide_eq_true_eq] at hs
    rw [show (bytes "null").length = 4 by decide] at hs
    rw [← h.2, ← hs, List.take_append_drop]
  · simp at h

theorem boolean_parse_inv {sv r : List Nat} {b : Bool} (h : Boolean.parse sv = .ok (b, r)) :
    removeWhiteSpaces sv = (if b then bytes "true" else bytes "false") ++ r := by
  unfold Boolean.parse at h
  simp only at h
  split at h
  · rename_i hs
    simp only [Outcome.ok.injEq, Prod.mk.injEq] at h
    unfold starts_with at hs
    simp only [decide_eq_true_eq] at hs
    rw [show (bytes "true").length = 4 by decide] at hs
    rw [← h.2, ← h.1, if_pos rfl, ← hs, List.take_append_drop]
  · split at h
    · rename_i hs
      simp only [Outcome.ok.injEq, Prod.mk.injEq] at h
      unfold starts_with at hs
      simp only [decide_eq_true_eq] at hs
      rw [show (bytes "false").length = 5 by decide] at hs
      rw [← h.2, ← h.1]
      simp only [Bool.false_eq_true, if_false]
      rw [← hs, List.take_append_drop]
    · simp at h

theorem node_reads_step {F : Type} (fo : FloatOps F) (fuel : Nat)
    (hA : ArrayReadsText fo fuel) (hO : ObjectReadsText fo fuel) :
    NodeReadsText fo (fuel + 1) := by
  intro sv dep v r h hdel
  obtain ⟨hd, c, t, hsv, hc⟩ := node_parse_ok_start fo h
  obtain ⟨w, hw, hdec⟩ := removeWhiteSpaces_decomp sv
  have hcws := (isWhiteSpace_of_start hc).1
  rw [← node_parse_strip, hsv] at h
  suffices hs : ∃ p, c :: t = p ++ r ∧ NonSpaceEnd p ∧ ValueText fo dep p v by
    obtain ⟨p, hp, hn, hv⟩ := hs
    refine ⟨w ++ p, ?_, nonSpaceEnd_append w hn, valueText_spaces hw hv⟩
    rw [List.append_assoc, ← hp, ← hsv]
    exact hdec
  have hstrip : removeWhiteSpaces (c :: t) = c :: t := removeWhiteSpaces_cons_of_not hcws
  rw [Node.parse, assert_depth_le hd] at h
  simp only [hstrip, front_cons] at h
  split_ifs at h with c1 c2 c3 c4 c5 c6
  · obtain ⟨⟨u, ra⟩, ha, hb⟩ := Outcome.bind_eq_ok h
    simp only [Outcome.ok.injEq, Prod.mk.injEq] at hb
    obtain ⟨rfl, rfl⟩ := hb
    have hi := null_parse_inv ha
    rw [hstrip] at hi
    exact ⟨bytes "null", hi, ⟨[110, 117, 108], 108, by decide, by decide⟩,
      fun rest _ => ⟨1, node_parse_null_text fo 0 hd rest⟩⟩
  · obtain ⟨⟨b, ra⟩, ha, hb⟩ := Outcome.bind_eq_ok h
    simp only [Outcome.ok.injEq, Prod.mk.injEq] at hb
    obtain ⟨rfl, rfl⟩ := hb
    have hi := boolean_parse_inv ha
    rw [hstrip] at hi
    cases b with
    | true =>
      exact ⟨bytes "true", hi, ⟨[116, 114, 117], 101, by decide, by decide⟩,
        fun rest _ => ⟨1, node_parse_true_text fo 0 hd rest⟩⟩
    | false =>
      exact ⟨bytes "false", hi, ⟨[102, 97, 108, 115], 101, by decide, by decide⟩,
        fun rest _ => ⟨1, node_parse_false_text fo 0 hd rest⟩⟩
  · obtain ⟨⟨kvs, ra⟩, ha, hb⟩ := Outcome.bind_eq_ok h
    simp only [Outcome.ok.injEq, Prod.mk.injEq] at hb
    obtain ⟨rfl, rfl⟩ := hb
    obtain ⟨p, hp, hn, hctx⟩ := hO _ _ _ _ ha
    refine ⟨p, hp, hn, ?_⟩
    intro rest _
    obtain ⟨f, hf⟩ := hctx rest
    cases p with
    | nil => exact absurd rfl (nonSpaceEnd_ne_nil hn)
    | cons a p1 =>
      simp only [List.cons_append, List.cons.injEq] at hp
      obtain ⟨rfl, _⟩ := hp
      subst c3
      refine ⟨f + 1, ?_⟩
      rw [List.cons_append, node_parse_open_brace fo f _ dep hd, ← List.cons_append, hf]
      rfl
  · obtain ⟨⟨xs, ra⟩, ha, hb⟩ := Outcome.bind_eq_ok h
    simp only [Outcome.ok.injEq, Prod.mk.injEq] at hb
    obtain ⟨rfl, rfl⟩ := hb
    obtain ⟨p, hp, hn, hctx⟩ := hA _ _ _ _ ha
    refine ⟨p, hp, hn, ?_⟩
    intro rest _
    obtain ⟨f, hf⟩ := hctx rest
    cases p with
    | nil => exact absurd rfl (nonSpaceEnd_ne_nil hn)
    | cons a p1 =>
      simp only [List.cons_append, List.cons.injEq] at hp
      obtain ⟨rfl, _⟩ := hp
      subst c4
      refine ⟨f + 1, ?_⟩
      rw [List.cons_append, node_parse_open_bracket fo f _ dep hd, ← List.cons_append, hf]
      rfl
  · obtain ⟨⟨s, ra⟩, ha, hb⟩ := Outcome.bind_eq_ok h
    simp only [Outcome.ok.injEq, Prod.mk.injEq] at hb
    obtain ⟨rfl, rfl⟩ := hb
    obtain ⟨tt, hi, hdc⟩ := string_parse_inv ha
    rw [hstrip] at hi
    refine ⟨34 :: (tt ++ [34]), by rw [hi]; simp, ⟨34 :: tt, 34, by simp, by decide⟩,
      valueText_literal fo hd hdc⟩
  · obtain ⟨⟨n, ra⟩, ha, hb⟩ := Outcome.bind_eq_ok h
    simp only [Outcome.ok.injEq, Prod.mk.injEq] at hb
    obtain ⟨rfl, rfl⟩ := hb
    obtain ⟨s, hi, hs, hn⟩ := number_parse_inv fo ha hdel
    rw [hstrip] at hi
    have hne := ofText_ne_nil fo hn
    have hfront : front s = 45 ∨ isdigit (front s) = true := by
      have : front s = c := by
        rw [← front_append_of_ne_nil hne ra, ← hi, front_cons]
      rw [this]
      exact c6
    refine ⟨s, hi, ⟨s.dropLast, s.getLast hne, (List.dropLast_append_getLast hne).symm,
      numberChar_not_space (hs _ (List.getLast_mem hne))⟩, ?_⟩
    intro rest hrest
    exact ⟨1, node_parse_number_text fo 0 hd hfront hs hn rest hrest⟩

end JSON

namespace JSON

/-! ## The containers -/

theorem removeWhiteSpaces_eq_cons_decomp {r : List Nat} {c : Nat} {u : List Nat}
    (h : removeWhiteSpaces r = c :: u) :
    ∃ w, (∀ b ∈ w, isWhiteSpace b = true) ∧ r = w ++ c :: u := by
  obtain ⟨w, hw, hdec⟩ := removeWhiteSpaces_decomp r
  rw [h] at hdec
  exact ⟨w, hw, hdec⟩

theorem front_eq_cons {sv : List Nat} {c : Nat} (h : front sv = c) (hc : c ≠ 0) :
    ∃ t, sv = c :: t := by
  cases sv with
  | nil => exact absurd h.symm hc
  | cons a t =>
    simp only [front_cons] at h
    exact ⟨t, by rw [h]⟩

theorem array_reads_step {F : Type} (fo : FloatOps F) (fuel : Nat)
    (hL : ArrayLoopReadsText fo fuel) : ArrayReadsText fo (fuel + 1) := by
  intro sv dep xs r h
  rw [Array.parse] at h
  by_cases hd : dep ≤ 1000
  swap
  · rw [assert_depth_gt (by omega)] at h
    simp at h
  rw [assert_depth_le hd] at h
  simp only at h
  split_ifs at h with hf
  have hf' : front (removeWhiteSpaces sv) = 91 := by simpa using hf
  obtain ⟨sv2, hsv⟩ := front_eq_cons hf' (by decide)
  obtain ⟨w, hw, hdec⟩ := removeWhiteSpaces_eq_cons_decomp hsv
  rw [hsv] at h
  simp only [List.drop_succ_cons, List.drop_zero] at h
  obtain ⟨p2, hp2, hn2, hctx⟩ := hL _ _ _ _ _ _ h
  obtain ⟨w2, hw2, hdec2⟩ := removeWhiteSpaces_decomp sv2
  rw [hp2] at hdec2
  refine ⟨w ++ 91 :: (w2 ++ p2), ?_, ?_, ?_⟩
  · rw [hdec, hdec2]
    simp
  · have := nonSpaceEnd_append (w ++ 91 :: w2) hn2
    simpa using this
  · intro r2
    obtain ⟨f, hf2⟩ := hctx r2
    refine ⟨f + 1, ?_⟩
    have e : (w ++ 91 :: (w2 ++ p2)) ++ r2 = w ++ 91 :: (w2 ++ (p2 ++ r2)) := by simp
    rw [e, Array.parse, assert_depth_le hd]
    simp only [removeWhiteSpaces_append_of_not hw (c := 91) (by decide), front_cons, ne_eq,
      not_true_eq_false, if_false, List.drop_succ_cons, List.drop_zero]
    rw [removeWhiteSpaces_spaces_append hw2,
      removeWhiteSpaces_prefix_keep hp2 (nonSpaceEnd_ne_nil hn2)]
    exact hf2

theorem object_reads_step {F : Type} (fo : FloatOps F) (fuel : Nat)
    (hL : ObjectLoopReadsText fo fuel) : ObjectReadsText fo (fuel + 1) := by
  intro sv dep xs r h
  rw [Object.parse] at h
  by_cases hd : dep ≤ 1000
  swap
  · rw [assert_depth_gt (by omega)] at h
    simp at h
  rw [assert_depth_le hd] at h
  simp only at h
  split_ifs at h with hf
  have hf' : front (removeWhiteSpaces sv) = 123 := by simpa using hf
  obtain ⟨sv2, hsv⟩ := front_eq_cons hf' (by decide)
  obtain ⟨w, hw, hdec⟩ := removeWhiteSpaces_eq_cons_decomp hsv
  rw [hsv] at h
  simp only [List.drop_succ_cons, List.drop_zero] at h
  obtain ⟨p2, hp2, hn2, hctx⟩ := hL _ _ _ _ _ _ h
  obtain ⟨w2, hw2, hdec2⟩ := removeWhiteSpaces_decomp sv2
  rw [hp2] at hdec2
  refine ⟨w ++ 123 :: (w2 ++ p2), ?_, ?_, ?_⟩
  · rw [hdec, hdec2]
    simp
  · have := nonSpaceEnd_append (w ++ 123 :: w2) hn2
    simpa using this
  · intro r2
    obtain ⟨f, hf2⟩ := hctx r2
    refine ⟨f + 1, ?_⟩
    have e : (w ++ 123 :: (w2 ++ p2)) ++ r2 = w ++ 123 :: (w2 ++ (p2 ++ r2)) := by simp
    rw [e, Object.parse, assert_depth_le hd]
    simp only [removeWhiteSpaces_append_of_not hw (c := 123) (by decide), front_cons, ne_eq,
      not_true_eq_false, if_false, List.drop_succ_cons, List.drop_zero]
    rw [removeWhiteSpaces_spaces_append hw2,
      removeWhiteSpaces_prefix_keep hp2 (nonSpaceEnd_ne_nil hn2)]
    exact hf2

theorem array_loop_reads_step {F : Type} (fo : FloatOps F) (fuel : Nat)
    (hN : NodeReadsText fo fuel) (hL : ArrayLoopReadsText fo fuel) :
    ArrayLoopReadsText fo (fuel + 1) := by
  intro sv dep val t xs r h
  rw [Array.parseLoop] at h
  by_cases hf : front sv ≠ 93
  · rw [if_pos hf] at h
    obtain ⟨⟨x, r1⟩, hx, h2⟩ := Outcome.bind_eq_ok h
    simp only at h2
    by_cases h93 : front (removeWhiteSpaces r1) = 93
    · rw [if_pos h93] at h2
      simp only [Outcome.ok.injEq, Prod.mk.injEq] at h2
      obtain ⟨rfl, hr⟩ := h2
      obtain ⟨u, hu⟩ := front_eq_cons h93 (by decide)
      rw [hu] at hr
      simp only [List.drop_succ_cons, List.drop_zero] at hr
      subst hr
      obtain ⟨w1, hw1, hdec1⟩ := removeWhiteSpaces_eq_cons_decomp hu
      have hdel : Delimited r1 := by
        unfold Delimited
        rw [h93]
        decide
      obtain ⟨p0, hp0, hn0, hv0⟩ := hN _ _ _ _ hx hdel
      refine ⟨p0 ++ (w1 ++ [93]), ?_, ⟨p0 ++ w1, 93, by simp, by decide⟩, ?_⟩
      · rw [hp0, hdec1]
        simp
      · intro r2
        obtain ⟨f1, hf1⟩ := hv0 (w1 ++ 93 :: r2)
          (space_front_not_number hw1 (c := 93) (by decide) r2)
        refine ⟨f1 + 1, ?_⟩
        have e : (p0 ++ (w1 ++ [93])) ++ r2 = p0 ++ (w1 ++ 93 :: r2) := by simp
        rw [e]
        refine array_parseLoop_last fo ?_ hf1
          (removeWhiteSpaces_append_of_not hw1 (c := 93) (by decide) r2)
        rw [front_append_of_ne_nil (nonSpaceEnd_ne_nil hn0),
          ← front_append_of_ne_nil (nonSpaceEnd_ne_nil hn0) r1, ← hp0]
        exact hf
    · rw [if_neg h93] at h2
      by_cases h44 : front (removeWhiteSpaces r1) = 44
      · rw [if_pos h44] at h2
        obtain ⟨sv2, hu⟩ := front_eq_cons h44 (by decide)
        rw [hu] at h2
        simp only [List.drop_succ_cons, List.drop_zero] at h2
        obtain ⟨w1, hw1, hdec1⟩ := removeWhiteSpaces_eq_cons_decomp hu
        have hdel : Delimited r1 := by
          unfold Delimited
          rw [h44]
          decide
        obtain ⟨p0, hp0, hn0, hv0⟩ := hN _ _ _ _ hx hdel
        obtain ⟨p2, hp2, hn2, hctx⟩ := hL _ _ _ _ _ _ h2
        refine ⟨p0 ++ (w1 ++ 44 :: p2), ?_, ?_, ?_⟩
        · rw [hp0, hdec1, hp2]
          simp
        · have := nonSpaceEnd_append (p0 ++ (w1 ++ [44])) hn2
          simpa using this
        · intro r2
          obtain ⟨f1, hf1⟩ := hv0 (w1 ++ 44 :: (p2 ++ r2))
            (space_front_not_number hw1 (c := 44) (by decide) _)
          obtain ⟨f2, hf2⟩ := hctx r2
          have e : (p0 ++ (w1 ++ 44 :: p2)) ++ r2 = p0 ++ (w1 ++ 44 :: (p2 ++ r2)) := by
            simp
          rw [e]
          refine array_parseLoop_step fo ?_ hf1
            (removeWhiteSpaces_append_of_not hw1 (c := 44) (by decide) _) hf2 (by simp)
          rw [front_append_of_ne_nil (nonSpaceEnd_ne_nil hn0),
            ← front_append_of_ne_nil (nonSpaceEnd_ne_nil hn0) r1, ← hp0]
          exact hf
      · rw [if_neg h44] at h2
        simp at h2
  · rw [if_neg hf] at h
    have hf' : front sv = 93 := by simpa using hf
    obtain ⟨u, hu⟩ := front_eq_cons hf' (by decide)
    subst hu
    cases t with
    | true => simp [ENABLE_TRAILING_COMMA] at h
    | false =>
      simp only [Bool.false_and, Bool.false_eq_true, if_false, List.drop_succ_cons,
        List.drop_zero, Outcome.ok.injEq, Prod.mk.injEq] at h
      obtain ⟨rfl, rfl⟩ := h
      exact ⟨[93], rfl, ⟨[], 93, rfl, by decide⟩,
        fun r2 => ⟨1, array_parseLoop_close fo 0 r2 dep val⟩⟩

end JSON

namespace JSON

theorem string_parse_spaces_literal {w t d : List Nat} (hw : ∀ b ∈ w, isWhiteSpace b = true)
    (h : Decodes t d) (rest : List Nat) :
    String.parse (w ++ 34 :: (t ++ 34 :: rest)) = .ok (d, rest) := by
  rw [← string_parse_strip, removeWhiteSpaces_append_of_not hw (c := 34) (by decide),
    string_parse_literal h]

theorem front_spaces_cons (w : List Nat) (c : Nat) (x y : List Nat) :
    front (w ++ c :: x) = front (w ++ c :: y) := by
  cases w <;> rfl

theorem object_loop_reads_step {F : Type} (fo : FloatOps F) (fuel : Nat)
    (hN : NodeReadsText fo fuel) (hL : ObjectLoopReadsText fo fuel) :
    ObjectLoopReadsText fo (fuel + 1) := by
  intro sv dep val t xs r h
  rw [Object.parseLoop] at h
  by_cases hf : front sv ≠ 125
  · rw [if_pos hf] at h
    obtain ⟨⟨key, rk⟩, hK, h2⟩ := Outcome.bind_eq_ok h
    simp only [ENABLE_DUMPLICATED_KEY_DETECT, Bool.false_and, Bool.false_eq_true,
      if_false] at h2
    by_cases h58 : front (removeWhiteSpaces rk) ≠ 58
    · rw [if_pos h58] at h2
      simp at h2
    rw [if_neg h58] at h2
    have h58' : front (removeWhiteSpaces rk) = 58 := by simpa using h58
    obtain ⟨sv4, hu4⟩ := front_eq_cons h58' (by decide)
    rw [hu4] at h2
    simp only [List.drop_succ_cons, List.drop_zero] at h2
    obtain ⟨wk, hwk, hdeck⟩ := removeWhiteSpaces_eq_cons_decomp hu4
    obtain ⟨tk, hki, hkd⟩ := string_parse_inv hK
    obtain ⟨w, hw, hdec⟩ := removeWhiteSpaces_eq_cons_decomp hki
    have hfr : ∀ y, front (w ++ 34 :: y) ≠ 125 := by
      intro y
      rw [front_spaces_cons w 34 y (tk ++ 34 :: rk), ← hdec]
      exact hf
    obtain ⟨⟨x, r1⟩, hx, h3⟩ := Outcome.bind_eq_ok h2
    simp only at h3
    by_cases h125 : front (removeWhiteSpaces r1) = 125
    · rw [if_pos h125] at h3
      simp only [Outcome.ok.injEq, Prod.mk.injEq] at h3
      obtain ⟨rfl, hr⟩ := h3
      obtain ⟨u, hu⟩ := front_eq_cons h125 (by decide)
      rw [hu] at hr
      simp only [List.drop_succ_cons, List.drop_zero] at hr
      subst hr
      obtain ⟨w1, hw1, hdec1⟩ := removeWhiteSpaces_eq_cons_decomp hu
      have hdel : Delimited r1 := by
        unfold Delimited
        rw [h125]
        decide
      obtain ⟨p0, hp0, hn0, hv0⟩ := hN _ _ _ _ hx hdel
      refine ⟨w ++ 34 :: (tk ++ 34 :: (wk ++ 58 :: (p0 ++ (w1 ++ [125])))), ?_,
        ⟨w ++ 34 :: (tk ++ 34 :: (wk ++ 58 :: (p0 ++ w1))), 125, by simp, by decide⟩, ?_⟩
      · rw [hdec, hdeck, hp0, hdec1]
        simp
      · intro r2
        obtain ⟨f1, hf1⟩ := hv0 (w1 ++ 125 :: r2)
          (space_front_not_number hw1 (c := 125) (by decide) r2)
        refine ⟨f1 + 1, ?_⟩
        have e : (w ++ 34 :: (tk ++ 34 :: (wk ++ 58 :: (p0 ++ (w1 ++ [125]))))) ++ r2
            = w ++ 34 :: (tk ++ 34 :: (wk ++ 58 :: (p0 ++ (w1 ++ 125 :: r2)))) := by simp
        rw [e]
        exact object_parseLoop_last fo (hfr _) (string_parse_spaces_literal hw hkd _)
          (removeWhiteSpaces_append_of_not hwk (c := 58) (by decide) _) hf1
          (removeWhiteSpaces_append_of_not hw1 (c := 125) (by decide) r2)
    · rw [if_neg h125] at h3
      by_cases h44 : front (removeWhiteSpaces r1) = 44
      · rw [if_pos h44] at h3
        obtain ⟨sv2, hu⟩ := front_eq_cons h44 (by decide)
        rw [hu] at h3
        simp only [List.drop_succ_cons, List.drop_zero] at h3
        obtain ⟨w1, hw1, hdec1⟩ := removeWhiteSpaces_eq_cons_decomp hu
        have hdel : Delimited r1 := by
          unfold Delimited
          rw [h44]
          decide
        obtain ⟨p0, hp0, hn0, hv0⟩ := hN _ _ _ _ hx hdel
        obtain ⟨p2, hp2, hn2, hctx⟩ := hL _ _ _ _ _ _ h3
        refine ⟨w ++ 34 :: (tk ++ 34 :: (wk ++ 58 :: (p0 ++ (w1 ++ 44 :: p2)))), ?_, ?_, ?_⟩
        · rw [hdec, hdeck, hp0, hdec1, hp2]
          simp
        · have := nonSpaceEnd_append
            (w ++ 34 :: (tk ++ 34 :: (wk ++ 58 :: (p0 ++ (w1 ++ [44]))))) hn2
          simpa using this
        · intro r2
          obtain ⟨f1, hf1⟩ := hv0 (w1 ++ 44 :: (p2 ++ r2))
            (space_front_not_number hw1 (c := 44) (by decide) _)
          obtain ⟨f2, hf2⟩ := hctx r2
          have e : (w ++ 34 :: (tk ++ 34 :: (wk ++ 58 :: (p0 ++ (w1 ++ 44 :: p2))))) ++ r2
              = w ++ 34 :: (tk ++ 34 :: (wk ++ 58 :: (p0 ++ (w1 ++ 44 :: (p2 ++ r2))))) := by
            simp
          rw [e]
          exact object_parseLoop_step fo (hfr _) (string_parse_spaces_literal hw hkd _)
            (removeWhiteSpaces_append_of_not hwk (c := 58) (by decide) _) hf1
            (removeWhiteSpaces_append_of_not hw1 (c := 44) (by decide) _) hf2 (by simp)
      · rw [if_neg h44] at h3
        simp at h3
  · rw [if_neg hf] at h
    have hf' : front sv = 125 := by simpa using hf
    obtain ⟨u, hu⟩ := front_eq_cons hf' (by decide)
    subst hu
    cases t with
    | true => simp [ENABLE_TRAILING_COMMA] at h
    | false =>
      simp only [Bool.false_and, Bool.false_eq_true, if_false, List.drop_succ_cons,
        List.drop_zero, Outcome.ok.injEq, Prod.mk.injEq] at h
      obtain ⟨rfl, rfl⟩ := h
      exact ⟨[125], rfl, ⟨[], 125, rfl, by decide⟩,
        fun r2 => ⟨1, object_parseLoop_close fo 0 r2 dep val⟩⟩

theorem parse_reads_aux {F : Type} (fo : FloatOps F) : ∀ fuel : Nat,
    NodeReadsText fo fuel ∧ ArrayReadsText fo fuel ∧ ArrayLoopReadsText fo fuel ∧
      ObjectReadsText fo fuel ∧ ObjectLoopReadsText fo fuel := by
  intro fuel
  induction fuel with
  | zero =>
    refine ⟨?_, ?_, ?_, ?_, ?_⟩
    · intro sv dep v r h; simp [Node.parse] at h
    · intro sv dep xs r h; simp [Array.parse] at h
    · intro sv dep val t xs r h; simp [Array.parseLoop] at h
    · intro sv dep xs r h; simp [Object.parse] at h
    · intro sv dep val t xs r h; simp [Object.parseLoop] at h
  | succ fuel ih =>
    obtain ⟨hN, hA, hAL, hO, hOL⟩ := ih
    exact ⟨node_reads_step fo fuel hA hO, array_reads_step fo fuel hAL,
      array_loop_reads_step fo fuel hN hAL, object_reads_step fo fuel hOL,
      object_loop_reads_step fo fuel hN hOL⟩

/-- A call of `Node::parse` that returns, in front of what can follow a value, has
consumed a text of the value: the text does not end with white space, and `Node::parse`
returns the value from it in front of anything that does not continue a number. -/
theorem node_parse_reads {F : Type} (fo : FloatOps F) {fuel : Nat} {sv : List Nat} {dep : Nat}
    {v : Value F} {r : List Nat} (h : Node.parse fo fuel sv dep = .ok (v, r))
    (hd : Delimited r) : ∃ p, sv = p ++ r ∧ NonSpaceEnd p ∧ ValueText fo dep p v :=
  (parse_reads_aux fo fuel).1 sv dep v r h hd

theorem parse_eq_ok_iff {F : Type} (fo : FloatOps F) (sv : List Nat) (v : Value F) :
    parse fo sv = .ok v ↔
      ∃ f r, Node.parse fo f sv 0 = .ok (v, r) ∧ removeWhiteSpaces r = [] := by
  constructor
  · intro h
    unfold parse at h
    obtain ⟨⟨x, r⟩, hx, h2⟩ := Outcome.bind_eq_ok h
    simp only at h2
    split_ifs at h2 with he
    simp only [Outcome.ok.injEq] at h2
    subst h2
    refine ⟨_, r, hx, ?_⟩
    simpa using he
  · rintro ⟨f, r, h, hr⟩
    exact parse_of_node_ok fo h hr

theorem removeWhiteSpaces_eq_nil_iff (r : List Nat) :
    removeWhiteSpaces r = [] ↔ ∀ c ∈ r, isWhiteSpace c = true := by
  unfold removeWhiteSpaces
  exact List.dropWhile_eq_nil_iff

/-- Leading white space changes no result of `JSON::parse`. -/
theorem parse_leading_space {F : Type} (fo : FloatOps F) {w : List Nat}
    (hw : ∀ c ∈ w, isWhiteSpace c = true) (s : List Nat) (v : Value F) :
    parse fo (w ++ s) = .ok v ↔ parse fo s = .ok v := by
  rw [parse_eq_ok_iff, parse_eq_ok_iff]
  constructor
  · rintro ⟨f, r, h, hr⟩
    refine ⟨f, r, ?_, hr⟩
    rw [← node_parse_strip, removeWhiteSpaces_spaces_append hw, node_parse_strip] at h
    exact h
  · rintro ⟨f, r, h, hr⟩
    refine ⟨f, r, ?_, hr⟩
    rw [← node_parse_strip, removeWhiteSpaces_spaces_append hw, node_parse_strip]
    exact h

/-- Trailing white space changes no result of `JSON::parse`. -/
theorem parse_trailing_space {F : Type} (fo : FloatOps F) {w : List Nat}
    (hw : ∀ c ∈ w, isWhiteSpace c = true) (s : List Nat) (v : Value F) :
    parse fo (s ++ w) = .ok v ↔ parse fo s = .ok v := by
  rw [parse_eq_ok_iff, parse_eq_ok_iff]
  constructor
  · rintro ⟨f, r, h, hr⟩
    obtain ⟨p, hp, ⟨q, c, hq, hc⟩, hv⟩ := node_parse_reads fo h (delimited_of_spaces hr)
    have hrw := (removeWhiteSpaces_eq_nil_iff r).mp hr
    rcases List.append_eq_append_iff.mp hp with ⟨a, ha, hb⟩ | ⟨a, ha, hb⟩
    · -- `p = s ++ a`, `w = a ++ r`
      have ha0 : a = [] := by
        by_contra hne
        have hlast : c ∈ a := by
          have h1 : (s ++ a).getLast? = some c := by
            rw [← ha, hq]
            simp
          rw [List.getLast?_append_of_ne_nil _ hne] at h1
          exact List.mem_of_getLast?_eq_some h1
        have := hw c (by rw [hb]; exact List.mem_append_left _ hlast)
        rw [hc] at this
        exact absurd this (by decide)
      subst ha0
      rw [List.append_nil] at ha
      obtain ⟨f2, hf2⟩ := hv [] (by decide)
      rw [List.append_nil, ha] at hf2
      exact ⟨f2, [], hf2, rfl⟩
    · -- `s = p ++ a`, `r = a ++ w`
      have haw : ∀ x ∈ a, isWhiteSpace x = true :=
        fun x hx => hrw x (by rw [hb]; exact List.mem_append_left _ hx)
      have hra : removeWhiteSpaces a = [] := (removeWhiteSpaces_eq_nil_iff a).mpr haw
      obtain ⟨f2, hf2⟩ := hv a (delimited_front_not_number (delimited_of_spaces hra))
      rw [← ha] at hf2
      exact ⟨f2, a, hf2, hra⟩
  · rintro ⟨f, r, h, hr⟩
    obtain ⟨p, hp, _, hv⟩ := node_parse_reads fo h (delimited_of_spaces hr)
    have hrw := (removeWhiteSpaces_eq_nil_iff r).mp hr
    have hrw2 : removeWhiteSpaces (r ++ w) = [] := by
      rw [removeWhiteSpaces_eq_nil_iff]
      intro x hx
      rcases List.mem_append.mp hx with h' | h'
      · exact hrw x h'
      · exact hw x h'
    obtain ⟨f2, hf2⟩ := hv (r ++ w) (delimited_front_not_number (delimited_of_spaces hrw2))
    rw [← List.append_assoc, ← hp] at hf2
    exact ⟨f2, r ++ w, hf2, hrw2⟩

end JSON

namespace JSON

/-! ## The Number that `Node::parse` returns -/

theorem node_parse_number_inv {F : Type} (fo : FloatOps F) {fuel : Nat} {sv : List Nat}
    {dep : Nat} {n : Number F} {r : List Nat}
    (h : Node.parse fo fuel sv dep = .ok (.Number n, r)) :
    Number.parse fo (removeWhiteSpaces sv) = .ok (n, r) := by
  obtain ⟨hd, c, t, hsv, hc⟩ := node_parse_ok_start fo h
  cases fuel with
  | zero => simp [Node.parse] at h
  | succ fuel =>
    rw [Node.parse, assert_depth_le hd] at h
    simp only [hsv, front_cons] at h
    rw [hsv]
    split_ifs at h with c1 c2 c3 c4 c5 c6
    · obtain ⟨a, _, hb⟩ := Outcome.bind_eq_ok h
      simp at hb
    · obtain ⟨a, _, hb⟩ := Outcome.bind_eq_ok h
      simp at hb
    · obtain ⟨a, _, hb⟩ := Outcome.bind_eq_ok h
      simp at hb
    · obtain ⟨a, _, hb⟩ := Outcome.bind_eq_ok h
      simp at hb
    · obtain ⟨a, _, hb⟩ := Outcome.bind_eq_ok h
      simp at hb
    · obtain ⟨⟨m, ra⟩, ha, hb⟩ := Outcome.bind_eq_ok h
      simp only [Outcome.ok.injEq, Prod.mk.injEq, Value.Number.injEq] at hb
      obtain ⟨rfl, rfl⟩ := hb
      exact ha

theorem getLastD_append_mem (s : List Nat) {r : List Nat} (hr : r ≠ []) (d : Nat) :
    (s ++ r).getLastD d ∈ r := by
  rw [List.getLastD_eq_getLast?, List.getLast?_append_of_ne_nil _ hr,
    List.getLast?_eq_getLast _ hr]
  exact List.getLast_mem hr

end JSON

namespace JSON

/-! ## `std::stoll` on digits followed by an exponent -/

theorem to_string_nonneg (d : Int) (hd : 0 ≤ d) :
    ∃ ds, to_string d = ds ∧ ds ≠ [] ∧ (∀ c ∈ ds, isdigit c = true) ∧
      (digitsValue ds : Int) = d := by
  obtain ⟨ds, h1, h2, h3, h4⟩ := decimalDigits_spec (d.natAbs + 1) d.natAbs [] (by omega)
  rw [List.append_nil] at h1
  refine ⟨ds, ?_, h2, h3, ?_⟩
  · unfold to_string
    rw [if_neg (by omega), h1]
  · rw [h4]
    omega

theorem stoll_digits_then {ds : List Nat} (hne : ds ≠ []) (hd : ∀ c ∈ ds, isdigit c = true)
    {e : Nat} (he : isdigit e = false) (more : List Nat)
    (hr : (digitsValue ds : Int) ≤ 9223372036854775807) :
    stoll (ds ++ e :: more) = some (digitsValue ds : Int) := by
  obtain ⟨d, t, rfl⟩ := List.exists_cons_of_ne_nil hne
  have hd0 := isdigit_facts (hd d (List.mem_cons_self _ _))
  have htw : ((d :: t) ++ e :: more).takeWhile isdigit = d :: t :=
    takeWhile_append_all hd (e :: more) (by rw [front_cons]; exact he)
  unfold stoll
  have h1 : List.dropWhile isspace (d :: t ++ e :: more) = d :: t ++ e :: more := by
    simp [List.dropWhile, hd0.2.2.1]
  rw [h1]
  rw [List.cons_append] at htw ⊢
  simp only [takeSign_other _ hd0.1 hd0.2.1, htw, Bool.false_eq_true, if_false]
  rw [if_neg (by simp), if_pos ⟨by omega, hr⟩]

end JSON

namespace JSON

/-! ## Content after the value of a document -/

theorem space_not_numberChar {b : Nat} (h : isWhiteSpace b = true) :
    isNumberChar b = false := by
  unfold isWhiteSpace at h
  unfold isNumberChar isdigit
  simp only [Bool.or_eq_true, decide_eq_true_eq] at h
  simp only [Bool.or_eq_false_iff, decide_eq_false_iff_not, Bool.and_eq_false_iff,
    decide_eq_false_iff_not]
  omega

/-- What `JSON::parse` throws when `Node::parse` leaves more than white space. -/
theorem parse_of_node_rest {F : Type} (fo : FloatOps F) {f : Nat} {sv : List Nat}
    {v : Value F} {rest : List Nat} (h : Node.parse fo f sv 0 = .ok (v, rest))
    (hrest : removeWhiteSpaces rest ≠ []) :
    parse fo sv = .error (getJSONParseError (removeWhiteSpaces rest) (bytes "EOF")) := by
  unfold parse
  rw [node_parse_parseFuel_of fo h (by simp)]
  simp [hrest]

/-- A text that `JSON::parse` accepts, then white space, then a character that is not
white space: when there is white space in between or the character continues no
number, `JSON::parse` throws the `EOF` error at that character. -/
theorem parse_then_more {F : Type} (fo : FloatOps F) {t w rest : List Nat} {c : Nat}
    {v : Value F} (hp : parse fo t = .ok v) (hw : ∀ b ∈ w, isWhiteSpace b = true)
    (hc : isWhiteSpace c = false) (hcond : w ≠ [] ∨ isNumberChar c = false) :
    parse fo (t ++ w ++ c :: rest) =
      .error (getJSONParseError (c :: rest) (bytes "EOF")) := by
  obtain ⟨f, r, hN, hr⟩ := (parse_eq_ok_iff fo t v).mp hp
  obtain ⟨p, hpe, _, hv⟩ := node_parse_reads fo hN (delimited_of_spaces hr)
  have hrw := (removeWhiteSpaces_eq_nil_iff r).mp hr
  have hall : ∀ b ∈ r ++ w, isWhiteSpace b = true := by
    intro b hb
    rcases List.mem_append.mp hb with h | h
    · exact hrw b h
    · exact hw b h
  have hfront : isNumberChar (front ((r ++ w) ++ c :: rest)) = false := by
    cases hrw' : r ++ w with
    | nil =>
      rw [List.nil_append, front_cons]
      rcases hcond with h | h
      · exact absurd (List.append_eq_nil.mp hrw').2 h
      · exact h
    | cons b l =>
      rw [List.cons_append, front_cons]
      exact space_not_numberChar (hall b (by rw [hrw']; exact List.mem_cons_self _ _))
  obtain ⟨f2, hf2⟩ := hv ((r ++ w) ++ c :: rest) hfront
  have e : t ++ w ++ c :: rest = p ++ ((r ++ w) ++ c :: rest) := by
    rw [hpe]
    simp
  have hrm : removeWhiteSpaces ((r ++ w) ++ c :: rest) = c :: rest :=
    removeWhiteSpaces_append_of_not hall hc rest
  rw [e]
  have := parse_of_node_rest fo hf2 (by rw [hrm]; simp)
  rw [hrm] at this
  exact this

end JSON

namespace JSON

/-! ## The claim on the round trip -/

end JSON

namespace JSON

/-! ## The claims on numbers, depth and trailing content -/

/-- C2: `JSON::parse` does not reject every text that is not well-formed JSON: the
number with a leading zero `01` and the dangling exponent `1e` both parse, to the
integer-backed Number 1 that keeps the malformed text. -/
theorem parse_accepts_malformed_numbers {F : Type} (fo : FloatOps F) :
    parse fo (bytes "01") = .ok (.Number ⟨1, fo.ofInt64 1, false, bytes "01"⟩) ∧
    parse fo (bytes "1e") = .ok (.Number ⟨1, fo.ofInt64 1, false, bytes "1e"⟩) :=
  ⟨rfl, rfl⟩

/-- C3, as stated: the document of 1000 `[` followed by 1000 `]` is not parsed; the
depth guard throws at the 501st `[`. -/
theorem parse_nested_1000_rejected :
    parse intOps (List.replicate 1000 91 ++ List.replicate 1000 93) =
      .error (getJSONParseError (List.replicate 500 91 ++ List.replicate 1000 93)
        depthMessage) := by
  have h := nested_parse_error intOps 500 0
    (parseFuel (List.replicate 1000 91 ++ List.replicate 1000 93)) 499
    (List.replicate 1000 93) rfl
    (by unfold parseFuel
        rw [List.length_append, List.length_replicate, List.length_replicate]
        omega)
  unfold parse
  rw [show (1000 : Nat) = 500 + 1 + 499 from rfl, h]
  rfl

/-- C3, amended: the depth counter grows by two for each container entered (`Node::parse`
passes `dep + 1` to `Array::parse`, which passes `dep + 1` to each element), so the
document of 500 `[` followed by 500 `]` is parsed, to 500 nested arrays. -/
theorem parse_nested_500_ok {F : Type} (fo : FloatOps F) :
    parse fo (List.replicate 500 91 ++ List.replicate 500 93) = .ok (nestedArray F 499) := by
  have h := nested_parse_ok fo 499 0
    (parseFuel (List.replicate 500 91 ++ List.replicate 500 93)) [] (by omega)
    (by unfold parseFuel
        rw [List.length_append, List.length_replicate, List.length_replicate]
        omega)
  rw [List.append_nil] at h
  unfold parse
  rw [show (500 : Nat) = 499 + 1 from rfl, h]
  rfl

/-- C4: for every `n ≥ 1001`, `JSON::parse` of `n` `[` followed by `n` `]` throws the
parse error of `assert_depth`, whose expectation text is the max-recursion-depth
message; it is thrown at the 501st `[`. -/
theorem parse_nested_depth_exceeded {F : Type} (fo : FloatOps F) (n : Nat) (h : 1001 ≤ n) :
    parse fo (List.replicate n 91 ++ List.replicate n 93) =
      .error (getJSONParseError (List.replicate (n - 500) 91 ++ List.replicate n 93)
        (bytes ".., max rescurse depth exceeded")) := by
  obtain ⟨m, rfl⟩ : ∃ m, n = 500 + 1 + m := ⟨n - 501, by omega⟩
  have h := nested_parse_error fo 500 0
    (parseFuel (List.replicate (500 + 1 + m) 91 ++ List.replicate (500 + 1 + m) 93)) m
    (List.replicate (500 + 1 + m) 93) rfl
    (by unfold parseFuel
        rw [List.length_append, List.length_replicate, List.length_replicate]
        omega)
  unfold parse
  rw [h, show 500 + 1 + m - 500 = m + 1 by omega]
  rfl

theorem parse_nested_depth_exceeded_witness :
    1001 ≤ 1001 ∧
    parse intOps (List.replicate 1001 91 ++ List.replicate 1001 93) =
      .error (getJSONParseError (List.replicate (1001 - 500) 91 ++ List.replicate 1001 93)
        (bytes ".., max rescurse depth exceeded")) :=
  ⟨Nat.le_refl _, parse_nested_depth_exceeded intOps 1001 (Nat.le_refl _)⟩

/-- C7, on the code: a text that `JSON::parse` accepts, followed by white space and one
more character that is not white space, makes `JSON::parse` throw the parse error whose
expectation text is `EOF`, at that character, when there is white space in between or
the character is none of the number characters, as for `123 456`.  But `1-2`, the
complete value `1` followed by `-2`, is parsed: `Number::parse` takes the whole run
`1-2`, `std::stoll` reads `1` and stops, and a tree is returned, the integer-backed
Number 1 with the text `1-2`; likewise `1.2.3` gives a double-backed Number. -/
theorem parse_trailing_content {F : Type} (fo : FloatOps F) :
    (∀ (t w rest : List Nat) (c : Nat) (v : Value F), parse fo t = .ok v →
      (∀ b ∈ w, isWhiteSpace b = true) → isWhiteSpace c = false →
      (w ≠ [] ∨ isNumberChar c = false) →
      parse fo (t ++ w ++ c :: rest) =
        .error (getJSONParseError (c :: rest) (bytes "EOF"))) ∧
    parse fo (bytes "123 456") = .error (getJSONParseError (bytes "456") (bytes "EOF")) ∧
    parse fo (bytes "1") = .ok (.Number ⟨1, fo.ofInt64 1, false, bytes "1"⟩) ∧
    parse fo (bytes "1-2") = .ok (.Number ⟨1, fo.ofInt64 1, false, bytes "1-2"⟩) ∧
    parse intOps (bytes "1.2.3") = .ok (.Number ⟨1, 1, true, bytes "1.2.3"⟩) := by
  refine ⟨fun t w rest c v hp hw hc hcond => parse_then_more fo hp hw hc hcond,
    ?_, ?_, ?_, ?_⟩
  · have h123 : parse fo (bytes "123")
        = .ok (.Number ⟨123, fo.ofInt64 123, false, bytes "123"⟩) := by
      unfold parse
      rfl
    exact @parse_then_more F fo (bytes "123") (bytes " ") (bytes "56") 52 _ h123
      (by decide) (by decide) (Or.inl (by decide))
  · unfold parse
    rfl
  · unfold parse
    rfl
  · unfold parse
    rfl

end JSON

namespace JSON

/-! ## The claim on duplicate keys -/

/-- C5: with duplicate-key detection disabled (the default), an object text, in which
keys may occur more than once, is parsed, and the resulting Object holds each key once,
mapped to the value of its first occurrence in the text. -/
theorem parse_duplicate_keys {F : Type} (fo : FloatOps F) (ms : List (ObjectItem F))
    (hv : ∀ m ∈ ms, m.Valid fo 2) :
    parse fo (123 :: (joinItems (ms.map ObjectItem.bytes) ++ [125]))
      = .ok (.Object (insertAll [] ms)) ∧
    ((insertAll [] ms).map Prod.fst).Nodup ∧
    ∀ key, (insertAll [] ms).lookup key = (ms.map fun m => (m.key, m.value)).lookup key := by
  obtain ⟨f, hf⟩ := node_parse_object_text fo 0 (by decide) ms hv []
  refine ⟨parse_of_node_ok fo hf rfl, insertAll_nodup ms [] (by simp), ?_⟩
  intro key
  rw [insertAll_lookup]
  simp

theorem parse_duplicate_keys_witness :
    parse intOps (bytes "\x7b\"a\":1,\"a\":2\x7d")
      = .ok (.Object [(bytes "a", .Number ⟨1, 1, false, bytes "1"⟩)]) :=
  (parse_duplicate_keys intOps
    [⟨bytes "\"a\"", bytes "a", [], bytes "1", .Number ⟨1, 1, false, bytes "1"⟩, []⟩,
     ⟨bytes "\"a\"", bytes "a", [], bytes "2", .Number ⟨2, 2, false, bytes "2"⟩, []⟩]
    (by
      intro m hm
      simp only [List.mem_cons, List.mem_singleton, List.not_mem_nil, or_false] at hm
      rcases hm with h | h
      · subst h
        exact ⟨keyText_toJSONString (s := bytes "a") (by decide),
          valueText_int intOps 1 (by decide) (by decide), by simp, by simp⟩
      · subst h
        exact ⟨keyText_toJSONString (s := bytes "a") (by decide),
          valueText_int intOps 2 (by decide) (by decide), by simp, by simp⟩)).1

end JSON

namespace JSON

/-! ## The claim on trailing commas -/

/-- C6: under the default configuration an array text whose elements are each followed
by a comma, the last one included, then by optional white space and `]`, is not parsed:
`JSON::parse` throws a parse error (expecting the next value); likewise an object text
that ends with a comma, optional white space and `}`; whereas `[1,2]` is parsed, to the
Array of the two elements 1 and 2 in that order. -/
theorem parse_trailing_comma {F : Type} (fo : FloatOps F) :
    (∀ (es : List (ArrayItem F)) (ws tail : List Nat), es ≠ [] →
      (∀ e ∈ es, e.Valid fo 2) → (∀ b ∈ ws, isWhiteSpace b = true) →
      ∃ e, parse fo (91 :: (commaEach (es.map ArrayItem.bytes) ++ (ws ++ 93 :: tail)))
          = .error e ∧
        (e.excepted = bytes "next json value" ∨ e.excepted = bytes "any JSON value")) ∧
    (∀ (ms : List (ObjectItem F)) (ws tail : List Nat), ms ≠ [] →
      (∀ m ∈ ms, m.Valid fo 2) → (∀ b ∈ ws, isWhiteSpace b = true) →
      ∃ e, parse fo (123 :: (commaEach (ms.map ObjectItem.bytes) ++ (ws ++ 125 :: tail)))
          = .error e ∧
        (e.excepted = bytes "next json value" ∨ e.excepted = bytes "string start `\"`")) ∧
    parse fo (bytes "[1,2]") =
      .ok (.Array [.Number ⟨1, fo.ofInt64 1, false, bytes "1"⟩,
                   .Number ⟨2, fo.ofInt64 2, false, bytes "2"⟩]) := by
  refine ⟨?_, ?_, rfl⟩
  · intro es ws tail hne hv hws
    obtain ⟨f, e, h, hex⟩ := node_parse_array_trailing fo 0 (by decide) es hne hv ws tail hws
    exact ⟨e, parse_of_node_error fo h, hex⟩
  · intro ms ws tail hne hv hws
    obtain ⟨f, e, h, hex⟩ := node_parse_object_trailing fo 0 (by decide) ms hne hv ws tail hws
    exact ⟨e, parse_of_node_error fo h, hex⟩

theorem parse_trailing_comma_witness :
    (∃ e, parse intOps (bytes "[1,2 , ]") = .error e ∧
      (e.excepted = bytes "next json value" ∨ e.excepted = bytes "any JSON value")) ∧
    (∃ e, parse intOps (bytes "\x7b\"a\":1,\x7d") = .error e ∧
      (e.excepted = bytes "next json value" ∨ e.excepted = bytes "string start `\"`")) :=
  ⟨(parse_trailing_comma intOps).1
      [⟨bytes "1", .Number ⟨1, 1, false, bytes "1"⟩, []⟩,
       ⟨bytes "2", .Number ⟨2, 2, false, bytes "2"⟩, [32]⟩] [32] [] (by simp)
      (by
        intro e he
        simp only [List.mem_cons, List.mem_singleton, List.not_mem_nil, or_false] at he
        rcases he with h | h
        · subst h
          exact ⟨valueText_int intOps 1 (by decide) (by decide), by simp⟩
        · subst h
          exact ⟨valueText_int intOps 2 (by decide) (by decide), by decide⟩)
      (by decide),
   (parse_trailing_comma intOps).2.1
      [⟨bytes "\"a\"", bytes "a", [], bytes "1", .Number ⟨1, 1, false, bytes "1"⟩, []⟩] [] []
      (by simp)
      (by
        intro m hm
        simp only [List.mem_singleton] at hm
        subst hm
        exact ⟨keyText_toJSONString (s := bytes "a") (by decide),
          valueText_int intOps 1 (by decide) (by decide), by simp, by simp⟩)
      (by simp)⟩

end JSON

namespace JSON

/-! ## The claims on escapes -/

/-- C9, at the text `"\u12`: the `u` is followed by two characters only, and
`String::parse` does not throw a parse error: `sv.remove_prefix(4)` runs past the end of
the view, which is undefined behaviour. -/
theorem parse_truncated_unicode_escape {F : Type} (fo : FloatOps F) :
    String.parse (bytes "\"\\u12") = .undefined ∧ parse fo (bytes "\"\\u12") = .undefined := by
  refine ⟨rfl, ?_⟩
  unfold parse
  rfl

end JSON

namespace JSON

/-! ## The claim on control characters -/

/-- C10: a string literal whose content, after ordinary bytes and escapes, holds a raw
tab, NUL or newline byte is not parsed: `JSON::parse` throws a parse error, expecting
"no control char in string" at a tab or NUL and the end of the string at a newline. -/
theorem parse_raw_control_char {F : Type} (fo : FloatOps F) (ws pre d post : List Nat)
    (c : Nat) (hws : ∀ b ∈ ws, isWhiteSpace b = true) (hpre : Decodes pre d)
    (hc : c = 9 ∨ c = 0 ∨ c = 10) :
    ∃ e, parse fo (ws ++ 34 :: (pre ++ c :: post)) = .error e ∧
      e.excepted =
        (if c = 10 then bytes "string end `\"`" else bytes "no control char in string") := by
  have hsim := string_parseLoop_decodes hpre (c :: post) []
    ((34 :: (pre ++ c :: post)).length + 1) (by simp; omega)
  obtain ⟨f, hf⟩ : ∃ f, (34 :: (pre ++ c :: post)).length + 1 = f + 1 := ⟨_, rfl⟩
  rw [hf, string_parseLoop_control f c post _ hc] at hsim
  obtain ⟨e, he, hex⟩ := Outcome.sim_error_right hsim
  refine ⟨e, ?_, hex⟩
  have hstr : String.parse (34 :: (pre ++ c :: post)) = .error e := by
    unfold String.parse
    rw [removeWhiteSpaces_cons_of_not (c := 34) (by decide)]
    simp only [front_cons, ne_eq, not_true_eq_false, if_false, List.drop_succ_cons,
      List.drop_zero]
    rw [hf]
    exact he
  unfold parse parseFuel
  rw [node_parse_string fo _ (Nat.zero_le _)
    (removeWhiteSpaces_append_of_not hws (c := 34) (by decide) _), hstr]
  rfl

theorem parse_raw_control_char_witness :
    ∃ e, parse intOps (bytes "\"a\tb\"") = .error e ∧
      e.excepted = bytes "no control char in string" :=
  parse_raw_control_char intOps [] [97] [97] (bytes "b\"") 9 (by simp)
    (Decodes.char 97 [] [] (by decide) (by decide) (by decide) (by decide) (by decide)
      Decodes.nil)
    (Or.inl rfl)

end JSON

namespace JSON

/-! ## The claims on number texts, setters and serialization -/

/-- C11: for every `n` in the signed 64-bit range, `JSON::parse` of the canonical decimal
text of `n` (the text `std::to_string(n)`: an optional `-`, then digits) returns a Number
that is integer-backed, whose integer form is `n`, and that keeps the text. -/
theorem parse_integer_literal {F : Type} (fo : FloatOps F) (n : Int)
    (hn : -9223372036854775808 ≤ n ∧ n ≤ 9223372036854775807) :
    parse fo (to_string n) = .ok (.Number ⟨n, fo.ofInt64 n, false, to_string n⟩) := by
  obtain ⟨fuel, h⟩ := valueText_int fo n hn (Nat.zero_le 1000) [] (by decide)
  rw [List.append_nil] at h
  exact parse_of_node_ok fo h rfl

theorem parse_integer_literal_witness :
    to_string 42 = bytes "42" ∧
    parse intOps (bytes "42") = .ok (.Number ⟨42, 42, false, bytes "42"⟩) :=
  ⟨by decide, parse_integer_literal intOps 42 (by decide)⟩

/-- C13, on the code: the text `12345678901234567890` has no `.` and is outside the
signed 64-bit range, and `JSON::parse` throws the out-of-range parse error on it,
whatever `strtod` makes of texts: the retry of `Number::parse` reads the view after
`remove_prefix`, which is empty here, not the consumed text. -/
theorem parse_out_of_range_integer {F : Type} (fo : FloatOps F) :
    stoll (bytes "12345678901234567890") = none ∧
    parse fo (bytes "12345678901234567890") =
      .error (getJSONParseError [] (bytes "but got out of range")) := by
  refine ⟨by decide, ?_⟩
  unfold parse
  rfl

/-- C14: after `set(x)` a Number is integer-backed, has lost its preserved text, and
dumps as `std::to_string(x)`; after `set(d)` for a double `d` it is double-backed, has
lost its preserved text, and dumps as `std::to_string(d)`. -/
theorem set_clears_text {F : Type} (fo : FloatOps F) (n : Number F) (x : Int) (d : F) :
    ((n.set_int x).is_double = false ∧ (n.set_int x).str_raw = [] ∧
      (n.set_int x).value_int = x ∧ Number.dump fo (n.set_int x) = to_string x) ∧
    ((n.set_double d).is_double = true ∧ (n.set_double d).str_raw = [] ∧
      (n.set_double d).value_double = d ∧
      Number.dump fo (n.set_double d) = fo.to_string d) :=
  ⟨⟨rfl, rfl, rfl, rfl⟩, ⟨rfl, rfl, rfl, rfl⟩⟩

/-- C15: `String::toJSONString(s)` is a quote, then for each byte of `s` in order the two
bytes `\\`, `\"`, `\b`, `\f`, `\n`, `\r`, `\t` for a backslash, a quote, a backspace, a
form feed, a newline, a carriage return and a tab, and the byte itself for any other
byte, then a quote. -/
theorem toJSONString_bytes (s : List Nat) :
    String.toJSONString s =
      [34] ++ s.flatMap (fun c =>
        if c = 92 then [92, 92]
        else if c = 34 then [92, 34]
        else if c = 8 then [92, 98]
        else if c = 12 then [92, 102]
        else if c = 10 then [92, 110]
        else if c = 13 then [92, 114]
        else if c = 9 then [92, 116]
        else [c]) ++ [34] := by
  rw [toJSONString_eq]
  have hf : escapeOf = (fun c =>
        if c = 92 then [92, 92]
        else if c = 34 then [92, 34]
        else if c = 8 then [92, 98]
        else if c = 12 then [92, 102]
        else if c = 10 then [92, 110]
        else if c = 13 then [92, 114]
        else if c = 9 then [92, 116]
        else [c]) := by
    funext c
    unfold escapeOf
    split_ifs <;> first | rfl | simp_all
  rw [hf]
  simp

end JSON

namespace JSON

/-! ## The claims on arrays, strings, error messages and totality -/

/-- C16: `dump()` of an Array with the elements `vs` is `[`, then the `dump()` of the
elements in order with one comma between two neighbours, then `]`; the Array that
`Array::makeArray` builds has its arguments as elements, in their order, and dumps so;
the empty Array dumps as `[]`. -/
theorem dump_array_joined {F : Type} (fo : FloatOps F) (vs : List (Value F)) :
    Value.dump fo (.Array vs)
      = [91] ++ List.intercalate [44] (vs.map (Value.dump fo)) ++ [93] ∧
    Array.makeArray vs = .Array vs ∧
    Value.dump fo (Array.makeArray vs)
      = [91] ++ List.intercalate [44] (vs.map (Value.dump fo)) ++ [93] ∧
    Value.dump fo (.Array []) = bytes "[]" := by
  have h1 : Value.dump fo (.Array vs)
      = [91] ++ List.intercalate [44] (vs.map (Value.dump fo)) ++ [93] := by
    rw [dump_array, joinItems_eq_intercalate]
    simp
  have h2 : Array.makeArray vs = .Array vs := by
    unfold Array.makeArray
    rw [pushArray_eq]
    simp
  refine ⟨h1, h2, ?_, ?_⟩
  · rw [h2, h1]
  · rw [dump_array]
    rfl

/-- C20: for every byte string `s` without a NUL byte, `String::parse` applied to
`String::toJSONString(s)` returns `s` and leaves nothing of the text. -/
theorem string_roundtrip (s : List Nat) (h : ∀ c ∈ s, c ≠ 0) :
    String.parse (String.toJSONString s) = .ok (s, []) := by
  have := keyText_toJSONString h []
  simpa using this

theorem string_roundtrip_witness :
    String.toJSONString (bytes "a\"b\\\n\x01é") = bytes "\"a\\\"b\\\\\\n\x01é\"" ∧
    String.parse (bytes "\"a\\\"b\\\\\\n\x01é\"") = .ok (bytes "a\"b\\\n\x01é", []) :=
  ⟨by decide, string_roundtrip (bytes "a\"b\\\n\x01é") (by decide)⟩

/-- C19, as stated: the view that holds a NUL byte and then `1` is not exhausted, and
the error `JSON::parse` builds on it names `EOF` as the unexpected token. -/
theorem eof_named_before_end :
    ([0, 49] : List Nat) ≠ [] ∧
    (getJSONParseError [0, 49] (bytes "any JSON value")).unexpected_token = bytes "EOF" ∧
    parse intOps [0, 49] = .error (getJSONParseError [0, 49] (bytes "any JSON value")) :=
  ⟨by decide, by decide, by unfold parse; rfl⟩

/-- C19, amended: the error built by `getJSONParseError(sv, e)` names `EOF` as the
unexpected token exactly when `sv` is exhausted or its next byte is NUL, and the next
byte between backticks otherwise; its context is the first `min(30, |sv|)` bytes of
`sv`, never more than 30, followed by `...` exactly when these are 30; its expectation
is `e`, and the message is made of these in this order. -/
theorem getJSONParseError_message (sv e : List Nat) :
    ((getJSONParseError sv e).unexpected_token = bytes "EOF" ↔
      (sv = [] ∨ sv.head? = some 0)) ∧
    (∀ c rest, sv = c :: rest → c ≠ 0 →
      (getJSONParseError sv e).unexpected_token = [96, c, 96]) ∧
    (getJSONParseError sv e).bkg = sv.take (min 30 sv.length) ∧
    (getJSONParseError sv e).bkg.length ≤ 30 ∧
    ((getJSONParseError sv e).dots =
      if min 30 sv.length = 30 then bytes "..." else []) ∧
    (getJSONParseError sv e).excepted = e ∧
    (getJSONParseError sv e).what =
      bytes "Unexpected token " ++ (getJSONParseError sv e).unexpected_token ++
        bytes " at `" ++ sv.take (min 30 sv.length) ++ (getJSONParseError sv e).dots ++
        bytes "` (excepted " ++ e ++ bytes ")" := by
  have hb : (getJSONParseError sv e).bkg = sv.take (min 30 sv.length) := by
    unfold getJSONParseError
    simp only
    by_cases h : sv.length < 30
    · rw [show min 30 sv.length = sv.length by omega, List.take_of_length_le (by omega),
        List.take_of_length_le (le_refl _)]
    · rw [show min 30 sv.length = 30 by omega]
  refine ⟨?_, ?_, hb, ?_, ?_, rfl, ?_⟩
  · cases sv with
    | nil => simp [getJSONParseError, front]
    | cons c rest =>
      by_cases hc : c = 0
      · subst hc; simp [getJSONParseError, front]
      · simp only [getJSONParseError, front, List.headD_cons, hc, if_false, List.head?_cons,
          Option.some.injEq, false_or, iff_false, reduceCtorEq]
        rw [show bytes "EOF" = [69, 79, 70] by decide]
        simp
  · rintro c rest rfl hc
    simp [getJSONParseError, front, hc]
  · rw [hb, List.length_take]
    omega
  · unfold getJSONParseError
    simp only [List.length_take]
    by_cases h : sv.length < 30
    · have h1 : min 30 sv.length < 30 := by omega
      have h2 : ¬ min 30 sv.length = 30 := by omega
      simp [h1, h2]
    · have h1 : ¬ min 30 sv.length < 30 := by omega
      have h2 : min 30 sv.length = 30 := by omega
      simp [h1, h2]
  · unfold JSONParseException.what
    rw [hb]
    rfl

/-- C17, on the code: `JSON::parse` stops on every text (the embedding never runs out
of the fuel it starts from), but it does not always stop with a tree or a parse error:
on the text `["\u`, cut inside a Unicode escape, `String::parse` calls
`remove_prefix(4)` on an empty view, which is undefined behaviour. -/
theorem parse_stops_not_always_defined {F : Type} (fo : FloatOps F) :
    (∀ sv, (∃ v, parse fo sv = .ok v) ∨ (∃ e, parse fo sv = .error e) ∨
      parse fo sv = .undefined) ∧
    parse fo (bytes "[\"\\u") = .undefined := by
  refine ⟨?_, ?_⟩
  · intro sv
    have h := parse_ne_fuel fo sv
    cases hp : parse fo sv with
    | ok v => exact Or.inl ⟨v, rfl⟩
    | error e => exact Or.inr (Or.inl ⟨e, rfl⟩)
    | undefined => exact Or.inr (Or.inr rfl)
    | fuel => exact absurd hp h
  · unfold parse
    rfl

end JSON

namespace JSON

/-! ## The claims on preserved number texts and on white space around a document -/

/-- C12: when `JSON::parse` returns a Number from a text `t` that neither starts nor
ends with white space, `dump()` of the Number is exactly `t`, and the Number is
double-backed exactly when `t` contains a `.`. -/
theorem number_text_preserved {F : Type} (fo : FloatOps F) (t : List Nat) (n : Number F)
    (hs : NoSurroundingSpace t) (hp : parse fo t = .ok (.Number n)) :
    Number.dump fo n = t ∧ (46 ∈ t ↔ n.is_double = true) := by
  obtain ⟨f, r, hN, hr⟩ := (parse_eq_ok_iff fo t _).mp hp
  have hP := node_parse_number_inv fo hN
  obtain ⟨s, hi, _, hn⟩ := number_parse_inv fo hP (delimited_of_spaces hr)
  rw [removeWhiteSpaces_idem, front_removeWhiteSpaces_of_not hs.1] at hi
  have hr0 : r = [] := by
    by_contra hne
    have hmem := getLastD_append_mem s hne 0
    rw [← hi] at hmem
    have := (removeWhiteSpaces_eq_nil_iff r).mp hr _ hmem
    rw [hs.2] at this
    exact absurd this (by decide)
  subst hr0
  rw [List.append_nil] at hi
  subst hi
  obtain ⟨h1, h2⟩ := ofText_fields fo hn
  have hne := ofText_ne_nil fo hn
  constructor
  · unfold Number.dump
    rw [h1]
    cases t with
    | nil => exact absurd rfl hne
    | cons a l => rfl
  · rw [h2]
    simp

theorem number_text_preserved_witness :
    NoSurroundingSpace (bytes "3.14") ∧
    parse intOps (bytes "3.14") = .ok (.Number ⟨3, 3, true, bytes "3.14"⟩) ∧
    Number.dump intOps ⟨3, 3, true, bytes "3.14"⟩ = bytes "3.14" ∧
    (46 ∈ bytes "3.14" ↔ (⟨3, 3, true, bytes "3.14"⟩ : Number Int).is_double = true) :=
  ⟨by unfold NoSurroundingSpace; decide, by unfold parse; rfl,
    number_text_preserved intOps (bytes "3.14") ⟨3, 3, true, bytes "3.14"⟩
      (by unfold NoSurroundingSpace; decide) (by unfold parse; rfl)⟩

/-- C18: for every text `s` and all strings `w1`, `w2` of spaces, newlines, carriage
returns and tabs, `JSON::parse` returns a tree from `w1 ++ s ++ w2` exactly when it
returns that tree from `s`. -/
theorem parse_surrounding_space {F : Type} (fo : FloatOps F) (s w1 w2 : List Nat)
    (h1 : ∀ c ∈ w1, isWhiteSpace c = true) (h2 : ∀ c ∈ w2, isWhiteSpace c = true)
    (v : Value F) :
    parse fo (w1 ++ s ++ w2) = .ok v ↔ parse fo s = .ok v := by
  rw [parse_trailing_space fo h2, parse_leading_space fo h1]

theorem parse_surrounding_space_witness :
    parse intOps (bytes " \n" ++ bytes "[1]" ++ bytes "\t\r") =
      .ok (.Array [.Number ⟨1, 1, false, bytes "1"⟩]) :=
  (parse_surrounding_space intOps (bytes "[1]") (bytes " \n") (bytes "\t\r")
    (by decide) (by decide) _).mpr (by unfold parse; rfl)

end JSON

namespace JSON

/-! ## The claims on the nesting threshold, exponents and the frame of the setters -/

/-- C21: for every `k ≥ 1`, `JSON::parse` of `k` `[` followed by `k` `]` returns a tree
exactly when `k ≤ 500`: up to 500 it returns the `k` nested arrays, above 500 it throws
the depth error of `assert_depth` at the 501st `[`, the depth counter growing by two
for each container entered. -/
theorem parse_nesting_threshold {F : Type} (fo : FloatOps F) (k : Nat) (hk : 1 ≤ k) :
    ((∃ v, parse fo (List.replicate k 91 ++ List.replicate k 93) = .ok v) ↔ k ≤ 500) ∧
    (k ≤ 500 →
      parse fo (List.replicate k 91 ++ List.replicate k 93) = .ok (nestedArray F (k - 1))) ∧
    (500 < k →
      parse fo (List.replicate k 91 ++ List.replicate k 93) =
        .error (getJSONParseError (List.replicate (k - 500) 91 ++ List.replicate k 93)
          depthMessage)) := by
  have hok : k ≤ 500 →
      parse fo (List.replicate k 91 ++ List.replicate k 93) = .ok (nestedArray F (k - 1)) := by
    intro hle
    obtain ⟨j, rfl⟩ : ∃ j, k = j + 1 := ⟨k - 1, by omega⟩
    have h := nested_parse_ok fo j 0 (3 * j + 3) [] (by omega) (le_refl _)
    rw [List.append_nil] at h
    rw [Nat.add_sub_cancel]
    exact parse_of_node_ok fo h rfl
  have herr : 500 < k →
      parse fo (List.replicate k 91 ++ List.replicate k 93) =
        .error (getJSONParseError (List.replicate (k - 500) 91 ++ List.replicate k 93)
          depthMessage) := by
    intro hgt
    obtain ⟨m, rfl⟩ : ∃ m, k = 500 + 1 + m := ⟨k - 501, by omega⟩
    have h := nested_parse_error fo 500 0 (3 * 500 + 2) m
      (List.replicate (500 + 1 + m) 93) rfl (le_refl _)
    rw [show 500 + 1 + m - 500 = m + 1 by omega]
    exact parse_of_node_error fo h
  refine ⟨⟨?_, fun hle => ⟨_, hok hle⟩⟩, hok, herr⟩
  rintro ⟨v, hv⟩
  by_contra hgt
  rw [herr (by omega)] at hv
  simp at hv

theorem parse_nesting_threshold_witness :
    1 ≤ 500 ∧
    ((∃ v, parse intOps (List.replicate 500 91 ++ List.replicate 500 93) = .ok v) ↔
      500 ≤ 500) :=
  ⟨by decide, (parse_nesting_threshold intOps 500 (by decide)).1⟩

/-- C22: for every `d` with `0 ≤ d ≤ 2^63 - 1` and every token made of the decimal digits
of `d`, then `e` or `E`, then any characters among the digits, `+`, `-`, `e` and `E`,
`JSON::parse` returns the integer-backed Number whose integer form is `d` (the exponent
is not applied) and that keeps the token, so that `dump()` returns the token. -/
theorem parse_exponent_ignored {F : Type} (fo : FloatOps F) (d : Int)
    (hd : 0 ≤ d ∧ d ≤ 9223372036854775807) (e : Nat) (he : e = 101 ∨ e = 69)
    (more : List Nat)
    (hm : ∀ c ∈ more, isdigit c = true ∨ c = 43 ∨ c = 45 ∨ c = 101 ∨ c = 69) :
    parse fo (to_string d ++ e :: more) =
      .ok (.Number ⟨d, fo.ofInt64 d, false, to_string d ++ e :: more⟩) ∧
    Number.dump fo ⟨d, fo.ofInt64 d, false, to_string d ++ e :: more⟩ =
      to_string d ++ e :: more := by
  obtain ⟨ds, hts, hne, hds, hval⟩ := to_string_nonneg d hd.1
  rw [hts]
  have hed : isdigit e = false := by rcases he with h | h <;> subst h <;> decide
  have hall : ∀ c ∈ ds ++ e :: more, isNumberChar c = true ∧ c ≠ 46 := by
    intro c hc
    rcases List.mem_append.mp hc with h | h
    · have := isdigit_facts (hds c h)
      exact ⟨this.2.2.2.2.1, this.2.2.2.2.2⟩
    · rcases List.mem_cons.mp h with h | h
      · rcases he with h' | h' <;> subst h <;> subst h' <;> exact ⟨by decide, by decide⟩
      · rcases hm c h with h' | h' | h' | h' | h'
        · have := isdigit_facts h'
          exact ⟨this.2.2.2.2.1, this.2.2.2.2.2⟩
        · subst h'; exact ⟨by decide, by decide⟩
        · subst h'; exact ⟨by decide, by decide⟩
        · subst h'; exact ⟨by decide, by decide⟩
        · subst h'; exact ⟨by decide, by decide⟩
  have hdot : (ds ++ e :: more).contains 46 = false := by
    rw [List.contains_eq_any_beq, List.any_eq_false]
    intro c hc
    have := (hall c hc).2
    simpa using fun h : 46 = c => this h.symm
  have hst := stoll_digits_then hne hds hed more (by rw [hval]; exact hd.2)
  rw [hval] at hst
  have hfront : front (ds ++ e :: more) = 45 ∨ isdigit (front (ds ++ e :: more)) = true := by
    obtain ⟨c, t, rfl⟩ := List.exists_cons_of_ne_nil hne
    exact Or.inr (hds c (List.mem_cons_self _ _))
  have hn : Number.ofText fo (ds ++ e :: more) ((ds ++ e :: more).contains 46)
      = some ⟨d, fo.ofInt64 d, false, ds ++ e :: more⟩ := by
    rw [hdot]
    simp [Number.ofText, hst]
  have hp := node_parse_number_text fo 0 (Nat.zero_le 1000) hfront
    (fun c hc => (hall c hc).1) hn [] (by decide)
  rw [List.append_nil] at hp
  refine ⟨parse_of_node_ok fo hp rfl, ?_⟩
  unfold Number.dump
  obtain ⟨c, t, rfl⟩ := List.exists_cons_of_ne_nil hne
  rfl

theorem parse_exponent_ignored_witness :
    to_string 1 ++ 101 :: bytes "3" = bytes "1e3" ∧
    parse intOps (to_string 1 ++ 101 :: bytes "3") =
      .ok (.Number ⟨1, 1, false, to_string 1 ++ 101 :: bytes "3"⟩) :=
  ⟨by decide, (parse_exponent_ignored intOps 1 (by decide) 101 (Or.inl rfl) (bytes "3")
    (by decide)).1⟩

/-- C23: `set(x)` for an `int64_t` makes the integer form `x`, the flag false and the
preserved text empty and leaves the floating-point form as it was; `set(d)` for a double
makes the floating-point form `d`, the flag true and the text empty and leaves the
integer form as it was; so the Number that `JSON::parse` returns from `1`, after
`set(7)`, has the integer form 7 and the floating-point form of 1, which differ when
the doubles are taken to be the integers. -/
theorem set_frame {F : Type} (fo : FloatOps F) (n : Number F) (x : Int) (d : F) :
    n.set_int x = ⟨x, n.value_double, false, []⟩ ∧
    n.set_double d = ⟨n.value_int, d, true, []⟩ ∧
    parse fo (bytes "1") = .ok (.Number ⟨1, fo.ofInt64 1, false, bytes "1"⟩) ∧
    (Number.set_int ⟨1, fo.ofInt64 1, false, bytes "1"⟩ 7 : Number F) =
      ⟨7, fo.ofInt64 1, false, []⟩ ∧
    (Number.set_int ⟨1, intOps.ofInt64 1, false, bytes "1"⟩ 7 : Number Int).value_int ≠
      (Number.set_int ⟨1, intOps.ofInt64 1, false, bytes "1"⟩ 7 : Number Int).value_double := by
  refine ⟨rfl, rfl, ?_, rfl, by decide⟩
  unfold parse
  rfl

end JSON
